import Mathlib

/-!
# TinyInfiniTensor: allocator, shape inference, graph passes

A shallow embedding of `src/core/allocator.cc`, `src/utils/operator_utils.cc`,
`src/operators/{matmul,transpose,concat}.cc` and `src/core/graph.cc`.

Conventions
* `size_t` values are natural numbers; every arithmetic result is reduced
  modulo `2^64` (`wrap`).
* `std::map<size_t, size_t>` is a list of `(key, value)` pairs in ascending key
  order; iterators are positions in that list.
* a failing `IT_ASSERT` is the result `none`.
-/

namespace Infini

/-! ## Allocator (`src/core/allocator.cc`) -/

/-- Number of values of a `size_t`. -/
def wordSize : Nat := 2 ^ 64

/-- Reduction of an arithmetic result to a `size_t`. -/
def wrap (x : Nat) : Nat := x % wordSize

/-- The constructor sets `alignment = sizeof(uint64_t)` and nothing changes it. -/
def alignment : Nat := 8

/-- The free list, `std::map<size_t, size_t> freeBlocks`: offset to size, ascending offsets. -/
abbrev FreeMap := List (Nat × Nat)

/-- Allocator state. `ptr` is `none` for `nullptr`; once materialized it records
the byte count handed to `runtime->alloc`. -/
structure Allocator where
  used : Nat
  peak : Nat
  freeBlocks : FreeMap
  ptr : Option Nat
deriving DecidableEq, Repr

/-- `Allocator::Allocator`. -/
def Allocator.fresh : Allocator := ⟨0, 0, [], none⟩

/-- `Allocator::getAlignedSize`: `((size - 1) / alignment + 1) * alignment` on `size_t`.
The unsigned `size - 1` is `2^64 - 1` for `size = 0`. -/
def getAlignedSize : Nat → Nat
  | 0 => wrap (wrap ((wordSize - 1) / alignment + 1) * alignment)
  | size + 1 => wrap (wrap (size / alignment + 1) * alignment)

/-- `map::emplace(k, v)`: inserts at the ordered position; an existing key is left alone. -/
def mapEmplace : FreeMap → Nat → Nat → FreeMap
  | [], k, v => [(k, v)]
  | e :: m, k, v =>
    if k < e.1 then (k, v) :: e :: m
    else if k = e.1 then e :: m
    else e :: mapEmplace m k v

/-- `map::erase(it)` for the iterator at key `k`. -/
def mapErase (m : FreeMap) (k : Nat) : FreeMap := m.filter (fun e => e.1 != k)

/-- Entries strictly before `map::lower_bound(k)`. -/
def beforeLower (m : FreeMap) (k : Nat) : FreeMap := m.takeWhile (fun e => e.1 < k)

/-- Entries from `map::lower_bound(k)` on; the head is `*it`, `[]` is `end()`. -/
def fromLower (m : FreeMap) (k : Nat) : FreeMap := m.dropWhile (fun e => e.1 < k)

/-- Entries strictly before `map::upper_bound(k)`. -/
def beforeUpper (m : FreeMap) (k : Nat) : FreeMap := m.takeWhile (fun e => e.1 ≤ k)

/-- `Allocator::findFreeBlock`: first entry, in map order, whose size suffices. -/
def findFreeBlock (m : FreeMap) (size : Nat) : Option (Nat × Nat) :=
  m.find? (fun e => size ≤ e.2)

/-- The `while (!freeBlocks.empty())` loop closing `addFreeBlock`. Every iteration
that does not break erases an entry, so `fuel = freeBlocks.size()` iterations
exhaust the map. -/
def shrinkPeak : Nat → FreeMap → Nat → FreeMap × Nat
  | 0, m, peak => (m, peak)
  | fuel + 1, m, peak =>
    if m.isEmpty then (m, peak)
    else
      match (beforeUpper m peak).getLast? with
      | none => (m, peak)
      | some (blockAddr, blockSize) =>
        if wrap (blockAddr + blockSize) != peak then (m, peak)
        else shrinkPeak fuel (mapErase m blockAddr) blockAddr

/-- Left-merge step of `addFreeBlock`: returns the map, `addr` and `size` after it. -/
def mergeLeft (m : FreeMap) (addr size : Nat) : FreeMap × Nat × Nat :=
  match (beforeLower m addr).getLast? with
  | none => (m, addr, size)
  | some (leftAddr, leftSize) =>
    if wrap (leftAddr + leftSize) = addr then
      (mapErase m leftAddr, leftAddr, wrap (size + leftSize))
    else (m, addr, size)

/-- Right-merge step of `addFreeBlock`: returns the map and `size` after it. -/
def mergeRight (m : FreeMap) (addr size : Nat) : FreeMap × Nat :=
  match (fromLower m addr).head? with
  | none => (m, size)
  | some (rightAddr, rightSize) =>
    if wrap (addr + size) = rightAddr then
      (mapErase m rightAddr, wrap (size + rightSize))
    else (m, size)

/-- `Allocator::addFreeBlock`: the new free map and peak. -/
def addFreeBlock (m : FreeMap) (peak addr size : Nat) : FreeMap × Nat :=
  let l := mergeLeft m addr size
  let r := mergeRight l.1 l.2.1 l.2.2
  let m2 := mapEmplace r.1 l.2.1 r.2
  shrinkPeak m2.length m2 peak

/-- `Allocator::alloc`: the returned offset and the new state. -/
def Allocator.alloc (a : Allocator) (size : Nat) : Option (Nat × Allocator) :=
  if a.ptr.isSome then none
  else
    let size := getAlignedSize size
    match findFreeBlock a.freeBlocks size with
    | some (addr, blockSize) =>
      if blockSize < size then none
      else
        let m := mapErase a.freeBlocks addr
        let remain := blockSize - size
        let m := if 0 < remain then mapEmplace m (wrap (addr + size)) remain else m
        some (addr, { a with used := wrap (a.used + size), freeBlocks := m })
    | none =>
      some (a.peak, { a with peak := wrap (a.peak + size), used := wrap (a.used + size) })

/-- `Allocator::free`. -/
def Allocator.free (a : Allocator) (addr size : Nat) : Option Allocator :=
  if a.ptr.isSome then none
  else
    let size := getAlignedSize size
    if a.used < size then none
    else
      let r := addFreeBlock a.freeBlocks a.peak addr size
      some { a with used := a.used - size, freeBlocks := r.1, peak := r.2 }

/-- `Allocator::getPtr`: materializes `peak` bytes on the first call. -/
def Allocator.getPtr (a : Allocator) : Allocator :=
  match a.ptr with
  | none => { a with ptr := some a.peak }
  | some _ => a

/-- A call made on the allocator by a client. -/
inductive Call where
  | alloc (size : Nat)
  | free (addr size : Nat)
deriving DecidableEq, Repr

/-- A client session: the allocator together with the blocks handed out and not
yet released, each as `(offset, requested size)`. -/
structure Session where
  a : Allocator
  live : List (Nat × Nat)
deriving DecidableEq, Repr

/-- Fresh allocator, nothing handed out. -/
def Session.fresh : Session := ⟨Allocator.fresh, []⟩

/-- Removes the first occurrence of block `x` from the live list. -/
def eraseBlock : List (Nat × Nat) → Nat × Nat → List (Nat × Nat)
  | [], _ => []
  | b :: l, x => if b = x then l else b :: eraseBlock l x

/-- One client call, with the bookkeeping of the blocks handed out. -/
def Session.step (s : Session) : Call → Option Session
  | .alloc size =>
    match s.a.alloc size with
    | none => none
    | some (off, a) => some ⟨a, (off, size) :: s.live⟩
  | .free addr size =>
    match s.a.free addr size with
    | none => none
    | some a => some ⟨a, eraseBlock s.live (addr, size)⟩

/-- A sequence of client calls. -/
def Session.run (s : Session) : List Call → Option Session
  | [] => some s
  | c :: cs =>
    match s.step c with
    | none => none
    | some s2 => s2.run cs

/-- What the client owes at a call: a `free` names a block that is live, with the
size it was requested with; an `alloc` does not make `used` or `peak` exceed a
`size_t`. -/
def Session.stepOk (s : Session) : Call → Bool
  | .alloc size =>
    decide (s.a.used + getAlignedSize size < wordSize) &&
      ((findFreeBlock s.a.freeBlocks (getAlignedSize size)).isSome ||
        decide (s.a.peak + getAlignedSize size < wordSize))
  | .free addr size => decide ((addr, size) ∈ s.live)

/-- Every call of the sequence is one the client may make in the state it is made in.
Nothing is assumed about whether the allocator accepts the call. -/
def Session.admissible : Session → List Call → Bool
  | _, [] => true
  | s, c :: cs =>
    s.stepOk c &&
      (match s.step c with
       | none => true
       | some s2 => s2.admissible cs)

/-- The byte range `[offset, offset + alignedSize)` of a block `(offset, requested size)`. -/
def inBlock (b : Nat × Nat) (x : Nat) : Prop := b.1 ≤ x ∧ x < b.1 + getAlignedSize b.2

/-- The calls that put a zero-sized entry inside a free block. -/
def leakCalls : List Call :=
  [.alloc 8, .alloc 8, .alloc 8, .free 8 8, .alloc 0, .free 0 8, .free 8 0]

/-! ## Shape utilities and operators
(`src/utils/operator_utils.cc`, `src/operators/{matmul,transpose,concat}.cc`)

`Shape` is `vector<int>`. Dimensions are integers; the only arithmetic on them is the
sum in `ConcatObj::inferShape`, reduced to a 32-bit `int` by `wrapInt`. Vector lengths
are natural numbers (below `2^31`, so `static_cast<int>` of a rank is exact). -/

/-- `Shape`, a `vector<int>`. -/
abbrev Shape := List Int

/-- A 32-bit two's-complement `int` holding `x`. -/
def wrapInt (x : Int) : Int := (x + 2 ^ 31) % 2 ^ 32 - 2 ^ 31

/-- Runs the fallible steps in order; the first failure is the failure of the whole. -/
def allOk : List (Option Int) → Option (List Int)
  | [] => some []
  | none :: _ => none
  | some x :: rest =>
    match allOk rest with
    | none => none
    | some out => some (x :: out)

/-- Loop body of `infer_broadcast` at index `i`: the value written to `out[i]`, or the
failing assertion. -/
def broadcastAt (A B : Shape) (i : Nat) : Option Int :=
  let rankA := A.length
  let rankB := B.length
  let rank := max rankA rankB
  let dimA : Int := if i < rank - rankA then 1 else A.getD (i - (rank - rankA)) 0
  let dimB : Int := if i < rank - rankB then 1 else B.getD (i - (rank - rankB)) 0
  if dimA < 0 ∨ dimB < 0 then none
  else if dimA = dimB then some dimA
  else if dimA = 1 then some dimB
  else if dimB = 1 then some dimA
  else none

/-- `infer_broadcast(A, B)`; `none` is a failed `IT_ASSERT`. -/
def infer_broadcast (A B : Shape) : Option Shape :=
  allOk ((List.range (max A.length B.length)).map (broadcastAt A B))

/-- `get_real_axis(axis, rank)`. -/
def get_real_axis (axis rank : Int) : Option Int :=
  if ¬ (1 ≤ rank) then none
  else if ¬ (-rank ≤ axis ∧ axis ≤ rank - 1) then none
  else if axis < 0 then some (rank + axis)
  else some axis

/-- `MatmulObj::inferShape` on the shapes of `inputs`: the returned shapes and the
cached `(m, n, k)`. -/
def MatmulObj.inferShape (transA transB : Bool) (inputs : List Shape) :
    Option (List Shape × (Int × Int × Int)) :=
  match inputs with
  | [aDims, bDims] =>
    if aDims.length < 2 then none
    else if bDims.length < 2 then none
    else
      let aBatch := aDims.take (aDims.length - 2)
      let bBatch := bDims.take (bDims.length - 2)
      match infer_broadcast aBatch bBatch with
      | none => none
      | some outBatch =>
        let aM := if transA then aDims.getD (aDims.length - 1) 0 else aDims.getD (aDims.length - 2) 0
        let aK := if transA then aDims.getD (aDims.length - 2) 0 else aDims.getD (aDims.length - 1) 0
        let bK := if transB then bDims.getD (bDims.length - 1) 0 else bDims.getD (bDims.length - 2) 0
        let bN := if transB then bDims.getD (bDims.length - 2) 0 else bDims.getD (bDims.length - 1) 0
        if aK ≠ bK then none
        else some ([outBatch ++ [aM] ++ [bN]], (aM, bN, aK))
  | _ => none

/-- `TransposeObj::TransposeObj`: the stored `transposePermute` for an input of rank
`rank` and constructor argument `permute`. -/
def TransposeObj.init (rank : Nat) (permute : List Int) : Option (List Int) :=
  if permute.isEmpty then
    some ((List.range rank).map (fun i => ((rank - 1 - i : Nat) : Int)))
  else if rank = permute.length then some permute
  else none

/-- The `seen` loop of `TransposeObj::inferShape` over the entries of the permute still
to visit; `seen` is the array of marks. -/
def seenLoop (rank : Nat) : List Int → List Nat → Option (List Nat)
  | [], seen => some seen
  | p :: rest, seen =>
    if ¬ (0 ≤ p ∧ p < rank) then none
    else if seen.getD p.toNat 0 ≠ 0 then none
    else seenLoop rank rest (seen.set p.toNat 1)

/-- `TransposeObj::inferShape` for the stored permute. -/
def TransposeObj.inferShape (transposePermute : List Int) (inputs : List Shape) :
    Option (List Shape) :=
  match inputs with
  | [] => none
  | input_dim :: _ =>
    let rank := input_dim.length
    if transposePermute.length ≠ rank then none
    else
      match seenLoop rank transposePermute (List.replicate rank 0) with
      | none => none
      | some _ =>
        some [(List.range rank).map
          (fun i => input_dim.getD (transposePermute.getD i 0).toNat 0)]

/-- The loop of `ConcatObj::inferShape` over `inputs[1..]`: the running `sumDim`. -/
def concatLoop (dims : Shape) (dim : Nat) : List Shape → Int → Option Int
  | [], sumDim => some sumDim
  | cur :: rest, sumDim =>
    if cur.length ≠ dims.length then none
    else if (List.range dims.length).all (fun r => r = dim || cur.getD r 0 = dims.getD r 0) then
      concatLoop dims dim rest (wrapInt (sumDim + cur.getD dim 0))
    else none

/-- `ConcatObj::inferShape` for the stored (normalized) `dim`. -/
def ConcatObj.inferShape (dim : Int) (inputs : List Shape) : Option (List Shape) :=
  match inputs with
  | [] => none
  | dims :: rest =>
    if ¬ (0 ≤ dim ∧ dim < dims.length) then none
    else
      match concatLoop dims dim.toNat rest (dims.getD dim.toNat 0) with
      | none => none
      | some sumDim => some [dims.set dim.toNat sumDim]

/-! ## Graph (`src/core/graph.cc`)

Operators and tensors are heap objects; an `OpId` or `TensorId` is the address of one
(the `get()` of a `Ref`). The graph holds vectors of such references, the heap maps
an address to the object behind it. An operator erased from the op list stays in the
heap, as it does when the handle returned on its creation is still held: the source and
target references of the tensors keep reaching it until the edges are rebuilt. The
tensors hold these references weakly, so this is an assumption on the caller; every
statement about `optimize` past its first rewrite is made under it. -/

/-- Address of an operator object. -/
abbrev OpId := Nat

/-- Address of a tensor object. -/
abbrev TensorId := Nat

/-- `OpType` of the operators of `src/operators`. -/
inductive OpType where
  | MatMul
  | Transpose
  | Concat
deriving DecidableEq, Repr

/-- An operator object: the `OperatorObj` base fields and the attributes of
`MatmulObj` (`transA`, `transB`, cached `m, n, k`), `TransposeObj`
(`transposePermute`) and `ConcatObj` (`dim`). -/
structure OperatorObj where
  type : OpType
  inputs : List TensorId
  outputs : List TensorId
  predecessors : List OpId
  successors : List OpId
  transA : Bool
  transB : Bool
  mnk : Int × Int × Int
  transposePermute : List Int
  dim : Int
deriving DecidableEq, Repr

/-- A tensor object. -/
structure TensorObj where
  fuid : Nat
  shape : Shape
  dtypeSize : Nat
  source : Option OpId
  targets : List OpId
deriving DecidableEq, Repr

/-- `GraphObj`: the operator and tensor vectors, the `sorted` flag, the allocator, and
the heap the references point into. -/
structure GraphObj where
  ops : List OpId
  tensors : List TensorId
  sorted : Bool
  allocator : Allocator
  op : OpId → OperatorObj
  tensor : TensorId → TensorObj

/-- The test of `topo_sort` on one operator: not yet flagged, and every input has no
source or a flagged source. -/
def GraphObj.ready (g : GraphObj) (flags : List OpId) (o : OpId) : Bool :=
  !(flags.contains o) &&
    (g.op o).inputs.all (fun input =>
      match (g.tensor input).source with
      | none => true
      | some ptr => flags.contains ptr)

/-- The `for (auto const &op : ops)` pass of `topo_sort` over the operators still to
visit: the new `sorted`, `flags` and `modified`. -/
def GraphObj.topoPass (g : GraphObj) :
    List OpId → List OpId → List OpId → Bool → List OpId × List OpId × Bool
  | [], sorted, flags, modified => (sorted, flags, modified)
  | o :: rest, sorted, flags, modified =>
    if g.ready flags o then g.topoPass rest (sorted ++ [o]) (o :: flags) true
    else g.topoPass rest sorted flags modified

/-- How the `while` loop of `topo_sort` ends. -/
inductive TopoResult where
  | done (sorted : List OpId)
  | stuck
  | outOfFuel
deriving DecidableEq, Repr

/-- The `while (sorted.size() < ops.size())` loop of `topo_sort`, at most `fuel`
iterations. -/
def GraphObj.topoLoop (g : GraphObj) : Nat → List OpId → List OpId → TopoResult
  | 0, _, _ => .outOfFuel
  | fuel + 1, sorted, flags =>
    if sorted.length < g.ops.length then
      let r := g.topoPass g.ops sorted flags false
      if !r.2.2 then .stuck
      else g.topoLoop fuel r.1 r.2.1
    else .done sorted

/-- `GraphObj::topo_sort`: the returned `bool` (`none` if the loop did not end within
`ops.size() + 1` iterations) and the graph afterwards. -/
def GraphObj.topo_sort (g : GraphObj) : Option Bool × GraphObj :=
  if g.sorted then (some true, g)
  else
    match g.topoLoop (g.ops.length + 1) [] [] with
    | .done sorted => (some true, { g with ops := sorted, sorted := true })
    | .stuck => (some false, g)
    | .outOfFuel => (none, g)

/-- Operator `p` produces a tensor that operator `o` consumes, both in the op list. -/
def GraphObj.feeds (g : GraphObj) (p o : OpId) : Prop :=
  p ∈ g.ops ∧ o ∈ g.ops ∧ ∃ t ∈ (g.op o).inputs, (g.tensor t).source = some p

/-- In the list `l` every operator comes after the source operator of each of its
input tensors. -/
def GraphObj.TopoOrdered (g : GraphObj) (l : List OpId) : Prop :=
  ∀ l1 o l2, l = l1 ++ o :: l2 →
    ∀ t ∈ (g.op o).inputs, ∀ p, (g.tensor t).source = some p → p ∈ l1

/-- Loop invariant of `topo_sort`: `flags` holds exactly the emitted operators, each
emitted once, all of them from the op list, in topological order, none of them on a
cycle of `feeds`. -/
structure GraphObj.TopoInv (g : GraphObj) (sorted flags : List OpId) : Prop where
  flags_iff : ∀ o, o ∈ flags ↔ o ∈ sorted
  nodup : sorted.Nodup
  sub : ∀ o ∈ sorted, o ∈ g.ops
  ordered : g.TopoOrdered sorted
  acyclic : ∀ o ∈ sorted, ¬ Relation.TransGen g.feeds o o

/-! ### Example graphs -/

/-- A `Transpose` operator object with the given input, output and permute. -/
def transposeOp (input output : TensorId) (permute : List Int) : OperatorObj :=
  { type := .Transpose, inputs := [input], outputs := [output], predecessors := [],
    successors := [], transA := false, transB := false, mnk := (0, 0, 0),
    transposePermute := permute, dim := 0 }

/-- A `MatMul` operator object. -/
def matmulOp (a b c : TensorId) (transA transB : Bool) : OperatorObj :=
  { type := .MatMul, inputs := [a, b], outputs := [c], predecessors := [],
    successors := [], transA := transA, transB := transB, mnk := (0, 0, 0),
    transposePermute := [], dim := 0 }

/-- The chain `t0 -> op10 -> t1 -> op11 -> t2`, its op list in the order `[11, 10]`. -/
def chainGraph : GraphObj :=
  { ops := [11, 10], tensors := [0, 1, 2], sorted := false, allocator := Allocator.fresh,
    op := fun o => if o = 10 then transposeOp 0 1 [1, 0] else transposeOp 1 2 [1, 0],
    tensor := fun t =>
      if t = 0 then ⟨0, [2, 3], 4, none, [10]⟩
      else if t = 1 then ⟨1, [3, 2], 4, some 10, [11]⟩
      else ⟨2, [2, 3], 4, some 11, []⟩ }

/-- Two operators feeding each other: `op10` reads `t1` and writes `t0`, `op11` reads
`t0` and writes `t1`. -/
def cycleGraph : GraphObj :=
  { ops := [10, 11], tensors := [0, 1], sorted := false, allocator := Allocator.fresh,
    op := fun o => if o = 10 then transposeOp 1 0 [1, 0] else transposeOp 0 1 [1, 0],
    tensor := fun t =>
      if t = 0 then ⟨0, [2, 3], 4, some 10, [11]⟩
      else ⟨1, [3, 2], 4, some 11, [10]⟩ }

/-! ### `optimize` and `shape_infer` -/

/-- Outcome of a procedure with assertions and a bounded loop. -/
inductive Run (α : Type) where
  | ok (a : α)
  | assertFail
  | outOfFuel

/-- The heap with operator `o` replaced by `x`. -/
def GraphObj.setOp (g : GraphObj) (o : OpId) (x : OperatorObj) : GraphObj :=
  { g with op := fun i => if i = o then x else g.op i }

/-- The heap with tensor `t` replaced by `x`. -/
def GraphObj.setTensor (g : GraphObj) (t : TensorId) (x : TensorObj) : GraphObj :=
  { g with tensor := fun i => if i = t then x else g.tensor i }

/-- Modelled from the spec: `OperatorObj::getOutput()` and `getInputs(i)` (declared in
`core/operator.h`, not under `src/`): the single output, the `i`-th input. -/
def OperatorObj.getOutput (o : OperatorObj) : TensorId := o.outputs.getD 0 0

/-- See `OperatorObj.getOutput`. -/
def OperatorObj.getInput (o : OperatorObj) (i : Nat) : TensorId := o.inputs.getD i 0

/-- Modelled from the spec: `OperatorObj::replaceInput(t1, t2)` (`core/operator.cc`, not
under `src/`) rewires the operator to consume `t2` wherever it consumed `t1`. -/
def OperatorObj.replaceInput (o : OperatorObj) (t1 t2 : TensorId) : OperatorObj :=
  { o with inputs := o.inputs.map (fun t => if t = t1 then t2 else t) }

/-- The lambda `isSwapLast2Permute` of `optimize`. -/
def isSwapLast2Permute (perm : List Int) : Bool :=
  let r := perm.length
  if r < 2 then false
  else
    (List.range (r - 2)).all (fun i => perm.getD i 0 == (i : Int)) &&
      (perm.getD (r - 2) 0 == ((r - 1 : Nat) : Int) &&
        perm.getD (r - 1) 0 == ((r - 2 : Nat) : Int))

/-- The `for` loop of the lambda `isInversePermute`: `inv` after the entries of `p1`
from index `i` on; `none` is `return false`. -/
def inverseLoop (r : Nat) : List Int → Nat → List Int → Option (List Int)
  | [], _, inv => some inv
  | v :: rest, i, inv =>
    if v < 0 ∨ (r : Int) ≤ v ∨ inv.getD v.toNat 0 ≠ -1 then none
    else inverseLoop r rest (i + 1) (inv.set v.toNat (i : Int))

/-- The lambda `isInversePermute` of `optimize`. -/
def isInversePermute (p1 p2 : List Int) : Bool :=
  if p1.length ≠ p2.length then false
  else
    match inverseLoop p1.length p1 0 (List.replicate p1.length (-1)) with
    | none => false
    | some inv => inv == p2

/-- The tests of rule 1 on `op1 = ops[i]`: the partner `op2`, `in` and `out2` when
they all pass. `out1->getTargets()` is the recorded target list: the caller keeps the
handles of the operators, so a target erased from `ops` in an earlier iteration is
still alive and still listed. Without the handle the erased operator is destroyed, its
reference in the tensor has expired and `getTargets()` throws `std::bad_weak_ptr`; that
run is not described here. -/
def GraphObj.rule1Match (g : GraphObj) (op1 : OpId) : Option (OpId × TensorId × TensorId) :=
  if (g.op op1).type ≠ .Transpose then none
  else
    let out1 := (g.op op1).getOutput
    let targets := (g.tensor out1).targets
    if targets.length ≠ 1 then none
    else
      let op2 := targets.getD 0 0
      if (g.op op2).type ≠ .Transpose then none
      else if (g.op op2).getInput 0 ≠ out1 then none
      else if !isInversePermute (g.op op1).transposePermute (g.op op2).transposePermute then none
      else some (op2, (g.op op1).getInput 0, (g.op op2).getOutput)

/-- The rule-1 `for` loop over `ops`: the first index that passes the tests is rewritten
(consumers of `out2` rewired to `in`, `op1` and `op2` erased from `ops`) and the loop
breaks; `none` when no index passes. -/
def GraphObj.rule1 (g : GraphObj) : List OpId → Option GraphObj
  | [] => none
  | op1 :: rest =>
    match g.rule1Match op1 with
    | none => g.rule1 rest
    | some (op2, inp, out2) =>
      let g1 := (g.tensor out2).targets.foldl
        (fun h consumer => h.setOp consumer ((h.op consumer).replaceInput out2 inp)) g
      some { g1 with ops := (g1.ops.filter (fun o => o != op1)).filter (fun o => o != op2) }

/-- The body of rule 2 for one input slot of the MatMul `mm`: graph, `toRemove` and
`changed` afterwards. `in->getSource()` is the recorded source: the caller keeps the
handles of the operators, so a source erased from `ops` in an earlier iteration is
still alive and still returned. Without the handle the erased operator is destroyed and
`getSource()` returns null, so the slot is skipped; that run is not described here. -/
def GraphObj.rule2Slot (st : GraphObj × List OpId × Bool) (mm : OpId) (inputIdx : Nat) :
    GraphObj × List OpId × Bool :=
  let g := st.1
  let inp := (g.op mm).getInput inputIdx
  match (g.tensor inp).source with
  | none => st
  | some src =>
    if (g.op src).type ≠ .Transpose then st
    else if (g.op src).getOutput ≠ inp then st
    else if !isSwapLast2Permute (g.op src).transposePermute then st
    else
      let trIn := (g.op src).getInput 0
      let m1 := (g.op mm).replaceInput inp trIn
      let m2 : OperatorObj :=
        if inputIdx = 0 then { m1 with transA := !m1.transA }
        else { m1 with transB := !m1.transB }
      (g.setOp mm m2, src :: st.2.1, true)

/-- The rule-2 `for (auto &op : ops)` loop. -/
def GraphObj.rule2 (g : GraphObj) : GraphObj × List OpId × Bool :=
  g.ops.foldl
    (fun st o =>
      if (st.1.op o).type ≠ .MatMul then st
      else GraphObj.rule2Slot (GraphObj.rule2Slot st o 0) o 1)
    (g, [], false)

/-- The `while (changed)` loop of `optimize`, at most `fuel` iterations. -/
def GraphObj.rewriteLoop : Nat → GraphObj → Run GraphObj
  | 0, _ => .outOfFuel
  | fuel + 1, g =>
    match g.rule1 g.ops with
    | some g1 => GraphObj.rewriteLoop fuel g1
    | none =>
      let r := g.rule2
      let g2 : GraphObj :=
        if r.2.1.isEmpty then r.1
        else { r.1 with ops := r.1.ops.filter (fun o => !(r.2.1.contains o)) }
      if r.2.2 then GraphObj.rewriteLoop fuel g2 else .ok g2

/-! ### Reference notions for the shape claims -/

/-- Right-alignment of a shape to rank `n`: implicit `1`s are prepended. -/
def padOnes (n : Nat) (A : Shape) : Shape := List.replicate (n - A.length) 1 ++ A

/-- The broadcast of an aligned pair of dimensions that is compatible. -/
def broadcastDim (a b : Int) : Int := if a = b then a else if a = 1 then b else a

/-- The list `p` is a permutation of `0, ..., r-1`: each index appears exactly once. -/
def IsPermutationOf (p : List Int) (r : Nat) : Prop :=
  p.Perm ((List.range r).map Int.ofNat)

/-- The value `x` is representable in a 32-bit `int`. -/
def fitsInt (x : Int) : Prop := -2 ^ 31 ≤ x ∧ x < 2 ^ 31

/-- Total of the sizes of `inputs` on axis `dim`. -/
def axisSum (dim : Nat) (inputs : List Shape) : Int :=
  (inputs.map (fun s => s.getD dim 0)).sum

/-- Input `s` is incompatible with `dims` for a concat on axis `dim`: another rank, or
another size on an axis other than `dim`. -/
def concatMismatch (dims : Shape) (dim : Nat) (s : Shape) : Prop :=
  s.length ≠ dims.length ∨ ∃ r, r < dims.length ∧ r ≠ dim ∧ s.getD r 0 ≠ dims.getD r 0

/-! ### Safety invariant of the allocator -/

/-- Two `(offset, length)` ranges share no byte. -/
def Disj (a b : Nat × Nat) : Prop :=
  a.2 = 0 ∨ b.2 = 0 ∨ a.1 + a.2 ≤ b.1 ∨ b.1 + b.2 ≤ a.1

/-- Free entries with distinct keys, and free entries against live blocks `L`, share no
byte; nothing non-empty reaches past `peak`; no end wraps. -/
structure Safe (m : FreeMap) (peak : Nat) (L : List (Nat × Nat)) : Prop where
  peak_lt : peak < wordSize
  free_lt : ∀ e ∈ m, e.1 + e.2 < wordSize
  free_le : ∀ e ∈ m, 0 < e.2 → e.1 + e.2 ≤ peak
  free_disj : ∀ e1 ∈ m, ∀ e2 ∈ m, e1.1 ≠ e2.1 → Disj e1 e2
  free_live : ∀ e ∈ m, ∀ b ∈ L, Disj e b
  live_lt : ∀ b ∈ L, b.1 + b.2 < wordSize
  live_le : ∀ b ∈ L, 0 < b.2 → b.1 + b.2 ≤ peak
  live_disj : L.Pairwise Disj

/-- A block about to enter the free map: it is clear of every free entry and of every
live block. -/
structure Pending (m : FreeMap) (peak : Nat) (L : List (Nat × Nat)) (b : Nat × Nat) : Prop where
  lt : b.1 + b.2 < wordSize
  le : 0 < b.2 → b.1 + b.2 ≤ peak
  free : ∀ e ∈ m, Disj e b
  live : ∀ c ∈ L, Disj b c

/-- The live blocks as `(offset, alignedSize)` ranges. -/
def liveRanges (live : List (Nat × Nat)) : List (Nat × Nat) :=
  live.map (fun b => (b.1, getAlignedSize b.2))

/-- Invariant of a session: nothing materialized, `used` is the total of the live
aligned sizes, and the safety invariant holds against the live blocks. -/
structure Session.Inv (s : Session) : Prop where
  ptr : s.a.ptr = none
  used : s.a.used = ((s.live.map (fun b => getAlignedSize b.2)).sum)
  safe : Safe s.a.freeBlocks s.a.peak (liveRanges s.live)

/-- Each `free` of the sequence names a block that is live, with the size it was
requested with; the sizes are arbitrary and nothing is assumed about overflow. -/
def Session.freesLive : Session → List Call → Bool
  | _, [] => true
  | s, c :: cs =>
    (match c with
     | .alloc _ => true
     | .free addr size => decide ((addr, size) ∈ s.live)) &&
      (match s.step c with
       | none => true
       | some s2 => s2.freesLive cs)

/-- Alignment invariant: `peak`, every free entry (offset and size) and every live
offset are multiples of 8. -/
structure Session.Aligned (s : Session) : Prop where
  peak : s.a.peak % 8 = 0
  free : ∀ e ∈ s.a.freeBlocks, e.1 % 8 = 0 ∧ e.2 % 8 = 0
  live : ∀ b ∈ s.live, b.1 % 8 = 0

/-- Stack order: each `free` of the sequence names the most recently allocated block
that is still live, with the size it was requested with. -/
def Session.lifo : Session → List Call → Bool
  | _, [] => true
  | s, c :: cs =>
    (match c with
     | .alloc _ => true
     | .free addr size => decide (s.live.head? = some (addr, size))) &&
      (match s.step c with
       | none => true
       | some s2 => s2.lifo cs)

/-- The live blocks, most recent first, are stacked one on top of the other from
offset `0` up to `p`. -/
def stackAt : List (Nat × Nat) → Nat → Prop
  | [], p => p = 0
  | b :: rest, p => b.1 < wordSize ∧ p = wrap (b.1 + getAlignedSize b.2) ∧ stackAt rest b.1

/-- Invariant of a session run in stack order. -/
structure Session.StackInv (s : Session) : Prop where
  free : s.a.freeBlocks = []
  used : s.a.used = s.a.peak
  stack : stackAt s.live s.a.peak
  peak_lt : s.a.peak < wordSize

/-- Loop invariant of `isInversePermute` after the entries `pre` of `p1`: `inv` has
length `r`, holds `i` at position `pre[i]`, and `-1` at positions not in `pre`. -/
structure InverseInv (r : Nat) (pre inv : List Int) : Prop where
  len : inv.length = r
  range : ∀ v ∈ pre, 0 ≤ v ∧ v < r
  nodup : pre.Nodup
  hit : ∀ i, i < pre.length → inv.getD (pre.getD i 0).toNat 0 = (i : Int)
  miss : ∀ k, k < r → (k : Int) ∉ pre → inv.getD k 0 = -1

/-- The cleanup block of `optimize`: keeps the tensors referenced as an input or an
output by an operator of `ops`. -/
def GraphObj.removeUnreferenced (g : GraphObj) : GraphObj :=
  { g with tensors := g.tensors.filter (fun t =>
      g.ops.any (fun o => (g.op o).inputs.contains t || (g.op o).outputs.contains t)) }

/-- The two clearing loops of `optimize`: `targets.clear(); source.reset()` on every
tensor of `tensors`, `predecessors.clear(); successors.clear()` on every operator of
`ops`. -/
def GraphObj.clearEdges (g : GraphObj) : GraphObj :=
  let g1 := g.tensors.foldl
    (fun h t => h.setTensor t { h.tensor t with targets := [], source := none }) g
  g1.ops.foldl
    (fun h o => h.setOp o { h.op o with predecessors := [], successors := [] }) g1

/-- Modelled from the spec: `TensorObj::addTarget(op)` (`core/tensor.h`, not under
`src/`), edge maintenance: the operator is appended to the target list. -/
def TensorObj.addTarget (t : TensorObj) (o : OpId) : TensorObj :=
  { t with targets := t.targets ++ [o] }

/-- Modelled from the spec: `TensorObj::setSource(op)` (`core/tensor.h`, not under
`src/`), edge maintenance: the operator becomes the source. -/
def TensorObj.setSource (t : TensorObj) (o : OpId) : TensorObj :=
  { t with source := some o }

/-- Modelled from the spec: `OperatorObj::addSuccessors(op)` (`core/operator.h`, not
under `src/`): the operator is appended to the successors. -/
def OperatorObj.addSuccessors (x : OperatorObj) (o : OpId) : OperatorObj :=
  { x with successors := x.successors ++ [o] }

/-- Modelled from the spec: `OperatorObj::addPredecessors(op)` (`core/operator.h`, not
under `src/`): the operator is appended to the predecessors. -/
def OperatorObj.addPredecessors (x : OperatorObj) (o : OpId) : OperatorObj :=
  { x with predecessors := x.predecessors ++ [o] }

/-- The body of the input loop that connects operator `o`, in `addOperatorAndConnect`
and in the edge rebuild of `optimize`. -/
def GraphObj.connectInput (g : GraphObj) (o : OpId) (input : TensorId) : GraphObj :=
  let g1 := g.setTensor input ((g.tensor input).addTarget o)
  match (g1.tensor input).source with
  | none => g1
  | some pred =>
    let g2 := g1.setOp pred ((g1.op pred).addSuccessors o)
    g2.setOp o ((g2.op o).addPredecessors pred)

/-- The rebuilding loop of `optimize` for operator `o`: inputs, then outputs. -/
def GraphObj.connectOp (g : GraphObj) (o : OpId) : GraphObj :=
  let g1 := (g.op o).inputs.foldl (fun h input => h.connectInput o input) g
  (g1.op o).outputs.foldl
    (fun h output => h.setTensor output ((h.tensor output).setSource o)) g1

/-- The edge rebuild of `optimize`. -/
def GraphObj.rebuildEdges (g : GraphObj) : GraphObj :=
  let g1 := g.clearEdges
  g1.ops.foldl (fun h o => h.connectOp o) g1

/-- `GraphObj::optimize`, its `while` loop bounded by `fuel` iterations. -/
def GraphObj.optimize (fuel : Nat) (g : GraphObj) : Run GraphObj :=
  match g.topo_sort with
  | (some true, g1) =>
    match g1.rewriteLoop fuel with
    | .ok g2 =>
      let g3 := g2.removeUnreferenced.rebuildEdges
      match ({ g3 with sorted := false } : GraphObj).topo_sort with
      | (some true, g4) => .ok g4
      | (some false, _) => .assertFail
      | (none, _) => .outOfFuel
    | .assertFail => .assertFail
    | .outOfFuel => .outOfFuel
  | (some false, _) => .assertFail
  | (none, _) => .outOfFuel

/-- `op->inferShape()` on the shapes of the operator's inputs as stored in the tensors:
the shapes and the operator afterwards (`MatmulObj` caches `m, n, k`). -/
def GraphObj.inferShapeOf (g : GraphObj) (o : OpId) : Option (List Shape × OperatorObj) :=
  let shapes := (g.op o).inputs.map (fun t => (g.tensor t).shape)
  match (g.op o).type with
  | .MatMul =>
    match MatmulObj.inferShape (g.op o).transA (g.op o).transB shapes with
    | none => none
    | some r => some (r.1, { g.op o with mnk := r.2 })
  | .Transpose =>
    match TransposeObj.inferShape (g.op o).transposePermute shapes with
    | none => none
    | some r => some (r, g.op o)
  | .Concat =>
    match ConcatObj.inferShape (g.op o).dim shapes with
    | none => none
    | some r => some (r, g.op o)

/-- `GraphObj::getTensor(fuid)`: the first tensor of the list with that fuid. -/
def GraphObj.getTensor (g : GraphObj) (fuid : Nat) : Option TensorId :=
  g.tensors.find? (fun t => (g.tensor t).fuid == fuid)

/-- The inner loop of `shape_infer` for output `i` with its new shape: `setShape` on
the tensor found by fuid when the shapes differ (`none` when `getTensor` finds nothing
to call `setShape` on). -/
def GraphObj.updateShape (g : GraphObj) (output : TensorId) (newShape : Shape) :
    Option GraphObj :=
  if newShape ≠ (g.tensor output).shape then
    match g.getTensor (g.tensor output).fuid with
    | none => none
    | some t => some (g.setTensor t { g.tensor t with shape := newShape })
  else some g

/-- The inner loop of `shape_infer` over the outputs paired with the new shapes. -/
def GraphObj.updateShapes (g : GraphObj) : List (TensorId × Shape) → Option GraphObj
  | [] => some g
  | (output, newShape) :: rest =>
    match g.updateShape output newShape with
    | none => none
    | some g1 => g1.updateShapes rest

/-- The body of `shape_infer` for operator `o`. -/
def GraphObj.shapeInferOp (g : GraphObj) (o : OpId) : Option GraphObj :=
  match g.inferShapeOf o with
  | none => none
  | some (shapes, obj) =>
    if shapes.length ≠ obj.outputs.length then none
    else (g.setOp o obj).updateShapes (obj.outputs.zip shapes)

/-- The loop of `shape_infer` over the operators still to visit. -/
def GraphObj.shapeInferOps (g : GraphObj) : List OpId → Option GraphObj
  | [] => some g
  | o :: rest =>
    match g.shapeInferOp o with
    | none => none
    | some g1 => g1.shapeInferOps rest

/-- `GraphObj::shape_infer`; `none` is a failed assertion. -/
def GraphObj.shape_infer (g : GraphObj) : Option GraphObj := g.shapeInferOps g.ops

/-- `GraphObj::checkValid`; `false` is a failed assertion. -/
def GraphObj.checkValid (g : GraphObj) : Bool :=
  g.tensors.all (fun t =>
    !((g.tensor t).targets.isEmpty && (g.tensor t).source.isNone) &&
    (g.tensor t).targets.all (fun o => g.ops.contains o) &&
    (match (g.tensor t).source with
     | none => true
     | some o => g.ops.contains o)) &&
  g.ops.all (fun o =>
    (g.op o).inputs.all (fun t => g.tensors.contains t) &&
    (g.op o).outputs.all (fun t => g.tensors.contains t) &&
    (g.op o).predecessors.all (fun p => g.ops.contains p) &&
    (g.op o).successors.all (fun p => g.ops.contains p)) &&
  decide ((g.tensors.map (fun t => (g.tensor t).fuid)).Nodup)

/-- `GraphObj::addOperatorAndConnect` for the operator object at address `o`. -/
def GraphObj.addOperatorAndConnect (g : GraphObj) (o : OpId) : GraphObj :=
  let g0 : GraphObj := { g with sorted := false, ops := g.ops ++ [o] }
  let g1 := (g0.op o).inputs.foldl (fun h input => h.connectInput o input) g0
  (g1.op o).outputs.foldl
    (fun h output =>
      let h1 := h.setTensor output ((h.tensor output).setSource o)
      (h1.tensor output).targets.foldl
        (fun k succ =>
          let k1 := k.setOp succ ((k.op succ).addPredecessors o)
          k1.setOp o ((k1.op o).addSuccessors succ))
        h1)
    g1

/-! ### `dataMalloc` -/

/-- Modelled from the spec: `GraphObj::getInputs()` (`core/graph.h`, not under `src/`):
the graph input tensors, those of the tensor list without source. -/
def GraphObj.getInputs (g : GraphObj) : List TensorId :=
  g.tensors.filter (fun t => (g.tensor t).source.isNone)

/-- Modelled from the spec: `TensorObj::getBytes()` (`core/tensor.h`, not under `src/`):
`product(shape) × dtype_width`, as a `size_t`. -/
def TensorObj.getBytes (t : TensorObj) : Nat := wrap (t.shape.prod.toNat * t.dtypeSize)

/-- An allocator call made by `dataMalloc`, with the tensor it is made for. -/
inductive PlanEvent where
  | alloc (t : TensorId) (off : Nat)
  | free (t : TensorId) (off : Nat)
deriving DecidableEq, Repr

/-- The locals of `dataMalloc` during the walk: the allocator, the maps
`remainingUses` and `offsets`, and the allocator calls made so far, latest first. -/
structure PlanState where
  a : Allocator
  remainingUses : TensorId → Option Nat
  offsets : TensorId → Option Nat
  events : List PlanEvent

/-- The map `bytes` read with `operator[]`: `getBytes()` for a tensor of the tensor
list, a fresh zero entry otherwise. -/
def GraphObj.bytesOf (g : GraphObj) (t : TensorId) : Nat :=
  if t ∈ g.tensors then (g.tensor t).getBytes else 0

/-- Membership in the set `keepAlive`: tensors of the list without targets. -/
def GraphObj.keepAlive (g : GraphObj) (t : TensorId) : Bool :=
  g.tensors.contains t && (g.tensor t).targets.isEmpty

/-- The locals after the initialisation loop over `tensors`. -/
def GraphObj.planStart (g : GraphObj) : PlanState :=
  { a := g.allocator
    remainingUses := fun t =>
      if t ∈ g.tensors then some (g.tensor t).targets.length else none
    offsets := fun _ => none
    events := [] }

/-- The lambda `ensureAlloc`; `none` is a failed assertion of `Allocator::alloc`. -/
def GraphObj.ensureAlloc (g : GraphObj) (s : PlanState) (t : TensorId) : Option PlanState :=
  match s.offsets t with
  | some _ => some s
  | none =>
    match s.a.alloc (g.bytesOf t) with
    | none => none
    | some (off, a) =>
      some { s with a := a, offsets := fun x => if x = t then some off else s.offsets x,
                    events := .alloc t off :: s.events }

/-- The body of the loop over the inputs of the visited operator; `none` is a failed
assertion of `Allocator::free`. -/
def GraphObj.release (g : GraphObj) (s : PlanState) (t : TensorId) : Option PlanState :=
  match s.remainingUses t with
  | none => some s
  | some n =>
    let n2 := if 0 < n then n - 1 else n
    let s1 : PlanState :=
      { s with remainingUses := fun x => if x = t then some n2 else s.remainingUses x }
    if n2 = 0 ∧ g.keepAlive t = false then
      match s1.offsets t with
      | none => some s1
      | some off =>
        match s1.a.free off (g.bytesOf t) with
        | none => none
        | some a => some { s1 with a := a, events := .free t off :: s1.events }
    else some s1

/-- One step of the walk of `dataMalloc`. -/
inductive PlanAction where
  | ensure (t : TensorId)
  | release (t : TensorId)
deriving DecidableEq, Repr

/-- The walk of `dataMalloc` in the order it is executed: `ensureAlloc` on the graph
inputs, then for each operator `ensureAlloc` on its outputs followed by the release of
its inputs. -/
def GraphObj.planActions (g : GraphObj) : List PlanAction :=
  g.getInputs.map PlanAction.ensure ++
    g.ops.flatMap (fun o =>
      (g.op o).outputs.map PlanAction.ensure ++ (g.op o).inputs.map PlanAction.release)

/-- One step of the walk. -/
def GraphObj.planStep (g : GraphObj) (s : PlanState) : PlanAction → Option PlanState
  | .ensure t => g.ensureAlloc s t
  | .release t => g.release s t

/-- A sequence of steps of the walk. -/
def GraphObj.planRun (g : GraphObj) (s : PlanState) : List PlanAction → Option PlanState
  | [] => some s
  | c :: cs =>
    match g.planStep s c with
    | none => none
    | some s2 => g.planRun s2 cs

/-- `GraphObj::dataMalloc`: the graph and the locals when it returns. The blob of a
tensor `t` is `base + offsets t`, with `base` the arena of `a.ptr` bytes. -/
def GraphObj.dataMalloc (g : GraphObj) : Run (GraphObj × PlanState) :=
  match g.topo_sort with
  | (some true, g1) =>
    match g1.planRun g1.planStart g1.planActions with
    | none => .assertFail
    | some s =>
      let s2 : PlanState := { s with a := s.a.getPtr }
      if g1.tensors.all (fun t => (s2.offsets t).isSome) then
        .ok ({ g1 with allocator := s2.a }, s2)
      else .assertFail
  | (some false, _) => .assertFail
  | (none, _) => .outOfFuel

/-! ### Graphs built through `addOperatorAndConnect` -/

/-- Tensors `t0 [2,3]`, `t1 [3,2]`, `t2 [2,3]` added to an empty graph, and the
operator objects `op10 = Transpose(t0) -> t1`, `op11 = Transpose(t1) -> t2`, neither
yet connected. -/
def chainHeap : GraphObj :=
  { ops := [], tensors := [0, 1, 2], sorted := false, allocator := Allocator.fresh,
    op := fun o => if o = 10 then transposeOp 0 1 [1, 0] else transposeOp 1 2 [1, 0],
    tensor := fun t =>
      if t = 0 then ⟨0, [2, 3], 4, none, []⟩
      else if t = 1 then ⟨1, [3, 2], 4, none, []⟩
      else ⟨2, [2, 3], 4, none, []⟩ }

/-- The chain `t0 -> op10 -> t1 -> op11 -> t2`, the consumer `op11` connected first. -/
def consumerFirst : GraphObj :=
  (chainHeap.addOperatorAndConnect 11).addOperatorAndConnect 10

/-- The chain `t0 -> op10 -> t1 -> op11 -> t2`, connected in producer order. -/
def producerFirst : GraphObj :=
  (chainHeap.addOperatorAndConnect 10).addOperatorAndConnect 11

/-- Tensors `t0 [2,3]`, `t1 [3,2]` added to an empty graph and the operator object
`op10 = Transpose(t0) -> t1`, not yet connected. -/
def dupHeap : GraphObj :=
  { ops := [], tensors := [0, 1], sorted := false, allocator := Allocator.fresh,
    op := fun _ => transposeOp 0 1 [1, 0],
    tensor := fun t =>
      if t = 0 then ⟨0, [2, 3], 4, none, []⟩
      else ⟨1, [3, 2], 4, none, []⟩ }

/-- The operator `op10 : t0 -> t1` passed to `addOperatorAndConnect` twice: the op list
is `[op10, op10]`. -/
def dupGraph : GraphObj :=
  (dupHeap.addOperatorAndConnect 10).addOperatorAndConnect 10

/-- Tensors `w = t0 [2,3]`, `x = t1 [3,2]`, `T = t2 [2,3]`, `C = t3 [2,2]` and the
operator objects `op10 = Transpose(w) -> x`, `op11 = Transpose(x) -> T`,
`op12 = MatMul(T, x) -> C`, not yet connected. -/
def aliasHeap : GraphObj :=
  { ops := [], tensors := [0, 1, 2, 3], sorted := false, allocator := Allocator.fresh,
    op := fun o =>
      if o = 10 then transposeOp 0 1 [1, 0]
      else if o = 11 then transposeOp 1 2 [1, 0]
      else matmulOp 2 1 3 false false,
    tensor := fun t =>
      if t = 0 then ⟨0, [2, 3], 4, none, []⟩
      else if t = 1 then ⟨1, [3, 2], 4, none, []⟩
      else if t = 2 then ⟨2, [2, 3], 4, none, []⟩
      else ⟨3, [2, 2], 4, none, []⟩ }

/-- The graph `C = MatMul(Transpose(x), x)` with `x = Transpose(w)`. -/
def aliasGraph : GraphObj :=
  ((aliasHeap.addOperatorAndConnect 10).addOperatorAndConnect 11).addOperatorAndConnect 12

/-- What a test reads off a graph: op list, tensor list, `sorted`, for each tensor of
the list its shape, source and targets, for each operator of the list its inputs and
transpose flags. -/
def GraphObj.view (g : GraphObj) :
    List OpId × List TensorId × Bool ×
      List (Shape × Option OpId × List OpId) × List (List TensorId × Bool × Bool) :=
  (g.ops, g.tensors, g.sorted,
    g.tensors.map (fun t => ((g.tensor t).shape, (g.tensor t).source, (g.tensor t).targets)),
    g.ops.map (fun o => ((g.op o).inputs, (g.op o).transA, (g.op o).transB)))

/-- The result of a run, if it returned. -/
def Run.toOption {α : Type} : Run α → Option α
  | .ok a => some a
  | _ => none

/-! ### Rule 1 -/

/-- Modelled from the spec: the pattern of Rule 1, a `Transpose` `T1` whose output has
exactly one consumer `T2`, itself a `Transpose` reading that output, the two permutes
being mutual inverses (as judged by `isInversePermute`, see `isInversePermute_iff`). -/
def GraphObj.Rule1Pair (g : GraphObj) (T1 T2 : OpId) : Prop :=
  (g.op T1).type = .Transpose ∧
  (g.tensor (g.op T1).getOutput).targets = [T2] ∧
  (g.op T2).type = .Transpose ∧
  (g.op T2).getInput 0 = (g.op T1).getOutput ∧
  isInversePermute (g.op T1).transposePermute (g.op T2).transposePermute = true

/-- The pattern of Rule 1 is decidable. -/
instance (g : GraphObj) (T1 T2 : OpId) : Decidable (g.Rule1Pair T1 T2) := by
  unfold GraphObj.Rule1Pair
  exact inferInstance

/-- Tensors `x = t0 [2,3]`, `a = t1 [3,2]`, `b = t2 [2,3]`, `c = t3 [3,2]` and three
transposes with permute `[1,0]`: `op10 : x -> a`, `op11 : a -> b`, `op12 : b -> c`,
not yet connected. -/
def tripleHeap : GraphObj :=
  { ops := [], tensors := [0, 1, 2, 3], sorted := false, allocator := Allocator.fresh,
    op := fun o =>
      if o = 10 then transposeOp 0 1 [1, 0]
      else if o = 11 then transposeOp 1 2 [1, 0]
      else transposeOp 2 3 [1, 0],
    tensor := fun t =>
      if t = 0 then ⟨0, [2, 3], 4, none, []⟩
      else if t = 1 then ⟨1, [3, 2], 4, none, []⟩
      else if t = 2 then ⟨2, [2, 3], 4, none, []⟩
      else ⟨3, [3, 2], 4, none, []⟩ }

/-- The chain `x -> op10 -> a -> op11 -> b -> op12 -> c`, connected in that order and
sorted. -/
def tripleChain : GraphObj :=
  (((tripleHeap.addOperatorAndConnect 10).addOperatorAndConnect 11).addOperatorAndConnect
    12).topo_sort.2

/-- Tensors `x = t0 [2,3,4]`, `t1 [3,2,4]`, `y = t2 [2,3,4]` and two transposes with
permute `[1,0,2]`, not yet connected. -/
def pairHeap : GraphObj :=
  { ops := [], tensors := [0, 1, 2], sorted := false, allocator := Allocator.fresh,
    op := fun o =>
      if o = 10 then transposeOp 0 1 [1, 0, 2] else transposeOp 1 2 [1, 0, 2],
    tensor := fun t =>
      if t = 0 then ⟨0, [2, 3, 4], 4, none, []⟩
      else if t = 1 then ⟨1, [3, 2, 4], 4, none, []⟩
      else ⟨2, [2, 3, 4], 4, none, []⟩ }

/-- The graph `x -> Transpose([1,0,2]) -> Transpose([1,0,2]) -> y`, sorted. -/
def pairGraph : GraphObj :=
  ((pairHeap.addOperatorAndConnect 10).addOperatorAndConnect 11).topo_sort.2

/-! ### Reading the walk of `dataMalloc` -/

/-- The tensors released so far, one entry per `free` call. -/
def freedOf : List PlanEvent → List TensorId
  | [] => []
  | .free t _ :: es => t :: freedOf es
  | .alloc _ _ :: es => freedOf es

/-- The tensors allocated and not released since. -/
def liveOf : List PlanEvent → List TensorId
  | [] => []
  | .alloc t _ :: es => t :: liveOf es
  | .free t _ :: es => (liveOf es).filter (fun x => decide (x ≠ t))

/-- Byte `x` lies in the range `[offset, offset + bytes)` bound to tensor `t`. -/
def GraphObj.inTensor (g : GraphObj) (s : PlanState) (t : TensorId) (x : Nat) : Prop :=
  ∃ off, s.offsets t = some off ∧ off ≤ x ∧ x < off + g.bytesOf t

/-- The number of operator input slots of the op list that read tensor `t`. -/
def GraphObj.uses (g : GraphObj) (t : TensorId) : Nat :=
  (g.ops.flatMap (fun o => (g.op o).inputs)).count t

/-- The block of a tensor as the allocator knows it: `(offset, requested size)`. -/
def GraphObj.blockOf (g : GraphObj) (s : PlanState) (t : TensorId) : Nat × Nat :=
  ((s.offsets t).getD 0, g.bytesOf t)

/-- Invariant of the walk of `dataMalloc`, `F` being the steps still to come: the
allocator is in a safe state with exactly the live tensors handed out; a tensor has an
offset exactly when it was allocated; a released tensor is not read any more and has
targets; a counter of remaining uses covers the reads still to come; `peak` is bounded
by the aligned sizes of the tensors allocated so far, all from the tensor list. -/
structure GraphObj.PlanInv (g : GraphObj) (s : PlanState) (F : List PlanAction) : Prop where
  sess : Session.Inv ⟨s.a, (liveOf s.events).map (g.blockOf s)⟩
  live_nodup : (liveOf s.events).Nodup
  freed_nodup : (freedOf s.events).Nodup
  alloc_iff : ∀ t, (s.offsets t).isSome ↔ t ∈ liveOf s.events ∨ t ∈ freedOf s.events
  apart : ∀ t ∈ liveOf s.events, t ∉ freedOf s.events
  dead : ∀ t ∈ freedOf s.events, PlanAction.release t ∉ F
  count : ∀ t n, s.remainingUses t = some n → F.count (PlanAction.release t) ≤ n
  freed_targets : ∀ t ∈ freedOf s.events, (g.tensor t).targets ≠ []
  sub : ∀ t, t ∈ liveOf s.events ∨ t ∈ freedOf s.events → t ∈ g.tensors
  bound : s.a.peak ≤
    ((liveOf s.events ++ freedOf s.events).map (fun t => getAlignedSize (g.bytesOf t))).sum

/-- Tensors `t0`, `t1`, `t2` of 24 bytes and the operators `op10 : t0 -> t1`,
`op11 : t0 -> t2`, the target list of `t0` naming `op10` only. -/
def staleTargets : GraphObj :=
  { ops := [10, 11], tensors := [0, 1, 2], sorted := false, allocator := Allocator.fresh,
    op := fun o => if o = 10 then transposeOp 0 1 [1, 0] else transposeOp 0 2 [1, 0],
    tensor := fun t =>
      if t = 0 then ⟨0, [2, 3], 4, none, [10]⟩
      else if t = 1 then ⟨1, [3, 2], 4, some 10, []⟩
      else ⟨2, [3, 2], 4, some 11, []⟩ }

/-! ### Validity across `optimize` -/

/-- A `Concat` operator object with one input. -/
def concatOp (input output : TensorId) : OperatorObj :=
  { type := .Concat, inputs := [input], outputs := [output], predecessors := [],
    successors := [], transA := false, transB := false, mnk := (0, 0, 0),
    transposePermute := [], dim := 0 }

/-- Tensors `t0`, `t1` and operators `op10 : t0 -> t1`, `op11 : t1 -> t0`, where `t0`
records no source although `op11` lists it as its output. -/
def lateSource : GraphObj :=
  { ops := [10, 11], tensors := [0, 1], sorted := false, allocator := Allocator.fresh,
    op := fun o => if o = 10 then concatOp 0 1 else concatOp 1 0,
    tensor := fun t =>
      if t = 0 then ⟨0, [2, 3], 4, none, [10]⟩
      else ⟨1, [2, 3], 4, some 10, [11]⟩ }

/-- The run ended in a failed assertion. -/
def Run.failed {α : Type} : Run α → Bool
  | .assertFail => true
  | _ => false

/-- What the operator constructors and the edge bookkeeping establish beyond
`checkValid`: distinct operators, each output tensor of an operator has that operator as
its source, a `Transpose` has one input and one output, a `MatMul` has two inputs. -/
structure GraphObj.WellFormed (g : GraphObj) : Prop where
  nodup : g.ops.Nodup
  src_out : ∀ o ∈ g.ops, ∀ t ∈ (g.op o).outputs, (g.tensor t).source = some o
  arity_tr : ∀ o ∈ g.ops, (g.op o).type = .Transpose →
    (g.op o).inputs.length = 1 ∧ (g.op o).outputs.length = 1
  arity_mm : ∀ o ∈ g.ops, (g.op o).type = .MatMul → (g.op o).inputs.length = 2

/-- Depth of a tensor under a ranking of the operators: `0` without source, else one
more than the rank of the source. -/
def GraphObj.depthOf (g : GraphObj) (rank : OpId → Nat) (t : TensorId) : Nat :=
  match (g.tensor t).source with
  | none => 0
  | some p => rank p + 1

/-- Total depth of the inputs of the operators of `l` in the heap of `h`, depths taken
in `g`. -/
def GraphObj.inputWeight (g h : GraphObj) (rank : OpId → Nat) (l : List OpId) : Nat :=
  (l.map (fun o => ((h.op o).inputs.map (g.depthOf rank)).sum)).sum

/-- Invariant of the rewrite loop of `optimize`, `g` being the graph the loop started
on and `h` the current one: tensors untouched, op list a sublist, outputs, kinds and
input counts of the operators untouched, every input of an operator of `g` a tensor of
`g` whose source has a smaller rank than the operator. -/
structure GraphObj.RewriteInv (g h : GraphObj) (rank : OpId → Nat) : Prop where
  tensor_eq : h.tensor = g.tensor
  tensors_eq : h.tensors = g.tensors
  ops_sub : h.ops.Sublist g.ops
  outputs_eq : ∀ o, (h.op o).outputs = (g.op o).outputs
  type_eq : ∀ o, (h.op o).type = (g.op o).type
  len_eq : ∀ o, (h.op o).inputs.length = (g.op o).inputs.length
  inputs_mem : ∀ o ∈ g.ops, ∀ t ∈ (h.op o).inputs, t ∈ g.tensors
  ranked : ∀ o ∈ g.ops, ∀ t ∈ (h.op o).inputs, ∀ p,
    (g.tensor t).source = some p → rank p < rank o

/-- Invariant of the edge rebuild of `optimize`, `h` being the graph after the cleanup
and `k` the current one: lists, inputs, outputs and fuids untouched; targets, sources,
predecessors and successors are operators of the op list, a source lists the tensor as
output; the tensors of `nT` have a target, those of `nS` a source. -/
structure GraphObj.RebuildInv (h k : GraphObj) (nT nS : List TensorId) : Prop where
  ops_eq : k.ops = h.ops
  tensors_eq : k.tensors = h.tensors
  inputs_eq : ∀ o, (k.op o).inputs = (h.op o).inputs
  outputs_eq : ∀ o, (k.op o).outputs = (h.op o).outputs
  fuid_eq : ∀ t, (k.tensor t).fuid = (h.tensor t).fuid
  targets_sub : ∀ t ∈ h.tensors, ∀ o ∈ (k.tensor t).targets, o ∈ h.ops
  source_sub : ∀ t ∈ h.tensors, ∀ p, (k.tensor t).source = some p →
    p ∈ h.ops ∧ t ∈ (h.op p).outputs
  edges : ∀ o ∈ h.ops,
    (∀ p ∈ (k.op o).predecessors, p ∈ h.ops) ∧ (∀ p ∈ (k.op o).successors, p ∈ h.ops)
  targets_ne : ∀ t ∈ nT, (k.tensor t).targets ≠ []
  source_ne : ∀ t ∈ nS, (k.tensor t).source ≠ none

/-! ### Rule 2 -/

/-- Tensors `A = t0 [2,3,4]`, `T = t1 [2,4,3]`, `B = t2 [2,3,5]`, `C = t3 [2,4,5]` and
the operator objects `op10 = Transpose(A, [0,2,1]) -> T`, `op11 = MatMul(T, B) -> C`, not
yet connected. -/
def fuseHeap : GraphObj :=
  { ops := [], tensors := [0, 1, 2, 3], sorted := false, allocator := Allocator.fresh,
    op := fun o =>
      if o = 10 then transposeOp 0 1 [0, 2, 1] else matmulOp 1 2 3 false false,
    tensor := fun t =>
      if t = 0 then ⟨0, [2, 3, 4], 4, none, []⟩
      else if t = 1 then ⟨1, [2, 4, 3], 4, none, []⟩
      else if t = 2 then ⟨2, [2, 3, 5], 4, none, []⟩
      else ⟨3, [2, 4, 5], 4, none, []⟩ }

/-- The graph `A -> Transpose([0,2,1]) -> T`, `C = MatMul(T, B)`. -/
def fuseGraph : GraphObj :=
  (fuseHeap.addOperatorAndConnect 10).addOperatorAndConnect 11

/-- Tensors `x = t0 [2,3]`, `y = t1 [3,2]`, `b = t2 [2,4]`, `c = t3 [3,4]`, `z = t4 [3,2]`
and the operator objects `op10 = Transpose(x, [1,0]) -> y`, `op11 = MatMul(y, b) -> c`,
`op12 = Concat(y) -> z`, not yet connected. -/
def sharedHeap : GraphObj :=
  { ops := [], tensors := [0, 1, 2, 3, 4], sorted := false, allocator := Allocator.fresh,
    op := fun o =>
      if o = 10 then transposeOp 0 1 [1, 0]
      else if o = 11 then matmulOp 1 2 3 false false
      else concatOp 1 4,
    tensor := fun t =>
      if t = 0 then ⟨0, [2, 3], 4, none, []⟩
      else if t = 1 then ⟨1, [3, 2], 4, none, []⟩
      else if t = 2 then ⟨2, [2, 4], 4, none, []⟩
      else if t = 3 then ⟨3, [3, 4], 4, none, []⟩
      else ⟨4, [3, 2], 4, none, []⟩ }

/-- The sorted graph in which the transpose `op10` feeds the `MatMul` `op11` and the
`Concat` `op12`. -/
def sharedTranspose : GraphObj :=
  (((sharedHeap.addOperatorAndConnect 10).addOperatorAndConnect 11).addOperatorAndConnect
    12).topo_sort.2

/-- Tensors `x = t0 [2,3,4]`, `y = t1 [3,4,2]`, `a = t2 [4,3,2]`, `b = t3 [3,4,2]`,
`c = t4 [2,3,4]` and the transposes `op10 : x -> y` with permute `[1,2,0]`,
`op11 : y -> a` and `op12 : a -> b` with permute `[1,0,2]`, `op13 : b -> c` with permute
`[2,0,1]`, not yet connected. -/
def rewiredHeap : GraphObj :=
  { ops := [], tensors := [0, 1, 2, 3, 4], sorted := false, allocator := Allocator.fresh,
    op := fun o =>
      if o = 10 then transposeOp 0 1 [1, 2, 0]
      else if o = 11 then transposeOp 1 2 [1, 0, 2]
      else if o = 12 then transposeOp 2 3 [1, 0, 2]
      else transposeOp 3 4 [2, 0, 1],
    tensor := fun t =>
      if t = 0 then ⟨0, [2, 3, 4], 4, none, []⟩
      else if t = 1 then ⟨1, [3, 4, 2], 4, none, []⟩
      else if t = 2 then ⟨2, [4, 3, 2], 4, none, []⟩
      else if t = 3 then ⟨3, [3, 4, 2], 4, none, []⟩
      else ⟨4, [2, 3, 4], 4, none, []⟩ }

/-- The chain `x -> op10 -> y -> op11 -> a -> op12 -> b -> op13 -> c`. -/
def rewiredPair : GraphObj :=
  (((rewiredHeap.addOperatorAndConnect 10).addOperatorAndConnect 11).addOperatorAndConnect
    12).addOperatorAndConnect 13

/-- Tensors `x = t0 [2,3]`, `y = t1 [3,2]`, `b = t2 [2,4]`, `c1 = t3 [3,4]`,
`y2 = t4 [2,3]`, `e = t5 [3,5]`, `c2 = t6 [2,5]` and the operator objects
`op10 = Transpose(x, [1,0]) -> y`, `op11 = MatMul(y, b) -> c1`,
`op12 = Transpose(y, [1,0]) -> y2`, `op13 = MatMul(y2, e) -> c2`, not yet connected. -/
def chainedHeap : GraphObj :=
  { ops := [], tensors := [0, 1, 2, 3, 4, 5, 6], sorted := false,
    allocator := Allocator.fresh,
    op := fun o =>
      if o = 10 then transposeOp 0 1 [1, 0]
      else if o = 11 then matmulOp 1 2 3 false false
      else if o = 12 then transposeOp 1 4 [1, 0]
      else matmulOp 4 5 6 false false,
    tensor := fun t =>
      if t = 0 then ⟨0, [2, 3], 4, none, []⟩
      else if t = 1 then ⟨1, [3, 2], 4, none, []⟩
      else if t = 2 then ⟨2, [2, 4], 4, none, []⟩
      else if t = 3 then ⟨3, [3, 4], 4, none, []⟩
      else if t = 4 then ⟨4, [2, 3], 4, none, []⟩
      else if t = 5 then ⟨5, [3, 5], 4, none, []⟩
      else ⟨6, [2, 5], 4, none, []⟩ }

/-- The graph `c1 = MatMul(Transpose(x), b)`, `c2 = MatMul(Transpose(Transpose(x)), e)`,
the two `MatMul`s sharing the first transpose. -/
def chainedFusion : GraphObj :=
  (((chainedHeap.addOperatorAndConnect 10).addOperatorAndConnect 11).addOperatorAndConnect
    12).addOperatorAndConnect 13

/-- One iteration of the `while (changed)` loop of `optimize`: the graph at the end of
the iteration and the value of `changed` (rule 1 first; rule 2 and its erase only when
rule 1 found nothing). -/
def GraphObj.rewriteIter (g : GraphObj) : GraphObj × Bool :=
  match g.rule1 g.ops with
  | some g1 => (g1, true)
  | none =>
    let r := g.rule2
    let g2 : GraphObj :=
      if r.2.1.isEmpty then r.1
      else { r.1 with ops := r.1.ops.filter (fun o => !(r.2.1.contains o)) }
    (g2, r.2.2)

/-- The calls of `leakCalls` followed by the release of the last live block. -/
def leakThenFree : List Call := leakCalls ++ [.free 16 8]

/-- Modelled from the spec: the permutes `p1` and `p2` are mutual inverses: `p1` is a
permutation of the axes `0, ..., r-1`, `p2` has the same length and sends `p1[i]` back
to `i`. -/
def MutualInverses (p1 p2 : List Int) : Prop :=
  p2.length = p1.length ∧ IsPermutationOf p1 p1.length ∧
    ∀ i, i < p1.length → p2.getD (p1.getD i 0).toNat 0 = (i : Int)

/-- Modelled from the spec: the pattern of Rule 1 in the words of the specification, a
`Transpose` `T1` whose output has exactly one consumer `T2`, where `T2` is a `Transpose`
reading that output and the two permutes are mutual inverses. -/
def GraphObj.InversePair (g : GraphObj) (T1 T2 : OpId) : Prop :=
  (g.op T1).type = .Transpose ∧
  (g.tensor (g.op T1).getOutput).targets = [T2] ∧
  (g.op T2).type = .Transpose ∧
  (g.op T2).getInput 0 = (g.op T1).getOutput ∧
  MutualInverses (g.op T1).transposePermute (g.op T2).transposePermute

/-- Tensors `x = t0 [2,3,4]`, `u = t1 [2,4,3]`, `v = t2 [4,3,2]`, `w = t3 [2,4,3]`,
`b = t4 [2,3,5]`, `c = t5 [2,4,5]` and the operator objects
`op10 = Transpose(x, [0,2,1]) -> u`, `op11 = Transpose(u, [1,2,0]) -> v`,
`op12 = Transpose(v, [2,0,1]) -> w`, `op13 = MatMul(w, b) -> c`, not yet connected. -/
def upstreamHeap : GraphObj :=
  { ops := [], tensors := [0, 1, 2, 3, 4, 5], sorted := false, allocator := Allocator.fresh,
    op := fun o =>
      if o = 10 then transposeOp 0 1 [0, 2, 1]
      else if o = 11 then transposeOp 1 2 [1, 2, 0]
      else if o = 12 then transposeOp 2 3 [2, 0, 1]
      else matmulOp 3 4 5 false false,
    tensor := fun t =>
      if t = 0 then ⟨0, [2, 3, 4], 4, none, []⟩
      else if t = 1 then ⟨1, [2, 4, 3], 4, none, []⟩
      else if t = 2 then ⟨2, [4, 3, 2], 4, none, []⟩
      else if t = 3 then ⟨3, [2, 4, 3], 4, none, []⟩
      else if t = 4 then ⟨4, [2, 3, 5], 4, none, []⟩
      else ⟨5, [2, 4, 5], 4, none, []⟩ }

/-- The graph `c = MatMul(T(T(T(x))), b)`, `x -> op10 -> u -> op11 -> v -> op12 -> w`,
connected in that order and sorted: `op11`, `op12` are mutually inverse, `op10` swaps
the last two axes. -/
def upstreamSwap : GraphObj :=
  ((((upstreamHeap.addOperatorAndConnect 10).addOperatorAndConnect 11).addOperatorAndConnect
    12).addOperatorAndConnect 13).topo_sort.2

/-- Tensors `x = t0`, `a = t1`, `b = t2`, `z = t3` and the sorted op list
`op10 = Transpose(x) -> a`, `op11 = Transpose(a) -> b` (permute `[1,0]` each),
`op12 = Concat(b) -> z`, the target list of `b` not naming its reader `op12`. -/
def unlistedConsumer : GraphObj :=
  { ops := [10, 11, 12], tensors := [0, 1, 2, 3], sorted := true,
    allocator := Allocator.fresh,
    op := fun o =>
      if o = 10 then transposeOp 0 1 [1, 0]
      else if o = 11 then transposeOp 1 2 [1, 0]
      else concatOp 2 3,
    tensor := fun t =>
      if t = 0 then ⟨0, [2, 3], 4, none, [10]⟩
      else if t = 1 then ⟨1, [3, 2], 4, some 10, [11]⟩
      else if t = 2 then ⟨2, [2, 3], 4, some 11, []⟩
      else ⟨3, [2, 3], 4, some 12, []⟩ }

/-! # Theorems -/

/-! ## Allocator -/

theorem disj_symm {a b : Nat × Nat} (h : Disj a b) : Disj b a := by
  unfold Disj at *; omega

theorem wrap_of_lt {x : Nat} (h : x < wordSize) : wrap x = x := Nat.mod_eq_of_lt h

theorem mem_mapErase {m : FreeMap} {k : Nat} {e : Nat × Nat} :
    e ∈ mapErase m k ↔ e ∈ m ∧ e.1 ≠ k := by
  simp [mapErase, List.mem_filter]

theorem mem_mapEmplace {m : FreeMap} {k v : Nat} {e : Nat × Nat}
    (h : e ∈ mapEmplace m k v) : e ∈ m ∨ e = (k, v) := by
  induction m with
  | nil => simp [mapEmplace] at h; exact Or.inr h
  | cons x m ih =>
    unfold mapEmplace at h
    split_ifs at h with h1 h2
    · rcases List.mem_cons.1 h with h | h
      · exact Or.inr h
      · exact Or.inl h
    · exact Or.inl h
    · rcases List.mem_cons.1 h with h | h
      · exact Or.inl (h ▸ List.mem_cons_self _ _)
      · rcases ih h with h | h
        · exact Or.inl (List.mem_cons_of_mem _ h)
        · exact Or.inr h

theorem mem_of_beforeLower_last {m : FreeMap} {k : Nat} {e : Nat × Nat}
    (h : (beforeLower m k).getLast? = some e) : e ∈ m ∧ e.1 < k := by
  have hm := List.mem_of_getLast?_eq_some h
  refine ⟨(List.takeWhile_prefix _).subset hm, ?_⟩
  simpa using List.mem_takeWhile_imp hm

theorem mem_of_beforeUpper_last {m : FreeMap} {k : Nat} {e : Nat × Nat}
    (h : (beforeUpper m k).getLast? = some e) : e ∈ m ∧ e.1 ≤ k := by
  have hm := List.mem_of_getLast?_eq_some h
  refine ⟨(List.takeWhile_prefix _).subset hm, ?_⟩
  simpa using List.mem_takeWhile_imp hm

theorem mem_of_fromLower_head {m : FreeMap} {k : Nat} {e : Nat × Nat}
    (h : (fromLower m k).head? = some e) : e ∈ m :=
  (List.dropWhile_suffix _).subset (List.mem_of_mem_head? (by rw [← fromLower, h]; rfl))

theorem safe_mapErase {m : FreeMap} {peak : Nat} {L : List (Nat × Nat)}
    (h : Safe m peak L) (k : Nat) : Safe (mapErase m k) peak L where
  peak_lt := h.peak_lt
  free_lt := fun e he => h.free_lt e (mem_mapErase.1 he).1
  free_le := fun e he => h.free_le e (mem_mapErase.1 he).1
  free_disj := fun e1 h1 e2 h2 => h.free_disj e1 (mem_mapErase.1 h1).1 e2 (mem_mapErase.1 h2).1
  free_live := fun e he => h.free_live e (mem_mapErase.1 he).1
  live_lt := h.live_lt
  live_le := h.live_le
  live_disj := h.live_disj

/-- Absorbing a free entry `e` that touches the pending block keeps it pending. -/
theorem pending_absorb {m : FreeMap} {peak : Nat} {L : List (Nat × Nat)} {b e n : Nat × Nat}
    (hs : Safe m peak L) (hp : Pending m peak L b) (he : e ∈ m)
    (hn2 : n.2 = b.2 + e.2)
    (hn1 : (e.1 + e.2 = b.1 ∧ n.1 = e.1) ∨ (b.1 + b.2 = e.1 ∧ n.1 = b.1)) :
    Pending (mapErase m e.1) peak L n where
  lt := by
    have h1 := hs.free_lt e he
    have h2 := hp.lt
    omega
  le := by
    intro hpos
    have h1 := hs.free_le e he
    have h2 := hp.le
    omega
  free := by
    intro x hx
    obtain ⟨hxm, hxk⟩ := mem_mapErase.1 hx
    have h1 := hs.free_disj x hxm e he hxk
    have h2 := hp.free x hxm
    unfold Disj at *
    omega
  live := by
    intro c hc
    have h1 := hs.free_live e he c hc
    have h2 := hp.live c hc
    unfold Disj at *
    omega

theorem mergeLeft_safe {m : FreeMap} {peak addr size : Nat} {L : List (Nat × Nat)}
    (hs : Safe m peak L) (hp : Pending m peak L (addr, size)) :
    Safe (mergeLeft m addr size).1 peak L ∧
      Pending (mergeLeft m addr size).1 peak L
        ((mergeLeft m addr size).2.1, (mergeLeft m addr size).2.2) := by
  unfold mergeLeft
  split
  · exact ⟨hs, hp⟩
  · rename_i leftAddr leftSize hl
    have hmem := (mem_of_beforeLower_last hl).1
    have hlt := hs.free_lt _ hmem
    simp only at hlt
    rw [wrap_of_lt hlt]
    split_ifs with heq
    · refine ⟨safe_mapErase hs _, ?_⟩
      have hplt := hp.lt
      simp only at hplt
      have : size + leftSize < wordSize := by omega
      rw [wrap_of_lt this]
      exact pending_absorb (e := (leftAddr, leftSize)) hs hp hmem rfl (Or.inl ⟨heq, rfl⟩)
    · exact ⟨hs, hp⟩

theorem mergeRight_safe {m : FreeMap} {peak addr size : Nat} {L : List (Nat × Nat)}
    (hs : Safe m peak L) (hp : Pending m peak L (addr, size)) :
    Safe (mergeRight m addr size).1 peak L ∧
      Pending (mergeRight m addr size).1 peak L (addr, (mergeRight m addr size).2) := by
  unfold mergeRight
  split
  · exact ⟨hs, hp⟩
  · rename_i rightAddr rightSize hr
    have hmem := mem_of_fromLower_head hr
    have hlt := hs.free_lt _ hmem
    have hplt := hp.lt
    simp only at hlt hplt
    rw [wrap_of_lt hplt]
    split_ifs with heq
    · refine ⟨safe_mapErase hs _, ?_⟩
      have : size + rightSize < wordSize := by omega
      rw [wrap_of_lt this]
      exact pending_absorb (e := (rightAddr, rightSize)) hs hp hmem rfl (Or.inr ⟨heq, rfl⟩)
    · exact ⟨hs, hp⟩

theorem mapEmplace_safe {m : FreeMap} {peak : Nat} {L : List (Nat × Nat)} {b : Nat × Nat}
    (hs : Safe m peak L) (hp : Pending m peak L b) :
    Safe (mapEmplace m b.1 b.2) peak L where
  peak_lt := hs.peak_lt
  free_lt := by
    intro e he
    rcases mem_mapEmplace he with h | h
    · exact hs.free_lt e h
    · subst h; exact hp.lt
  free_le := by
    intro e he
    rcases mem_mapEmplace he with h | h
    · exact hs.free_le e h
    · subst h; exact hp.le
  free_disj := by
    intro e1 h1 e2 h2 hne
    rcases mem_mapEmplace h1 with h1 | h1 <;> rcases mem_mapEmplace h2 with h2 | h2
    · exact hs.free_disj e1 h1 e2 h2 hne
    · subst h2; exact hp.free e1 h1
    · subst h1; exact disj_symm (hp.free e2 h2)
    · subst h1; subst h2; exact absurd rfl hne
  free_live := by
    intro e he c hc
    rcases mem_mapEmplace he with h | h
    · exact hs.free_live e h c hc
    · subst h; exact hp.live c hc
  live_lt := hs.live_lt
  live_le := hs.live_le
  live_disj := hs.live_disj

theorem shrinkPeak_safe {L : List (Nat × Nat)} (fuel : Nat) :
    ∀ (m : FreeMap) (peak : Nat), Safe m peak L →
      Safe (shrinkPeak fuel m peak).1 (shrinkPeak fuel m peak).2 L := by
  induction fuel with
  | zero => intro m peak hs; exact hs
  | succ n ih =>
    intro m peak hs
    unfold shrinkPeak
    split_ifs with hemp
    · exact hs
    · split
      · exact hs
      · rename_i blockAddr blockSize hb
        have hmem := (mem_of_beforeUpper_last hb).1
        have hlt := hs.free_lt _ hmem
        simp only at hlt
        rw [wrap_of_lt hlt]
        split_ifs with hne
        · exact hs
        · have heq : blockAddr + blockSize = peak := by simpa using hne
          apply ih
          have hpl := hs.peak_lt
          refine ⟨by omega, fun e he => hs.free_lt e (mem_mapErase.1 he).1, ?_, ?_, ?_,
            hs.live_lt, ?_, hs.live_disj⟩
          · intro e he hpos
            obtain ⟨hem, hek⟩ := mem_mapErase.1 he
            have h1 := hs.free_disj e hem _ hmem hek
            have h2 := hs.free_le e hem hpos
            unfold Disj at h1
            simp only at h1
            omega
          · exact fun e1 h1 e2 h2 =>
              hs.free_disj e1 (mem_mapErase.1 h1).1 e2 (mem_mapErase.1 h2).1
          · exact fun e he => hs.free_live e (mem_mapErase.1 he).1
          · intro c hc hpos
            have h1 := hs.free_live _ hmem c hc
            have h2 := hs.live_le c hc hpos
            unfold Disj at h1
            simp only at h1
            omega

theorem addFreeBlock_safe {m : FreeMap} {peak addr size : Nat} {L : List (Nat × Nat)}
    (hs : Safe m peak L) (hp : Pending m peak L (addr, size)) :
    Safe (addFreeBlock m peak addr size).1 (addFreeBlock m peak addr size).2 L := by
  unfold addFreeBlock
  obtain ⟨hs1, hp1⟩ := mergeLeft_safe hs hp
  obtain ⟨hs2, hp2⟩ := mergeRight_safe hs1 hp1
  exact shrinkPeak_safe _ _ _ (mapEmplace_safe hs2 hp2)

theorem inv_fresh : Session.fresh.Inv where
  ptr := rfl
  used := rfl
  safe := by
    refine ⟨by decide, ?_, ?_, ?_, ?_, ?_, ?_, List.Pairwise.nil⟩ <;>
      simp [Session.fresh, Allocator.fresh, liveRanges]

theorem alloc_miss_safe {m : FreeMap} {peak al : Nat} {L : List (Nat × Nat)}
    (hs : Safe m peak L) (hlt : peak + al < wordSize) :
    Safe m (peak + al) ((peak, al) :: L) where
  peak_lt := hlt
  free_lt := hs.free_lt
  free_le := fun e he hpos => Nat.le_trans (hs.free_le e he hpos) (Nat.le_add_right _ _)
  free_disj := hs.free_disj
  free_live := by
    intro e he c hc
    rcases List.mem_cons.1 hc with h | h
    · subst h
      have := hs.free_le e he
      unfold Disj; simp only; omega
    · exact hs.free_live e he c h
  live_lt := by
    intro c hc
    rcases List.mem_cons.1 hc with h | h
    · subst h; exact hlt
    · exact hs.live_lt c h
  live_le := by
    intro c hc hpos
    rcases List.mem_cons.1 hc with h | h
    · subst h; exact Nat.le_refl _
    · exact Nat.le_trans (hs.live_le c h hpos) (Nat.le_add_right _ _)
  live_disj := by
    refine List.pairwise_cons.2 ⟨?_, hs.live_disj⟩
    intro c hc
    have := hs.live_le c hc
    unfold Disj; simp only; omega

theorem alloc_hit_safe {m : FreeMap} {peak addr bs al : Nat} {L : List (Nat × Nat)}
    (hs : Safe m peak L) (hmem : (addr, bs) ∈ m) (hle : al ≤ bs) :
    Safe (mapErase m addr) peak ((addr, al) :: L) ∧
      Pending (mapErase m addr) peak ((addr, al) :: L) (addr + al, bs - al) := by
  have hblt := hs.free_lt _ hmem
  have hble := hs.free_le _ hmem
  simp only at hblt hble
  have hfl : ∀ c ∈ L, Disj (addr, al) c := by
    intro c hc
    have := hs.free_live _ hmem c hc
    unfold Disj at *; simp only at *; omega
  have hfe : ∀ e ∈ mapErase m addr, Disj e (addr, bs) := fun e he =>
    hs.free_disj e (mem_mapErase.1 he).1 _ hmem (mem_mapErase.1 he).2
  constructor
  · refine ⟨hs.peak_lt, (safe_mapErase hs _).free_lt, (safe_mapErase hs _).free_le, (safe_mapErase hs _).free_disj,
      ?_, ?_, ?_, List.pairwise_cons.2 ⟨hfl, hs.live_disj⟩⟩
    · intro e he c hc
      rcases List.mem_cons.1 hc with h | h
      · subst h
        have := hfe e he
        unfold Disj at *; simp only at *; omega
      · exact hs.free_live e (mem_mapErase.1 he).1 c h
    · intro c hc
      rcases List.mem_cons.1 hc with h | h
      · subst h; simp only; omega
      · exact hs.live_lt c h
    · intro c hc hpos
      rcases List.mem_cons.1 hc with h | h
      · subst h; simp only at *; omega
      · exact hs.live_le c h hpos
  · refine ⟨by simp only; omega, by simp only; omega, ?_, ?_⟩
    · intro e he
      have := hfe e he
      unfold Disj at *; simp only at *; omega
    · intro c hc
      rcases List.mem_cons.1 hc with h | h
      · subst h; unfold Disj; simp only; omega
      · have := hs.free_live _ hmem c h
        unfold Disj at *; simp only at *; omega

theorem liveRanges_cons (off size : Nat) (live : List (Nat × Nat)) :
    liveRanges ((off, size) :: live) = (off, getAlignedSize size) :: liveRanges live := rfl

theorem inv_step_alloc {s : Session} (hi : s.Inv) (size : Nat)
    (hok : s.stepOk (.alloc size) = true) :
    ∃ s2, s.step (.alloc size) = some s2 ∧ s2.Inv := by
  obtain ⟨⟨used, peak, fb, ptr⟩, live⟩ := s
  obtain ⟨hptr, hused, hsafe⟩ := hi
  simp only at hptr hused hsafe
  subst hptr
  simp only [Session.stepOk, Bool.and_eq_true, Bool.or_eq_true, decide_eq_true_eq] at hok
  obtain ⟨hu, hpk⟩ := hok
  have hsum : ∀ addr : Nat, wrap (used + getAlignedSize size) =
        (((addr, size) :: live).map (fun b => getAlignedSize b.2)).sum := by
    intro addr
    rw [wrap_of_lt hu, hused, List.map_cons, List.sum_cons, Nat.add_comm]
  have hL := fun off => liveRanges_cons off size live
  suffices h : ∃ r, Allocator.alloc ⟨used, peak, fb, none⟩ size = some r ∧
      r.2.ptr = none ∧ r.2.used = wrap (used + getAlignedSize size) ∧
      Safe r.2.freeBlocks r.2.peak ((r.1, getAlignedSize size) :: liveRanges live) by
    obtain ⟨⟨off, a2⟩, hr, h1, h2, h3⟩ := h
    refine ⟨⟨a2, (off, size) :: live⟩, ?_, h1, ?_, ?_⟩
    · simp only [Session.step]
      rw [hr]
    · exact h2.trans (hsum off)
    · rw [hL off]
      exact h3
  clear hsum hL hused
  simp only [Allocator.alloc, Option.isSome_none, Bool.false_eq_true, if_false]
  generalize getAlignedSize size = al at *
  cases hf : findFreeBlock fb al with
  | none =>
    rw [hf] at hpk
    have hpk2 : peak + al < wordSize := by simpa using hpk
    have h := alloc_miss_safe hsafe hpk2
    rw [← wrap_of_lt hpk2] at h
    exact ⟨_, rfl, rfl, rfl, h⟩
  | some blk =>
    obtain ⟨addr, bs⟩ := blk
    have hmem : (addr, bs) ∈ fb := List.mem_of_find?_eq_some hf
    have hle : al ≤ bs := by simpa using List.find?_some hf
    obtain ⟨h1, h2⟩ := alloc_hit_safe hsafe hmem hle
    have hblt := hsafe.free_lt _ hmem
    simp only at hblt
    have hlt : addr + al < wordSize := by omega
    have h3 := mapEmplace_safe h1 h2
    simp only at h3
    rw [← wrap_of_lt hlt] at h3
    show ∃ r, (if bs < al then none else _) = some r ∧ _
    rw [if_neg (Nat.not_lt.2 hle)]
    refine ⟨_, rfl, rfl, rfl, ?_⟩
    show Safe (if 0 < bs - al then
        mapEmplace (mapErase fb addr) (wrap (addr + al)) (bs - al)
      else mapErase fb addr) peak ((addr, al) :: liveRanges live)
    split_ifs with hpos
    · exact h3
    · exact h1

theorem perm_cons_eraseBlock {live : List (Nat × Nat)} {b : Nat × Nat} (hb : b ∈ live) :
    live.Perm (b :: eraseBlock live b) := by
  induction live with
  | nil => simp at hb
  | cons x l ih =>
    unfold eraseBlock
    split_ifs with h
    · subst h; exact List.Perm.refl _
    · rcases List.mem_cons.1 hb with h2 | h2
      · exact absurd h2.symm h
      · exact ((ih h2).cons x).trans (List.Perm.swap b x _)

theorem inv_step_free {s : Session} (hi : s.Inv) (addr size : Nat)
    (hok : s.stepOk (.free addr size) = true) :
    ∃ s2, s.step (.free addr size) = some s2 ∧ s2.Inv := by
  obtain ⟨⟨used, peak, fb, ptr⟩, live⟩ := s
  obtain ⟨hptr, hused, hsafe⟩ := hi
  simp only at hptr hused hsafe
  subst hptr
  have hb : (addr, size) ∈ live := by simpa [Session.stepOk] using hok
  have hperm0 := perm_cons_eraseBlock hb
  have hperm : (liveRanges live).Perm
      ((addr, getAlignedSize size) :: liveRanges (eraseBlock live (addr, size))) := by
    unfold liveRanges
    exact List.Perm.map (fun b : Nat × Nat => (b.1, getAlignedSize b.2)) hperm0
  have hsum : used = getAlignedSize size +
      ((eraseBlock live (addr, size)).map (fun b => getAlignedSize b.2)).sum := by
    rw [hused]
    exact (List.Perm.map (fun b : Nat × Nat => getAlignedSize b.2) hperm0).sum_eq
  have hpw : ((addr, getAlignedSize size) ::
      liveRanges (eraseBlock live (addr, size))).Pairwise Disj :=
    (hperm.pairwise_iff (fun h => disj_symm h)).1 hsafe.live_disj
  obtain ⟨hhead, htail⟩ := List.pairwise_cons.1 hpw
  have hsub : ∀ c ∈ liveRanges (eraseBlock live (addr, size)), c ∈ liveRanges live :=
    fun c hc => hperm.symm.subset (List.mem_cons_of_mem _ hc)
  have hin : (addr, getAlignedSize size) ∈ liveRanges live :=
    hperm.symm.subset (List.mem_cons_self _ _)
  have hs2 : Safe fb peak (liveRanges (eraseBlock live (addr, size))) :=
    ⟨hsafe.peak_lt, hsafe.free_lt, hsafe.free_le, hsafe.free_disj,
      fun e he c hc => hsafe.free_live e he c (hsub c hc),
      fun c hc => hsafe.live_lt c (hsub c hc),
      fun c hc => hsafe.live_le c (hsub c hc), htail⟩
  have hp : Pending fb peak (liveRanges (eraseBlock live (addr, size)))
      (addr, getAlignedSize size) :=
    ⟨hsafe.live_lt _ hin, hsafe.live_le _ hin, fun e he => hsafe.free_live e he _ hin, hhead⟩
  have hsafe2 := addFreeBlock_safe hs2 hp
  have hge : ¬ used < getAlignedSize size := by omega
  have hu2 : used - getAlignedSize size =
      ((eraseBlock live (addr, size)).map (fun b => getAlignedSize b.2)).sum := by omega
  simp only [Session.step, Allocator.free, Option.isSome_none, Bool.false_eq_true, if_false]
  rw [if_neg hge]
  exact ⟨_, rfl, rfl, hu2, hsafe2⟩

theorem inv_step {s : Session} (hi : s.Inv) (c : Call) (hok : s.stepOk c = true) :
    ∃ s2, s.step c = some s2 ∧ s2.Inv := by
  cases c with
  | alloc size => exact inv_step_alloc hi size hok
  | free addr size => exact inv_step_free hi addr size hok

theorem inv_run (cs : List Call) :
    ∀ s : Session, s.Inv → s.admissible cs = true → ∃ s2, s.run cs = some s2 ∧ s2.Inv := by
  induction cs with
  | nil => intro s hi _; exact ⟨s, rfl, hi⟩
  | cons c cs ih =>
    intro s hi hadm
    simp only [Session.admissible, Bool.and_eq_true] at hadm
    obtain ⟨s2, hstep, hi2⟩ := inv_step hi c hadm.1
    have h2 := hadm.2
    rw [hstep] at h2
    obtain ⟨s3, hrun, hi3⟩ := ih s2 hi2 h2
    exact ⟨s3, by simp only [Session.run, hstep, hrun], hi3⟩

theorem admissible_take (cs : List Call) :
    ∀ (s : Session) (n : Nat), s.admissible cs = true → s.admissible (cs.take n) = true := by
  induction cs with
  | nil => intro s n h; simpa using h
  | cons c cs ih =>
    intro s n h
    cases n with
    | zero => rfl
    | succ n =>
      simp only [List.take_succ_cons, Session.admissible, Bool.and_eq_true] at h ⊢
      refine ⟨h.1, ?_⟩
      cases hs : s.step c with
      | none => rfl
      | some s2 =>
        have h2 := h.2
        rw [hs] at h2
        exact ih s2 n h2

/-- C1: on a fresh allocator, take any sequence of `alloc`/`free` calls in which each
`free` names a live block with the size it was requested with and no `alloc` overflows
a `size_t`. After any number `n` of its calls the allocator has accepted them all (no
assertion fired) and any two blocks live at that moment have no byte of
`[offset, offset + alignedSize)` in common. -/
theorem alloc_live_blocks_disjoint (cs : List Call)
    (hadm : Session.fresh.admissible cs = true) (n : Nat) :
    ∃ s, Session.fresh.run (cs.take n) = some s ∧
      s.live.Pairwise (fun b1 b2 => ∀ x, ¬ (inBlock b1 x ∧ inBlock b2 x)) := by
  obtain ⟨s, hrun, hi⟩ := inv_run (cs.take n) _ inv_fresh
    (admissible_take cs _ n hadm)
  refine ⟨s, hrun, ?_⟩
  have h := hi.safe.live_disj
  rw [liveRanges, List.pairwise_map] at h
  refine h.imp ?_
  intro b1 b2 hd x hx
  unfold Disj at hd
  unfold inBlock at hx
  simp only at hd
  omega

theorem alloc_live_blocks_disjoint_witness :
    Session.fresh.admissible [.alloc 16, .alloc 32, .free 0 16, .alloc 8] = true ∧
    ∃ s, Session.fresh.run ([Call.alloc 16, .alloc 32, .free 0 16, .alloc 8].take 4) = some s ∧
      s.live.Pairwise (fun b1 b2 => ∀ x, ¬ (inBlock b1 x ∧ inBlock b2 x)) :=
  ⟨by decide, alloc_live_blocks_disjoint _ (by decide) 4⟩

/-- C2 (failing input): after the admissible calls `alloc 8, alloc 8, alloc 8, free(8,8),
alloc 0, free(0,8), free(8,0)` the free map is `(0,16), (8,0)`. `alloc(8)` then takes the
block `(0,16)` and returns `0`, but `emplace(8, 8)` finds key `8` present: the remainder
`(8,8)` is not in the free map afterwards, which holds only `(8,0)`. -/
theorem alloc_drops_remainder :
    Session.fresh.admissible (leakCalls ++ [.alloc 8]) = true ∧
    Session.fresh.run leakCalls = some ⟨⟨8, 24, [(0, 16), (8, 0)], none⟩, [(16, 8)]⟩ ∧
    findFreeBlock [(0, 16), (8, 0)] (getAlignedSize 8) = some (0, 16) ∧
    Allocator.alloc ⟨8, 24, [(0, 16), (8, 0)], none⟩ 8 = some (0, ⟨16, 24, [(8, 0)], none⟩) ∧
    (0 + getAlignedSize 8, 16 - getAlignedSize 8) ∉ [((8 : Nat), (0 : Nat))] := by
  decide

/-! ## Shape inference -/

theorem allOk_eq_none {l : List (Option Int)} : allOk l = none ↔ none ∈ l := by
  induction l with
  | nil => simp [allOk]
  | cons x l ih =>
    cases x with
    | none => simp [allOk]
    | some v =>
      cases h : allOk l with
      | none => simp [allOk, h, ih.1 h]
      | some out =>
        have : none ∉ l := fun hm => by rw [ih.2 hm] at h; cases h
        simp [allOk, h, this]

theorem allOk_eq_some {l : List (Option Int)} {out : List Int} (h : allOk l = some out) :
    l = out.map some := by
  induction l generalizing out with
  | nil => simp [allOk] at h; subst h; rfl
  | cons x l ih =>
    cases x with
    | none => simp [allOk] at h
    | some v =>
      cases h2 : allOk l with
      | none => simp [allOk, h2] at h
      | some out2 =>
        simp only [allOk, h2, Option.some.injEq] at h
        subst h
        rw [List.map_cons, ← ih h2]

theorem allOk_range_none {g : Nat → Option Int} {n : Nat} :
    allOk ((List.range n).map g) = none ↔ ∃ i, i < n ∧ g i = none := by
  rw [allOk_eq_none]
  simp only [List.mem_map, List.mem_range]

theorem allOk_range_some {g : Nat → Option Int} {n : Nat} {out : List Int}
    (h : allOk ((List.range n).map g) = some out) :
    out.length = n ∧ ∀ i, i < n → g i = some (out.getD i 0) := by
  have he := allOk_eq_some h
  have hlen : out.length = n := by
    have := congrArg List.length he
    simpa using this.symm
  refine ⟨hlen, fun i hi => ?_⟩
  have h1 := congrArg (fun l => l[i]?) he
  simp only [List.getElem?_map, List.getElem?_range hi, Option.map_some'] at h1
  have h2 : out[i]? = some (out.getD i 0) := by
    rw [List.getD_eq_getElem?_getD, List.getElem?_eq_getElem (by omega)]
    rfl
  rw [h2] at h1
  simpa using h1

theorem padOnes_getD (n : Nat) (A : Shape) (i : Nat) (hi : i < n) (hA : A.length ≤ n) :
    (padOnes n A).getD i 1 =
      if i < n - A.length then 1 else A.getD (i - (n - A.length)) 0 := by
  unfold padOnes
  split_ifs with h
  · rw [List.getD_append _ _ _ _ (by simpa using h)]
    simp [List.getD_eq_getElem?_getD, List.getElem?_replicate, h]
  · rw [List.getD_append_right _ _ _ _ (by simpa using Nat.le_of_not_lt h)]
    simp only [List.length_replicate]
    have hlt : i - (n - A.length) < A.length := by omega
    rw [List.getD_eq_getElem _ _ hlt, List.getD_eq_getElem _ _ hlt]

theorem broadcastAt_eq (A B : Shape) (i : Nat) (hi : i < max A.length B.length) :
    broadcastAt A B i =
      (let a := (padOnes (max A.length B.length) A).getD i 1
       let b := (padOnes (max A.length B.length) B).getD i 1
       if a < 0 ∨ b < 0 then none
       else if a = b then some a
       else if a = 1 then some b
       else if b = 1 then some a
       else none) := by
  simp only [broadcastAt]
  rw [padOnes_getD _ A i hi (Nat.le_max_left _ _), padOnes_getD _ B i hi (Nat.le_max_right _ _)]

theorem neg_mem_iff_padOnes (n : Nat) (A : Shape) (hA : A.length ≤ n) :
    (∃ x ∈ A, x < 0) ↔ ∃ i, i < n ∧ (padOnes n A).getD i 1 < 0 := by
  constructor
  · rintro ⟨x, hx, hneg⟩
    obtain ⟨j, hj, rfl⟩ := List.getElem_of_mem hx
    refine ⟨j + (n - A.length), by omega, ?_⟩
    rw [padOnes_getD n A _ (by omega) hA, if_neg (by omega)]
    have : j + (n - A.length) - (n - A.length) = j := by omega
    rw [this, List.getD_eq_getElem _ _ hj]
    exact hneg
  · rintro ⟨i, hi, hneg⟩
    rw [padOnes_getD n A i hi hA] at hneg
    split_ifs at hneg with h
    · omega
    · have hlt : i - (n - A.length) < A.length := by omega
      rw [List.getD_eq_getElem _ _ hlt] at hneg
      exact ⟨_, List.getElem_mem _, hneg⟩

/-- C7: `infer_broadcast(A, B)` right-aligns the shapes, padding the shorter one with
`1`s in front. It fails exactly when `A` or `B` has a negative element or some aligned
pair `(a, b)` has `a ≠ b` with neither equal to `1`. Otherwise the result has length
`max |A| |B|` and holds, at each position, `a` when `a = b` and else the element that
is not `1`. Scenario S1: `infer_broadcast([1,3,1], [2,1,4]) = [2,3,4]`. -/
theorem infer_broadcast_spec (A B : Shape) :
    (infer_broadcast A B = none ↔
      (∃ x ∈ A, x < 0) ∨ (∃ x ∈ B, x < 0) ∨
        ∃ i, i < max A.length B.length ∧
          (padOnes (max A.length B.length) A).getD i 1 ≠
            (padOnes (max A.length B.length) B).getD i 1 ∧
          (padOnes (max A.length B.length) A).getD i 1 ≠ 1 ∧
          (padOnes (max A.length B.length) B).getD i 1 ≠ 1) ∧
    (∀ out, infer_broadcast A B = some out →
      out.length = max A.length B.length ∧
        ∀ i, i < max A.length B.length →
          out.getD i 0 = broadcastDim ((padOnes (max A.length B.length) A).getD i 1)
            ((padOnes (max A.length B.length) B).getD i 1)) ∧
    infer_broadcast [1, 3, 1] [2, 1, 4] = some [2, 3, 4] := by
  refine ⟨?_, ?_, by decide⟩
  · unfold infer_broadcast
    rw [allOk_range_none, neg_mem_iff_padOnes _ A (Nat.le_max_left _ _),
      neg_mem_iff_padOnes _ B (Nat.le_max_right _ _)]
    constructor
    · rintro ⟨i, hi, h⟩
      rw [broadcastAt_eq A B i hi] at h
      simp only at h
      split_ifs at h with h1 h2 h3 h4
      · rcases h1 with h1 | h1
        · exact Or.inl ⟨i, hi, h1⟩
        · exact Or.inr (Or.inl ⟨i, hi, h1⟩)
      · exact Or.inr (Or.inr ⟨i, hi, h2, h3, h4⟩)
    · rintro (⟨i, hi, h⟩ | ⟨i, hi, h⟩ | ⟨i, hi, h2, h3, h4⟩)
      · exact ⟨i, hi, by rw [broadcastAt_eq A B i hi]; simp only; rw [if_pos (Or.inl h)]⟩
      · exact ⟨i, hi, by rw [broadcastAt_eq A B i hi]; simp only; rw [if_pos (Or.inr h)]⟩
      · refine ⟨i, hi, ?_⟩
        rw [broadcastAt_eq A B i hi]
        simp only
        split_ifs <;> rfl
  · intro out h
    obtain ⟨hlen, hout⟩ := allOk_range_some h
    refine ⟨hlen, fun i hi => ?_⟩
    have h1 := hout i hi
    rw [broadcastAt_eq A B i hi] at h1
    simp only at h1
    unfold broadcastDim
    split_ifs at h1 with h1a h2 h3 h4 <;> simp only [Option.some.injEq] at h1
    · rw [if_pos h2]; exact h1.symm
    · rw [if_neg h2, if_pos h3]; exact h1.symm
    · rw [if_neg h2, if_neg h3]; exact h1.symm

theorem last_two (b : Shape) (x y : Int) :
    (b ++ [x, y]).length = b.length + 2 ∧
    (b ++ [x, y]).take ((b ++ [x, y]).length - 2) = b ∧
    (b ++ [x, y]).getD ((b ++ [x, y]).length - 2) 0 = x ∧
    (b ++ [x, y]).getD ((b ++ [x, y]).length - 1) 0 = y := by
  have hl : (b ++ [x, y]).length = b.length + 2 := by simp
  refine ⟨hl, ?_, ?_, ?_⟩
  · rw [hl, Nat.add_sub_cancel, List.take_left']
    rfl
  · rw [hl, Nat.add_sub_cancel, List.getD_append_right _ _ _ _ (Nat.le_refl _), Nat.sub_self]
    rfl
  · rw [hl, List.getD_append_right _ _ _ _ (by omega)]
    have : b.length + 2 - 1 - b.length = 1 := by omega
    rw [this]
    rfl

/-- C6: for `A = batchA ++ [x, y]` and `B = batchB ++ [u, v]` (every shape of rank at
least 2 has this form) and all flags, with `M = transA ? y : x`, `Ka = transA ? x : y`,
`Kb = transB ? v : u`, `N = transB ? u : v`: `MatmulObj::inferShape` succeeds exactly
when `infer_broadcast(batchA, batchB)` is defined and `Ka = Kb`; it then returns the
single shape `infer_broadcast(batchA, batchB) ++ [M, N]` and caches `(m, n, k) =
(M, N, Ka)`. It fails when either rank is below 2. Scenario S2: `[2,3,4]` and `[1,4,5]`
without transposes give `[2,3,5]` and `(3,5,4)`. -/
theorem matmul_inferShape_spec (transA transB : Bool) (batchA batchB : Shape)
    (x y u v : Int) :
    ((MatmulObj.inferShape transA transB [batchA ++ [x, y], batchB ++ [u, v]]).isSome = true ↔
      (infer_broadcast batchA batchB).isSome = true ∧
        (if transA then x else y) = (if transB then v else u)) ∧
    (∀ bc, infer_broadcast batchA batchB = some bc →
      (if transA then x else y) = (if transB then v else u) →
      MatmulObj.inferShape transA transB [batchA ++ [x, y], batchB ++ [u, v]] =
        some ([bc ++ [if transA then y else x, if transB then u else v]],
          (if transA then y else x, if transB then u else v, if transA then x else y))) ∧
    (∀ A B : Shape, A.length < 2 ∨ B.length < 2 →
      MatmulObj.inferShape transA transB [A, B] = none) ∧
    MatmulObj.inferShape false false [[2, 3, 4], [1, 4, 5]] = some ([[2, 3, 5]], (3, 5, 4)) := by
  obtain ⟨ha1, ha2, ha3, ha4⟩ := last_two batchA x y
  obtain ⟨hb1, hb2, hb3, hb4⟩ := last_two batchB u v
  have key : MatmulObj.inferShape transA transB [batchA ++ [x, y], batchB ++ [u, v]] =
      match infer_broadcast batchA batchB with
      | none => none
      | some bc =>
        if (if transA then x else y) ≠ (if transB then v else u) then none
        else some ([bc ++ [if transA then y else x] ++ [if transB then u else v]],
          (if transA then y else x, if transB then u else v, if transA then x else y)) := by
    unfold MatmulObj.inferShape
    simp only [ha2, ha3, ha4, hb2, hb3, hb4]
    rw [if_neg (by omega), if_neg (by omega)]
  refine ⟨?_, ?_, ?_, by decide⟩
  · rw [key]
    cases infer_broadcast batchA batchB with
    | none => simp
    | some bc =>
      by_cases hk : (if transA then x else y) = (if transB then v else u)
      · simp [hk]
      · simp [hk]
  · intro bc hbc hk
    rw [key, hbc]
    simp only [hk, ne_eq, not_true_eq_false, if_false, List.append_assoc, List.cons_append,
      List.nil_append]
  · intro A B h
    simp only [MatmulObj.inferShape]
    rcases h with h | h
    · rw [if_pos h]
    · rw [if_pos h, ite_self]

theorem getD_set_one (seen : List Nat) (k j : Nat) (hk : k < seen.length) :
    (seen.set k 1).getD j 0 = if k = j then 1 else seen.getD j 0 := by
  simp only [List.getD_eq_getElem?_getD, List.getElem?_set]
  split_ifs with h <;> simp

theorem seenLoop_isSome (r : Nat) (rest : List Int) :
    ∀ seen : List Nat, seen.length = r →
      ((seenLoop r rest seen).isSome = true ↔
        (∀ x ∈ rest, 0 ≤ x ∧ x < r) ∧ rest.Nodup ∧ ∀ x ∈ rest, seen.getD x.toNat 0 = 0) := by
  induction rest with
  | nil => intro seen _; simp [seenLoop]
  | cons p rest ih =>
    intro seen hlen
    unfold seenLoop
    by_cases hr : 0 ≤ p ∧ p < r
    · rw [if_neg (not_not.2 hr)]
      by_cases hs : seen.getD p.toNat 0 = 0
      · rw [if_neg (not_not.2 hs)]
        have hk : p.toNat < seen.length := by omega
        rw [ih (seen.set p.toNat 1) (by simpa using hlen)]
        simp only [List.mem_cons, forall_eq_or_imp, List.nodup_cons]
        constructor
        · rintro ⟨h1, h2, h3⟩
          have hnot : p ∉ rest := by
            intro hp
            have := h3 p hp
            rw [getD_set_one _ _ _ hk, if_pos rfl] at this
            omega
          refine ⟨⟨hr, h1⟩, ⟨hnot, h2⟩, hs, ?_⟩
          intro x hx
          have := h3 x hx
          rw [getD_set_one _ _ _ hk] at this
          split_ifs at this with he
          exact this
        · rintro ⟨⟨_, h1⟩, ⟨hnot, h2⟩, _, h3⟩
          refine ⟨h1, h2, ?_⟩
          intro x hx
          rw [getD_set_one _ _ _ hk]
          have hne : p.toNat ≠ x.toNat := by
            intro he
            have hx0 := (h1 x hx).1
            have : p = x := by omega
            exact hnot (this ▸ hx)
          rw [if_neg hne]
          exact h3 x hx
      · rw [if_pos hs]
        simp only [Option.isSome_none, Bool.false_eq_true, List.mem_cons, forall_eq_or_imp,
          false_iff]
        rintro ⟨_, _, h3, _⟩
        exact hs h3
    · rw [if_pos hr]
      simp only [Option.isSome_none, Bool.false_eq_true, List.mem_cons, forall_eq_or_imp,
        false_iff]
      rintro ⟨⟨h1, _⟩, _⟩
      exact hr h1

theorem isPermutationOf_iff (p : List Int) (r : Nat) :
    IsPermutationOf p r ↔ p.length = r ∧ (∀ x ∈ p, 0 ≤ x ∧ x < r) ∧ p.Nodup := by
  have hnd : ((List.range r).map Int.ofNat).Nodup :=
    (List.nodup_range r).map (fun a b h => Int.ofNat.inj h)
  have hmem : ∀ x : Int, x ∈ (List.range r).map Int.ofNat ↔ 0 ≤ x ∧ x < r := by
    intro x
    simp only [List.mem_map, List.mem_range]
    constructor
    · rintro ⟨i, hi, rfl⟩
      simp only [Int.ofNat_eq_coe]
      omega
    · rintro ⟨h0, h1⟩
      exact ⟨x.toNat, by omega, by simp only [Int.ofNat_eq_coe]; omega⟩
  unfold IsPermutationOf
  constructor
  · intro h
    refine ⟨by simpa using h.length_eq, fun x hx => (hmem x).1 (h.subset hx), h.nodup_iff.2 hnd⟩
  · rintro ⟨hl, hr, hn⟩
    have hsub : p ⊆ (List.range r).map Int.ofNat := fun x hx => (hmem x).2 (hr x hx)
    exact (List.subperm_of_subset hn hsub).perm_of_length_le (by simp [hl])

theorem transpose_inferShape_isSome (p : List Int) (input : Shape) :
    (TransposeObj.inferShape p [input]).isSome = true ↔ IsPermutationOf p input.length := by
  rw [isPermutationOf_iff]
  have hz : ∀ x ∈ p, (List.replicate input.length 0).getD x.toNat 0 = 0 := by
    intro x _
    simp [List.getD_eq_getElem?_getD, List.getElem?_replicate]
    split_ifs <;> rfl
  have hs := seenLoop_isSome input.length p (List.replicate input.length 0) (by simp)
  simp only [TransposeObj.inferShape]
  by_cases hl : p.length = input.length
  · rw [if_neg (not_not.2 hl)]
    cases hseen : seenLoop input.length p (List.replicate input.length 0) with
    | none =>
      rw [hseen] at hs
      simp only [Option.isSome_none, Bool.false_eq_true, false_iff, not_and]
      intro _ h1 h2
      exact absurd (hs.2 ⟨h1, h2, hz⟩) (by simp)
    | some v =>
      rw [hseen] at hs
      have := hs.1 rfl
      simp only [Option.isSome_some, true_iff]
      exact ⟨hl, this.1, this.2.1⟩
  · rw [if_pos hl]
    simp only [Option.isSome_none, Bool.false_eq_true, false_iff, not_and]
    intro h
    exact absurd h hl

/-- C8: for an input shape of rank `r` and stored permute `p`, `TransposeObj::inferShape`
fails exactly when `p` is not a permutation of `0..r-1`, that is when `p` has the wrong
length, holds an index outside `[0, r)` or repeats an index; otherwise it returns the
single shape `out` of rank `r` with `out[i] = input[p[i]]`. An empty constructor
argument stores the full reverse `[r-1, ..., 0]`, a non-empty one is stored as given
when its length is `r`. -/
theorem transpose_inferShape_spec (p : List Int) (input : Shape) :
    (TransposeObj.inferShape p [input] = none ↔ ¬ IsPermutationOf p input.length) ∧
    (¬ IsPermutationOf p input.length ↔
      p.length ≠ input.length ∨ (∃ x ∈ p, x < 0 ∨ (input.length : Int) ≤ x) ∨ ¬ p.Nodup) ∧
    (IsPermutationOf p input.length →
      ∃ out, TransposeObj.inferShape p [input] = some [out] ∧ out.length = input.length ∧
        ∀ i, i < input.length → out.getD i 0 = input.getD (p.getD i 0).toNat 0) ∧
    (∀ r : Nat, ∃ q, TransposeObj.init r [] = some q ∧ q.length = r ∧
      (∀ i, i < r → q.getD i 0 = ((r - 1 - i : Nat) : Int)) ∧ IsPermutationOf q r) ∧
    (∀ r : Nat, p ≠ [] →
      TransposeObj.init r p = if r = p.length then some p else none) := by
  refine ⟨?_, ?_, ?_, ?_, ?_⟩
  · rw [← transpose_inferShape_isSome]
    cases TransposeObj.inferShape p [input] <;> simp
  · rw [isPermutationOf_iff]
    constructor
    · intro h
      by_cases h1 : p.length = input.length
      · by_cases h2 : p.Nodup
        · refine Or.inr (Or.inl ?_)
          by_contra hc
          apply h
          refine ⟨h1, fun x hx => ?_, h2⟩
          by_contra hx2
          exact hc ⟨x, hx, by omega⟩
        · exact Or.inr (Or.inr h2)
      · exact Or.inl h1
    · rintro (h | ⟨x, hx, h⟩ | h) ⟨h1, h2, h3⟩
      · exact h h1
      · have := h2 x hx
        omega
      · exact h h3
  · intro hp
    have hsome := (transpose_inferShape_isSome p input).2 hp
    have hl := ((isPermutationOf_iff p input.length).1 hp).1
    simp only [TransposeObj.inferShape] at hsome ⊢
    rw [if_neg (not_not.2 hl)] at hsome ⊢
    cases hseen : seenLoop input.length p (List.replicate input.length 0) with
    | none => rw [hseen] at hsome; simp at hsome
    | some v =>
      refine ⟨_, rfl, by simp, fun i hi => ?_⟩
      simp [List.getD_eq_getElem?_getD, List.getElem?_map, List.getElem?_range hi]
  · intro r
    refine ⟨_, rfl, by simp, fun i hi => ?_, ?_⟩
    · simp [List.getD_eq_getElem?_getD, List.getElem?_map, List.getElem?_range hi]
    · rw [isPermutationOf_iff]
      refine ⟨by simp, ?_, ?_⟩
      · intro x hx
        simp only [List.mem_map, List.mem_range] at hx
        obtain ⟨i, hi, rfl⟩ := hx
        omega
      · refine (List.nodup_range r).map_on ?_
        intro a ha b hb h
        simp only [List.mem_range] at ha hb
        omega
  · intro r hne
    unfold TransposeObj.init
    rw [if_neg (by simpa using hne)]

theorem wrapInt_of_fits {x : Int} (h : fitsInt x) : wrapInt x = x := by
  unfold fitsInt at h
  unfold wrapInt
  omega

theorem wrapInt_add_wrapInt (a b : Int) : wrapInt (wrapInt a + b) = wrapInt (a + b) := by
  unfold wrapInt
  omega

theorem concatLoop_none (dims : Shape) (dim : Nat) (rest : List Shape) :
    ∀ acc, concatLoop dims dim rest acc = none ↔ ∃ s ∈ rest, concatMismatch dims dim s := by
  induction rest with
  | nil => intro acc; simp [concatLoop]
  | cons cur rest ih =>
    intro acc
    have hall : ((List.range dims.length).all
        (fun r => r = dim || cur.getD r 0 = dims.getD r 0) = true) ↔
        ∀ r, r < dims.length → r = dim ∨ cur.getD r 0 = dims.getD r 0 := by
      simp [List.all_eq_true]
    unfold concatLoop
    simp only [List.mem_cons, exists_eq_or_imp]
    by_cases hl : cur.length = dims.length
    · rw [if_neg (not_not.2 hl)]
      by_cases ha : ∀ r, r < dims.length → r = dim ∨ cur.getD r 0 = dims.getD r 0
      · rw [if_pos (hall.2 ha), ih]
        constructor
        · exact fun h => Or.inr h
        · rintro (h | h)
          · rcases h with h | ⟨r, hr, hne, hd⟩
            · exact absurd hl h
            · rcases ha r hr with h2 | h2
              · exact absurd h2 hne
              · exact absurd h2 hd
          · exact h
      · rw [if_neg (fun h => ha (hall.1 h))]
        refine ⟨fun _ => Or.inl (Or.inr ?_), fun _ => rfl⟩
        by_contra hc
        apply ha
        intro r hr
        by_contra h2
        exact hc ⟨r, hr, fun h => h2 (Or.inl h), fun h => h2 (Or.inr h)⟩
    · rw [if_pos hl]
      exact ⟨fun _ => Or.inl (Or.inl hl), fun _ => rfl⟩

theorem concatLoop_some (dims : Shape) (dim : Nat) (rest : List Shape) :
    ∀ acc v, concatLoop dims dim rest acc = some v →
      v = if rest = [] then acc else wrapInt (acc + axisSum dim rest) := by
  induction rest with
  | nil => intro acc v h; simpa [concatLoop] using h.symm
  | cons cur rest ih =>
    intro acc v h
    unfold concatLoop at h
    split_ifs at h with h1 h2
    have := ih _ _ h
    rw [this, if_neg (List.cons_ne_nil _ _)]
    by_cases hr : rest = []
    · subst hr
      simp [axisSum]
    · rw [if_neg hr, wrapInt_add_wrapInt]
      simp only [axisSum, List.map_cons, List.sum_cons]
      rw [Int.add_assoc]

/-- C9, counterexample: the shapes `[2147483647]` and `[1]` on `dim = 0` agree on every
other axis (there is none), so `ConcatObj::inferShape` does not fail; the sizes on axis
`0` add up to `2147483648`, but the `int` accumulator `sumDim` holds `-2147483648` and
that is the size returned. -/
theorem concat_sum_exceeds_int :
    (0 : Int) ≤ 0 ∧ (0 : Int) < ([2147483647] : Shape).length ∧
    (¬ ∃ s ∈ [([1] : Shape)], concatMismatch [2147483647] (0 : Int).toNat s) ∧
    axisSum (0 : Int).toNat [[2147483647], [1]] = 2147483648 ∧
    ConcatObj.inferShape 0 [[2147483647], [1]] = some [[-2147483648]] ∧
    ConcatObj.inferShape 0 [[2147483647], [1]] ≠
      some [([2147483647] : Shape).set (0 : Int).toNat
        (axisSum (0 : Int).toNat [[2147483647], [1]])] := by
  refine ⟨by decide, by decide, ?_, by decide, by decide, by decide⟩
  rintro ⟨s, hs, hm⟩
  have hs2 : s = [1] := by simpa using hs
  subst hs2
  rcases hm with hm | ⟨r, hr, hne, -⟩
  · exact hm rfl
  · have hr2 : r = 0 := by simpa using hr
    exact hne (by simpa using hr2)

/-- C9, amended: for a non-empty list of input shapes `d0 :: rest` and a normalized
axis `0 ≤ dim < rank(d0)`, `ConcatObj::inferShape` fails exactly when some input has a
rank different from `d0` or differs from `d0` on an axis other than `dim`; otherwise,
when the sum of all inputs' sizes on axis `dim` is representable in an `int`, it returns
`d0` with axis `dim` replaced by that sum. Scenario S3: `[2,3]` and `[2,4]` give `[2,7]`
on `dim = 1` and fail on `dim = 0`. -/
theorem concat_inferShape_spec (dim : Int) (d0 : Shape) (rest : List Shape)
    (h0 : 0 ≤ dim) (h1 : dim < d0.length) :
    (ConcatObj.inferShape dim (d0 :: rest) = none ↔
      ∃ s ∈ rest, concatMismatch d0 dim.toNat s) ∧
    ((¬ ∃ s ∈ rest, concatMismatch d0 dim.toNat s) →
      fitsInt (axisSum dim.toNat (d0 :: rest)) →
      ConcatObj.inferShape dim (d0 :: rest) =
        some [d0.set dim.toNat (axisSum dim.toNat (d0 :: rest))]) ∧
    ConcatObj.inferShape 1 [[2, 3], [2, 4]] = some [[2, 7]] ∧
    ConcatObj.inferShape 0 [[2, 3], [2, 4]] = none := by
  have hd : ¬ ¬ (0 ≤ dim ∧ dim < d0.length) := not_not.2 ⟨h0, h1⟩
  refine ⟨?_, ?_, by decide, by decide⟩
  · simp only [ConcatObj.inferShape]
    rw [if_neg hd, ← concatLoop_none d0 dim.toNat rest (d0.getD dim.toNat 0)]
    cases concatLoop d0 dim.toNat rest (d0.getD dim.toNat 0) <;> simp
  · intro hok hfit
    simp only [ConcatObj.inferShape]
    rw [if_neg hd]
    cases hc : concatLoop d0 dim.toNat rest (d0.getD dim.toNat 0) with
    | none => exact absurd ((concatLoop_none _ _ _ _).1 hc) hok
    | some v =>
      have hv := concatLoop_some _ _ _ _ _ hc
      have hsum : axisSum dim.toNat (d0 :: rest) =
          d0.getD dim.toNat 0 + axisSum dim.toNat rest := by
        simp [axisSum]
      have : v = axisSum dim.toNat (d0 :: rest) := by
        rw [hv]
        split_ifs with hr
        · subst hr; simp [axisSum]
        · rw [← hsum, wrapInt_of_fits hfit]
      rw [this]

theorem concat_inferShape_spec_witness :
    (0 : Int) ≤ 1 ∧ (1 : Int) < ([2, 3] : Shape).length ∧
    fitsInt (axisSum (1 : Int).toNat ([2, 3] :: [[2, 4]])) ∧
    ConcatObj.inferShape 1 ([2, 3] :: [[2, 4]]) =
      some [([2, 3] : Shape).set (1 : Int).toNat
        (axisSum (1 : Int).toNat ([2, 3] :: [[2, 4]]))] :=
  have hfit : fitsInt (axisSum (1 : Int).toNat ([2, 3] :: [[2, 4]])) := by
    unfold fitsInt axisSum; decide
  have hspec := concat_inferShape_spec 1 [2, 3] [[2, 4]] (by decide) (by decide)
  ⟨by decide, by decide, hfit,
    hspec.2.1 (fun h => absurd (hspec.1.2 h) (by decide)) hfit⟩

/-! ## Graph: `topo_sort` -/

theorem ready_iff (g : GraphObj) (flags : List OpId) (o : OpId) :
    g.ready flags o = true ↔
      o ∉ flags ∧ ∀ t ∈ (g.op o).inputs, ∀ p, (g.tensor t).source = some p → p ∈ flags := by
  unfold GraphObj.ready
  simp only [Bool.and_eq_true, Bool.not_eq_true', List.all_eq_true]
  constructor
  · rintro ⟨h1, h2⟩
    refine ⟨by simpa using h1, fun t ht p hp => ?_⟩
    have := h2 t ht
    rw [hp] at this
    simpa using this
  · rintro ⟨h1, h2⟩
    refine ⟨by simpa using h1, fun t ht => ?_⟩
    cases hs : (g.tensor t).source with
    | none => rfl
    | some p => simpa using h2 t ht p hs

theorem topoOrdered_snoc {g : GraphObj} {sorted : List OpId} {o : OpId}
    (h : g.TopoOrdered sorted)
    (ho : ∀ t ∈ (g.op o).inputs, ∀ p, (g.tensor t).source = some p → p ∈ sorted) :
    g.TopoOrdered (sorted ++ [o]) := by
  intro l1 x l2 heq t ht p hp
  rcases List.append_eq_append_iff.1 heq with ⟨a, h1, h2⟩ | ⟨c, h1, h2⟩
  · have hlen := congrArg List.length h2
    simp at hlen
    have ha : a = [] := List.eq_nil_of_length_eq_zero (by omega)
    subst ha
    simp only [List.nil_append, List.cons.injEq] at h2
    obtain ⟨rfl, -⟩ := h2
    rw [h1, List.append_nil]
    exact ho t ht p hp
  · cases c with
    | nil =>
      simp only [List.nil_append, List.cons.injEq] at h2
      obtain ⟨rfl, -⟩ := h2
      rw [List.append_nil] at h1
      rw [← h1]
      exact ho t ht p hp
    | cons y c =>
      simp only [List.cons_append, List.cons.injEq] at h2
      obtain ⟨rfl, -⟩ := h2
      exact h l1 x c h1 t ht p hp

theorem topoInv_emit {g : GraphObj} {sorted flags : List OpId} {o : OpId}
    (hi : g.TopoInv sorted flags) (ho : o ∈ g.ops) (hr : g.ready flags o = true) :
    g.TopoInv (sorted ++ [o]) (o :: flags) := by
  obtain ⟨hnf, hsrc⟩ := (ready_iff g flags o).1 hr
  refine ⟨?_, ?_, ?_, ?_, ?_⟩
  · intro x
    rw [List.mem_cons, List.mem_append, List.mem_singleton, hi.flags_iff]
    exact or_comm
  · refine List.Nodup.append hi.nodup (List.nodup_singleton o) ?_
    intro x hx hx2
    rw [List.mem_singleton] at hx2
    subst hx2
    exact hnf ((hi.flags_iff x).2 hx)
  · intro x hx
    rcases List.mem_append.1 hx with h | h
    · exact hi.sub x h
    · rw [List.mem_singleton] at h; subst h; exact ho
  · exact topoOrdered_snoc hi.ordered (fun t ht p hp => (hi.flags_iff p).1 (hsrc t ht p hp))
  · intro x hx hcyc
    rcases List.mem_append.1 hx with h | h
    · exact hi.acyclic x h hcyc
    · rw [List.mem_singleton] at h
      subst h
      obtain ⟨b, hxb, hbx⟩ := Relation.TransGen.tail'_iff.1 hcyc
      obtain ⟨t, ht, hsb⟩ := hbx.2.2
      have hbs : b ∈ sorted := (hi.flags_iff b).1 (hsrc t ht b hsb)
      exact hi.acyclic b hbs (Relation.TransGen.head' hbx hxb)

theorem topoPass_modified (g : GraphObj) (rest : List OpId) :
    ∀ (sorted flags : List OpId), (g.topoPass rest sorted flags true).2.2 = true := by
  induction rest with
  | nil => intro sorted flags; rfl
  | cons o rest ih =>
    intro sorted flags
    unfold GraphObj.topoPass
    split_ifs
    · exact ih _ _
    · exact ih _ _

theorem topoPass_inv (g : GraphObj) (rest : List OpId) :
    ∀ (sorted flags : List OpId) (m : Bool), (∀ o ∈ rest, o ∈ g.ops) →
      g.TopoInv sorted flags →
      g.TopoInv (g.topoPass rest sorted flags m).1 (g.topoPass rest sorted flags m).2.1 ∧
      sorted.length ≤ (g.topoPass rest sorted flags m).1.length ∧
      ((g.topoPass rest sorted flags m).2.2 = true →
        m = true ∨ sorted.length < (g.topoPass rest sorted flags m).1.length) ∧
      ((g.topoPass rest sorted flags m).2.2 = false →
        (g.topoPass rest sorted flags m).1 = sorted ∧
        (g.topoPass rest sorted flags m).2.1 = flags ∧
        ∀ o ∈ rest, g.ready flags o = false) := by
  induction rest with
  | nil =>
    intro sorted flags m _ hi
    unfold GraphObj.topoPass
    exact ⟨hi, Nat.le_refl _, fun h => Or.inl h, fun _ => ⟨rfl, rfl, fun o ho => by simp at ho⟩⟩
  | cons o rest ih =>
    intro sorted flags m hsub hi
    have hsub2 : ∀ x ∈ rest, x ∈ g.ops := fun x hx => hsub x (List.mem_cons_of_mem _ hx)
    unfold GraphObj.topoPass
    by_cases hr : g.ready flags o = true
    · rw [if_pos hr]
      obtain ⟨h1, h2, h3, h4⟩ := ih (sorted ++ [o]) (o :: flags) true hsub2
        (topoInv_emit hi (hsub o (List.mem_cons_self _ _)) hr)
      have hlen : (sorted ++ [o]).length = sorted.length + 1 := by simp
      refine ⟨h1, by omega, fun _ => Or.inr (by omega), fun hf => ?_⟩
      rw [topoPass_modified] at hf
      cases hf
    · rw [if_neg hr]
      obtain ⟨h1, h2, h3, h4⟩ := ih sorted flags m hsub2 hi
      refine ⟨h1, h2, h3, fun hf => ?_⟩
      obtain ⟨e1, e2, e3⟩ := h4 hf
      refine ⟨e1, e2, fun x hx => ?_⟩
      rcases List.mem_cons.1 hx with h | h
      · subst h; simpa using hr
      · exact e3 x h

theorem topoInv_nil (g : GraphObj) : g.TopoInv [] [] where
  flags_iff := fun _ => Iff.rfl
  nodup := List.nodup_nil
  sub := fun o ho => by simp at ho
  ordered := by
    intro l1 o l2 h
    simp at h
  acyclic := fun o ho => by simp at ho

theorem topoLoop_spec (g : GraphObj) :
    ∀ (fuel : Nat) (sorted flags : List OpId), g.TopoInv sorted flags →
      g.ops.length - sorted.length < fuel →
      (∃ s f, g.topoLoop fuel sorted flags = .done s ∧ g.TopoInv s f ∧
        g.ops.length ≤ s.length) ∨
      (g.topoLoop fuel sorted flags = .stuck ∧
        ∃ s f, g.TopoInv s f ∧ s.length < g.ops.length ∧
          ∀ o ∈ g.ops, g.ready f o = false) := by
  intro fuel
  induction fuel with
  | zero => intro sorted flags _ h; omega
  | succ n ih =>
    intro sorted flags hi hfuel
    unfold GraphObj.topoLoop
    by_cases hlen : sorted.length < g.ops.length
    · rw [if_pos hlen]
      obtain ⟨h1, h2, h3, h4⟩ := topoPass_inv g g.ops sorted flags false (fun o ho => ho) hi
      simp only
      cases hm : (g.topoPass g.ops sorted flags false).2.2 with
      | false =>
        obtain ⟨e1, e2, e3⟩ := h4 hm
        refine Or.inr ⟨by simp, sorted, flags, hi, hlen, e3⟩
      | true =>
        have hgrow : sorted.length < (g.topoPass g.ops sorted flags false).1.length := by
          rcases h3 hm with h | h
          · cases h
          · exact h
        simpa using ih _ _ h1 (by omega)
    · rw [if_neg hlen]
      exact Or.inl ⟨sorted, flags, rfl, hi, by omega⟩

theorem topo_stuck_cycle (g : GraphObj) (hnd : g.ops.Nodup)
    (hsrc : ∀ o ∈ g.ops, ∀ t ∈ (g.op o).inputs, ∀ p, (g.tensor t).source = some p → p ∈ g.ops)
    (s f : List OpId) (hi : g.TopoInv s f) (hlt : s.length < g.ops.length)
    (hnr : ∀ o ∈ g.ops, g.ready f o = false) :
    ∃ o, Relation.TransGen g.feeds o o := by
  by_contra hno
  have hno2 : ∀ o, ¬ Relation.TransGen g.feeds o o := fun o h => hno ⟨o, h⟩
  have hex : ∃ o0 ∈ g.ops, o0 ∉ f := by
    by_contra hc
    have hsub : g.ops ⊆ s := by
      intro o ho
      by_contra hns
      exact hc ⟨o, ho, fun hf => hns ((hi.flags_iff o).1 hf)⟩
    have := (List.subperm_of_subset hnd hsub).length_le
    omega
  have hpred : ∀ u ∈ g.ops, u ∉ f → ∃ p ∈ g.ops, p ∉ f ∧ g.feeds p u := by
    intro u hu huf
    have h1 := hnr u hu
    have h2 : ¬ (u ∉ f ∧ ∀ t ∈ (g.op u).inputs, ∀ p, (g.tensor t).source = some p → p ∈ f) :=
      fun h => by rw [(ready_iff g f u).2 h] at h1; cases h1
    have h3 : ¬ ∀ t ∈ (g.op u).inputs, ∀ p, (g.tensor t).source = some p → p ∈ f :=
      fun h => h2 ⟨huf, h⟩
    push_neg at h3
    obtain ⟨t, ht, p, hp, hpf⟩ := h3
    exact ⟨p, hsrc u hu t ht p hp, hpf, hsrc u hu t ht p hp, hu, t, ht, hp⟩
  let r : {o // o ∈ g.ops.toFinset} → {o // o ∈ g.ops.toFinset} → Prop :=
    fun a b => Relation.TransGen g.feeds a.1 b.1
  haveI : IsTrans {o // o ∈ g.ops.toFinset} r := ⟨fun _ _ _ h1 h2 => Relation.TransGen.trans h1 h2⟩
  haveI : IsIrrefl {o // o ∈ g.ops.toFinset} r := ⟨fun a h => hno2 a.1 h⟩
  have wf : WellFounded r := Finite.wellFounded_of_trans_of_irrefl r
  obtain ⟨o0, ho0, hof⟩ := hex
  obtain ⟨m, hm, hmin⟩ := wf.has_min {a | a.1 ∉ f} ⟨⟨o0, List.mem_toFinset.2 ho0⟩, hof⟩
  obtain ⟨p, hp, hpf, hfeed⟩ := hpred m.1 (List.mem_toFinset.1 m.2) hm
  exact hmin ⟨p, List.mem_toFinset.2 hp⟩ hpf (Relation.TransGen.single hfeed)

/-- C4: when `topo_sort`, called with `sorted = false`, returns `true`, the new op list
is a permutation of the old one, every operator in it comes after the source operator
of each of its input tensors, and the `sorted` flag is set. -/
theorem topo_sort_sound (g : GraphObj) (hs : g.sorted = false)
    (ht : g.topo_sort.1 = some true) :
    g.topo_sort.2.ops.Perm g.ops ∧ g.topo_sort.2.TopoOrdered g.topo_sort.2.ops ∧
      g.topo_sort.2.sorted = true := by
  unfold GraphObj.topo_sort at ht ⊢
  simp only [hs, Bool.false_eq_true, if_false] at ht ⊢
  rcases topoLoop_spec g (g.ops.length + 1) [] [] (topoInv_nil g) (by simp) with
    ⟨s, f, hd, hi, hlen⟩ | ⟨hst, -⟩
  · rw [hd]
    refine ⟨?_, hi.ordered, rfl⟩
    exact (List.subperm_of_subset hi.nodup hi.sub).perm_of_length_le hlen
  · rw [hst] at ht
    cases ht

theorem topo_sort_sound_witness :
    chainGraph.sorted = false ∧ chainGraph.topo_sort.1 = some true ∧
    chainGraph.topo_sort.2.ops.Perm chainGraph.ops ∧
    chainGraph.topo_sort.2.TopoOrdered chainGraph.topo_sort.2.ops ∧
    chainGraph.topo_sort.2.sorted = true :=
  ⟨rfl, by decide, topo_sort_sound chainGraph rfl (by decide)⟩

/-- C5, counterexample: the operator `op10 : t0 -> t1` connected twice gives the op list
`[op10, op10]`; the only operator input `t0` has no source, so the condition on the
sources holds and the producer-to-consumer relation is empty, yet `topo_sort` returns
`false`: the second entry of the op list is already flagged, `sorted` stays at one
operator and the next pass changes nothing. -/
theorem topo_sort_false_without_cycle :
    dupGraph.ops = [10, 10] ∧ dupGraph.sorted = false ∧
    (∀ o ∈ dupGraph.ops, ∀ t ∈ (dupGraph.op o).inputs, ∀ p,
      (dupGraph.tensor t).source = some p → p ∈ dupGraph.ops) ∧
    dupGraph.topo_sort.1 = some false ∧
    ¬ ∃ o, Relation.TransGen dupGraph.feeds o o := by
  have hin : ∀ o ∈ dupGraph.ops, ∀ t ∈ (dupGraph.op o).inputs, ∀ p,
      (dupGraph.tensor t).source ≠ some p := by
    intro o ho t ht p
    have ho2 : o = 10 := by
      have h : dupGraph.ops = [10, 10] := by decide
      rw [h] at ho
      simpa using ho
    subst ho2
    have hi : (dupGraph.op 10).inputs = [0] := by decide
    rw [hi] at ht
    have ht2 : t = 0 := by simpa using ht
    subst ht2
    have hsrc : (dupGraph.tensor 0).source = none := by decide
    rw [hsrc]
    exact fun h => Option.noConfusion h
  refine ⟨by decide, by decide, ?_, by decide, ?_⟩
  · intro o ho t ht p hp
    exact absurd hp (hin o ho t ht p)
  · rintro ⟨o, hcyc⟩
    obtain ⟨b, -, hb⟩ := Relation.TransGen.tail'_iff.1 hcyc
    obtain ⟨-, ho, t, ht, hp⟩ := hb
    exact hin o ho t ht b hp

/-- C5, amended: for a graph whose op list holds distinct operators and in which the
source of every operator input is absent or in the op list, `topo_sort` called with
`sorted = false` terminates, returns `false` exactly when the producer-to-consumer
relation among the operators has a cycle, and then leaves the op list and the `sorted`
flag unchanged. -/
theorem topo_sort_cycle (g : GraphObj) (hs : g.sorted = false) (hnd : g.ops.Nodup)
    (hsrc : ∀ o ∈ g.ops, ∀ t ∈ (g.op o).inputs, ∀ p,
      (g.tensor t).source = some p → p ∈ g.ops) :
    g.topo_sort.1 ≠ none ∧
    (g.topo_sort.1 = some false ↔ ∃ o, Relation.TransGen g.feeds o o) ∧
    (g.topo_sort.1 = some false →
      g.topo_sort.2.ops = g.ops ∧ g.topo_sort.2.sorted = false) := by
  unfold GraphObj.topo_sort
  simp only [hs, Bool.false_eq_true, if_false]
  rcases topoLoop_spec g (g.ops.length + 1) [] [] (topoInv_nil g) (by simp) with
    ⟨s, f, hd, hi, hlen⟩ | ⟨hst, s, f, hi, hlt, hnr⟩
  · rw [hd]
    refine ⟨by simp, ?_, by simp⟩
    simp only [Option.some.injEq, Bool.true_eq_false, false_iff, not_exists]
    intro o hcyc
    have ho : o ∈ g.ops := by
      obtain ⟨b, -, hb⟩ := Relation.TransGen.tail'_iff.1 hcyc
      exact hb.2.1
    have hperm := (List.subperm_of_subset hi.nodup hi.sub).perm_of_length_le hlen
    exact hi.acyclic o (hperm.symm.subset ho) hcyc
  · rw [hst]
    exact ⟨by simp, ⟨fun _ => topo_stuck_cycle g hnd hsrc s f hi hlt hnr, fun _ => rfl⟩,
      fun _ => ⟨rfl, hs⟩⟩

theorem topo_sort_cycle_witness :
    cycleGraph.sorted = false ∧ cycleGraph.ops.Nodup ∧
    (∀ o ∈ cycleGraph.ops, ∀ t ∈ (cycleGraph.op o).inputs, ∀ p,
      (cycleGraph.tensor t).source = some p → p ∈ cycleGraph.ops) ∧
    cycleGraph.topo_sort.1 ≠ none ∧
    (cycleGraph.topo_sort.1 = some false ↔ ∃ o, Relation.TransGen cycleGraph.feeds o o) ∧
    (cycleGraph.topo_sort.1 = some false →
      cycleGraph.topo_sort.2.ops = cycleGraph.ops ∧ cycleGraph.topo_sort.2.sorted = false) :=
  have hsrc : ∀ o ∈ cycleGraph.ops, ∀ t ∈ (cycleGraph.op o).inputs, ∀ p,
      (cycleGraph.tensor t).source = some p → p ∈ cycleGraph.ops := by
    intro o ho t ht p hp
    have ho2 : o = 10 ∨ o = 11 := by simpa [cycleGraph] using ho
    rcases ho2 with rfl | rfl
    · have ht2 : t = 1 := by simpa [cycleGraph, transposeOp] using ht
      subst ht2
      have : p = 11 := by simpa [cycleGraph] using hp.symm
      subst this
      decide
    · have ht2 : t = 0 := by simpa [cycleGraph, transposeOp] using ht
      subst ht2
      have : p = 10 := by simpa [cycleGraph] using hp.symm
      subst this
      decide
  ⟨rfl, by decide, hsrc, topo_sort_cycle cycleGraph rfl (by decide) hsrc⟩

theorem broadcastAt_comm (A B : Shape) (i : Nat) : broadcastAt A B i = broadcastAt B A i := by
  simp only [broadcastAt, Nat.max_comm B.length A.length]
  split_ifs <;> first | rfl | omega | (exfalso; tauto) | (congr 1)

/-- C15: `infer_broadcast(A, B)` and `infer_broadcast(B, A)` are the same result: one
is defined exactly when the other is, and when defined they are equal. -/
theorem infer_broadcast_comm (A B : Shape) :
    ((infer_broadcast A B).isSome = (infer_broadcast B A).isSome) ∧
      infer_broadcast A B = infer_broadcast B A := by
  have h : infer_broadcast A B = infer_broadcast B A := by
    unfold infer_broadcast
    rw [Nat.max_comm B.length A.length]
    congr 1
    exact List.map_congr_left (fun i _ => broadcastAt_comm A B i)
  exact ⟨by rw [h], h⟩

theorem wrap_mod8 (x : Nat) : wrap x % 8 = x % 8 := by
  unfold wrap wordSize
  omega

theorem getAlignedSize_mod8 (size : Nat) : getAlignedSize size % 8 = 0 := by
  cases size with
  | zero => unfold getAlignedSize; rw [wrap_mod8]; unfold alignment; omega
  | succ n => unfold getAlignedSize; rw [wrap_mod8]; unfold alignment; omega

theorem mem_eraseBlock {live : List (Nat × Nat)} {b x : Nat × Nat}
    (h : x ∈ eraseBlock live b) : x ∈ live := by
  induction live with
  | nil => simp [eraseBlock] at h
  | cons y l ih =>
    unfold eraseBlock at h
    split_ifs at h with hy
    · exact List.mem_cons_of_mem _ h
    · rcases List.mem_cons.1 h with h | h
      · exact h ▸ List.mem_cons_self _ _
      · exact List.mem_cons_of_mem _ (ih h)

theorem shrinkPeak_aligned (fuel : Nat) :
    ∀ (m : FreeMap) (peak : Nat), peak % 8 = 0 → (∀ e ∈ m, e.1 % 8 = 0 ∧ e.2 % 8 = 0) →
      (shrinkPeak fuel m peak).2 % 8 = 0 ∧
        ∀ e ∈ (shrinkPeak fuel m peak).1, e.1 % 8 = 0 ∧ e.2 % 8 = 0 := by
  induction fuel with
  | zero => intro m peak hp hm; exact ⟨hp, hm⟩
  | succ n ih =>
    intro m peak hp hm
    unfold shrinkPeak
    split_ifs with hemp
    · exact ⟨hp, hm⟩
    · split
      · exact ⟨hp, hm⟩
      · rename_i blockAddr blockSize hb
        have hmem := (mem_of_beforeUpper_last hb).1
        split_ifs with hne
        · exact ⟨hp, hm⟩
        · exact ih _ _ (hm _ hmem).1 (fun e he => hm e (mem_mapErase.1 he).1)

theorem addFreeBlock_aligned (m : FreeMap) (peak addr size : Nat) (hp : peak % 8 = 0)
    (hm : ∀ e ∈ m, e.1 % 8 = 0 ∧ e.2 % 8 = 0) (ha : addr % 8 = 0) (hs : size % 8 = 0) :
    (addFreeBlock m peak addr size).2 % 8 = 0 ∧
      ∀ e ∈ (addFreeBlock m peak addr size).1, e.1 % 8 = 0 ∧ e.2 % 8 = 0 := by
  have hl : (∀ e ∈ (mergeLeft m addr size).1, e.1 % 8 = 0 ∧ e.2 % 8 = 0) ∧
      (mergeLeft m addr size).2.1 % 8 = 0 ∧ (mergeLeft m addr size).2.2 % 8 = 0 := by
    unfold mergeLeft
    split
    · exact ⟨hm, ha, hs⟩
    · rename_i leftAddr leftSize hl
      have hmem := hm _ (mem_of_beforeLower_last hl).1
      split_ifs with heq
      · refine ⟨fun e he => hm e (mem_mapErase.1 he).1, hmem.1, ?_⟩
        simp only at hmem ⊢
        rw [wrap_mod8]
        omega
      · exact ⟨hm, ha, hs⟩
  obtain ⟨hl1, hl2, hl3⟩ := hl
  have hr : (∀ e ∈ (mergeRight (mergeLeft m addr size).1 (mergeLeft m addr size).2.1
        (mergeLeft m addr size).2.2).1, e.1 % 8 = 0 ∧ e.2 % 8 = 0) ∧
      (mergeRight (mergeLeft m addr size).1 (mergeLeft m addr size).2.1
        (mergeLeft m addr size).2.2).2 % 8 = 0 := by
    unfold mergeRight
    split
    · exact ⟨hl1, hl3⟩
    · rename_i rightAddr rightSize hr
      have hmem := hl1 _ (mem_of_fromLower_head hr)
      split_ifs with heq
      · refine ⟨fun e he => hl1 e (mem_mapErase.1 he).1, ?_⟩
        simp only at hmem ⊢
        rw [wrap_mod8]
        omega
      · exact ⟨hl1, hl3⟩
  obtain ⟨hr1, hr2⟩ := hr
  unfold addFreeBlock
  apply shrinkPeak_aligned _ _ _ hp
  intro e he
  rcases mem_mapEmplace he with h | h
  · exact hr1 e h
  · subst h; exact ⟨hl2, hr2⟩

theorem aligned_step_alloc {s s2 : Session} (hi : s.Aligned) (size : Nat)
    (h : s.step (.alloc size) = some s2) : s2.Aligned := by
  obtain ⟨⟨used, peak, fb, ptr⟩, live⟩ := s
  obtain ⟨hp, hf, hl⟩ := hi
  simp only at hp hf hl
  have hal := getAlignedSize_mod8 size
  simp only [Session.step, Allocator.alloc] at h
  generalize getAlignedSize size = al at *
  split_ifs at h with hptr
  cases hfind : findFreeBlock fb al with
  | none =>
    rw [hfind] at h
    simp only [Option.some.injEq] at h
    subst h
    refine ⟨?_, hf, ?_⟩
    · show wrap (peak + al) % 8 = 0
      rw [wrap_mod8]; omega
    · intro b hb
      rcases List.mem_cons.1 hb with h | h
      · subst h; exact hp
      · exact hl b h
  | some blk =>
    obtain ⟨addr, bs⟩ := blk
    rw [hfind] at h
    have hmem := hf _ (List.mem_of_find?_eq_some hfind)
    have hle : al ≤ bs := by simpa using List.find?_some hfind
    simp only at h hmem
    rw [if_neg (Nat.not_lt.2 hle)] at h
    simp only [Option.some.injEq] at h
    subst h
    refine ⟨hp, ?_, ?_⟩
    · show ∀ e ∈ (if 0 < bs - al then
          mapEmplace (mapErase fb addr) (wrap (addr + al)) (bs - al)
        else mapErase fb addr), e.1 % 8 = 0 ∧ e.2 % 8 = 0
      intro e he
      split_ifs at he with hpos
      · rcases mem_mapEmplace he with h | h
        · exact hf e (mem_mapErase.1 h).1
        · subst h
          simp only
          rw [wrap_mod8]
          omega
      · exact hf e (mem_mapErase.1 he).1
    · intro b hb
      rcases List.mem_cons.1 hb with h | h
      · subst h; exact hmem.1
      · exact hl b h

theorem aligned_step_free {s s2 : Session} (hi : s.Aligned) (addr size : Nat)
    (hb : (addr, size) ∈ s.live) (h : s.step (.free addr size) = some s2) : s2.Aligned := by
  obtain ⟨⟨used, peak, fb, ptr⟩, live⟩ := s
  obtain ⟨hp, hf, hl⟩ := hi
  simp only at hp hf hl hb
  have hal := getAlignedSize_mod8 size
  have ha : addr % 8 = 0 := hl _ hb
  simp only [Session.step, Allocator.free] at h
  generalize getAlignedSize size = al at *
  split_ifs at h with hptr hu
  simp only [Option.some.injEq] at h
  subst h
  obtain ⟨h1, h2⟩ := addFreeBlock_aligned fb peak addr al hp hf ha hal
  exact ⟨h1, h2, fun b hb2 => hl b (mem_eraseBlock hb2)⟩

theorem aligned_run (cs : List Call) :
    ∀ s : Session, s.Aligned → s.freesLive cs = true →
      ∀ s2, s.run cs = some s2 → s2.Aligned := by
  induction cs with
  | nil =>
    intro s hi _ s2 h
    simp only [Session.run, Option.some.injEq] at h
    exact h ▸ hi
  | cons c cs ih =>
    intro s hi hfl s2 h
    simp only [Session.freesLive, Bool.and_eq_true] at hfl
    simp only [Session.run] at h
    cases hs : s.step c with
    | none => rw [hs] at h; cases h
    | some s1 =>
      rw [hs] at h
      have h2 := hfl.2
      rw [hs] at h2
      have hi1 : s1.Aligned := by
        cases c with
        | alloc size => exact aligned_step_alloc hi size hs
        | free addr size =>
          exact aligned_step_free hi addr size (by simpa using hfl.1) hs
      exact ih s1 hi1 h2 s2 h

theorem freesLive_take (cs : List Call) :
    ∀ (s : Session) (n : Nat), s.freesLive cs = true → s.freesLive (cs.take n) = true := by
  induction cs with
  | nil => intro s n h; simpa using h
  | cons c cs ih =>
    intro s n h
    cases n with
    | zero => rfl
    | succ n =>
      simp only [List.take_succ_cons, Session.freesLive, Bool.and_eq_true] at h ⊢
      refine ⟨h.1, ?_⟩
      cases hs : s.step c with
      | none => rfl
      | some s2 =>
        have h2 := h.2
        rw [hs] at h2
        exact ih s2 n h2

/-- C14: on a fresh allocator, for every sequence of `alloc` calls of arbitrary sizes
(0 and non-multiples of 8 included) and `free` calls of live blocks, with `size_t`
arithmetic modulo `2^64`: after any number `n` of calls that the allocator accepted,
`peak` is a multiple of 8 and so is the offset of every live block, in particular the
offset the last `alloc` returned; an `alloc` made in such a state returns a multiple
of 8. -/
theorem alloc_alignment (cs : List Call) (hfl : Session.fresh.freesLive cs = true)
    (n : Nat) (s : Session) (hrun : Session.fresh.run (cs.take n) = some s) :
    s.a.peak % 8 = 0 ∧ (∀ b ∈ s.live, b.1 % 8 = 0) ∧
      ∀ size off a2, s.a.alloc size = some (off, a2) → off % 8 = 0 ∧ a2.peak % 8 = 0 := by
  have hfresh : Session.fresh.Aligned :=
    ⟨rfl, fun e he => by simp [Session.fresh, Allocator.fresh] at he,
      fun b hb => by simp [Session.fresh] at hb⟩
  have hi := aligned_run (cs.take n) _ hfresh (freesLive_take cs _ n hfl) s hrun
  refine ⟨hi.peak, hi.live, ?_⟩
  intro size off a2 ha
  have hstep : s.step (.alloc size) = some ⟨a2, (off, size) :: s.live⟩ := by
    simp only [Session.step, ha]
  have h2 := aligned_step_alloc hi size hstep
  exact ⟨h2.live _ (List.mem_cons_self _ _), h2.peak⟩

theorem alloc_alignment_witness :
    Session.fresh.freesLive [.alloc 0, .alloc 13, .free 0 0, .alloc 3] = true ∧
    Session.fresh.run ([Call.alloc 0, .alloc 13, .free 0 0, .alloc 3].take 4) =
      some ⟨⟨24, 24, [(0, 0)], none⟩, [(16, 3), (0, 13)]⟩ ∧
    (24 % 8 = 0 ∧ (∀ b ∈ [((16 : Nat), (3 : Nat)), (0, 13)], b.1 % 8 = 0) ∧
      ∀ size off a2, Allocator.alloc ⟨24, 24, [(0, 0)], none⟩ size = some (off, a2) →
        off % 8 = 0 ∧ a2.peak % 8 = 0) :=
  ⟨by decide, by decide,
    alloc_alignment [.alloc 0, .alloc 13, .free 0 0, .alloc 3] (by decide) 4
      ⟨⟨24, 24, [(0, 0)], none⟩, [(16, 3), (0, 13)]⟩ (by decide)⟩

/-- C12 (counterexample): after `alloc(16)=0, alloc(32)=16, free(16,32)` the peak is
`16`, below the end `48` of the block `(16,32)` that `alloc` returned; and after
`alloc(8)=0, alloc(0)=8, free(0,8)` the peak is `0`, below the offset of the live
zero-sized block `(8,0)`. -/
theorem peak_below_returned_block :
    Session.fresh.admissible [.alloc 16, .alloc 32, .free 16 32] = true ∧
    Session.fresh.run [.alloc 16, .alloc 32] =
      some ⟨⟨48, 48, [], none⟩, [(16, 32), (0, 16)]⟩ ∧
    Session.fresh.run [.alloc 16, .alloc 32, .free 16 32] =
      some ⟨⟨16, 16, [], none⟩, [(0, 16)]⟩ ∧
    ¬ (16 + getAlignedSize 32 ≤ (16 : Nat)) ∧
    Session.fresh.run [.alloc 8, .alloc 0, .free 0 8] =
      some ⟨⟨0, 0, [], none⟩, [(8, 0)]⟩ := by
  decide

/-- C12 (amended): on a fresh allocator, after any number `n` of calls of an admissible
sequence, every live block with a non-empty range `[offset, offset + alignedSize)` ends
at or below `peak`, so does every non-empty free entry, and `peak` is the byte count
`getPtr` materializes. -/
theorem peak_bounds_live_blocks (cs : List Call)
    (hadm : Session.fresh.admissible cs = true) (n : Nat) :
    ∃ s, Session.fresh.run (cs.take n) = some s ∧
      (∀ b ∈ s.live, 0 < getAlignedSize b.2 → b.1 + getAlignedSize b.2 ≤ s.a.peak) ∧
      (∀ e ∈ s.a.freeBlocks, 0 < e.2 → e.1 + e.2 ≤ s.a.peak) ∧
      s.a.getPtr.ptr = some s.a.peak := by
  obtain ⟨s, hrun, hi⟩ := inv_run (cs.take n) _ inv_fresh (admissible_take cs _ n hadm)
  refine ⟨s, hrun, ?_, hi.safe.free_le, ?_⟩
  · intro b hb hpos
    exact hi.safe.live_le (b.1, getAlignedSize b.2)
      (List.mem_map.2 ⟨b, hb, rfl⟩) hpos
  · unfold Allocator.getPtr
    rw [hi.ptr]

theorem peak_bounds_live_blocks_witness :
    Session.fresh.admissible [.alloc 16, .alloc 32, .free 16 32] = true ∧
    ∃ s, Session.fresh.run ([Call.alloc 16, .alloc 32, .free 16 32].take 3) = some s ∧
      (∀ b ∈ s.live, 0 < getAlignedSize b.2 → b.1 + getAlignedSize b.2 ≤ s.a.peak) ∧
      (∀ e ∈ s.a.freeBlocks, 0 < e.2 → e.1 + e.2 ≤ s.a.peak) ∧
      s.a.getPtr.ptr = some s.a.peak :=
  ⟨by decide, peak_bounds_live_blocks _ (by decide) 3⟩

theorem getAlignedSize_lt (size : Nat) : getAlignedSize size < wordSize := by
  cases size with
  | zero => exact Nat.mod_lt _ (by decide)
  | succ n => exact Nat.mod_lt _ (by decide)

theorem addFreeBlock_top (peak addr al : Nat) (h : addr + al = peak) (hlt : peak < wordSize) :
    addFreeBlock [] peak addr al = ([], addr) := by
  have hw : wrap (addr + al) = peak := by rw [h]; exact wrap_of_lt hlt
  have hle : addr ≤ peak := by omega
  simp [addFreeBlock, mergeLeft, mergeRight, beforeLower, fromLower, mapEmplace, shrinkPeak,
    beforeUpper, mapErase, hw, hle]

theorem stack_step_alloc {s s2 : Session} (hi : s.StackInv) (size : Nat)
    (h : s.step (.alloc size) = some s2) : s2.StackInv := by
  obtain ⟨⟨used, peak, fb, ptr⟩, live⟩ := s
  obtain ⟨hf, hu, hst, hp⟩ := hi
  simp only at hf hu hst hp
  subst hf
  subst hu
  simp only [Session.step, Allocator.alloc, findFreeBlock, List.find?_nil] at h
  split_ifs at h with hptr
  simp only [Option.some.injEq] at h
  subst h
  exact ⟨rfl, rfl, ⟨hp, rfl, hst⟩, Nat.mod_lt _ (by decide)⟩

theorem stack_step_free {s s2 : Session} (hi : s.StackInv) (addr size : Nat)
    (hh : s.live.head? = some (addr, size))
    (h : s.step (.free addr size) = some s2) : s2.StackInv := by
  obtain ⟨⟨used, peak, fb, ptr⟩, live⟩ := s
  obtain ⟨hf, hu, hst, hp⟩ := hi
  simp only at hf hu hst hp hh
  subst hf
  subst hu
  cases live with
  | nil => simp at hh
  | cons b rest =>
    simp only [List.head?_cons, Option.some.injEq] at hh
    subst hh
    obtain ⟨ha, hpk, hrest⟩ := hst
    simp only at ha hpk hrest
    have hal := getAlignedSize_lt size
    have herase : eraseBlock ((addr, size) :: rest) (addr, size) = rest := by
      simp [eraseBlock]
    simp only [Session.step, Allocator.free, herase] at h
    generalize getAlignedSize size = al at *
    split_ifs at h with hptr hu
    have hsum : addr + al = used := by
      rw [hpk] at hu ⊢
      unfold wrap wordSize at hu ⊢
      unfold wordSize at ha hal
      omega
    rw [addFreeBlock_top used addr al hsum hp] at h
    simp only [Option.some.injEq] at h
    subst h
    exact ⟨rfl, by show used - al = addr; omega, hrest, ha⟩

theorem stack_run (cs : List Call) :
    ∀ s : Session, s.StackInv → s.lifo cs = true →
      ∀ s2, s.run cs = some s2 → s2.StackInv := by
  induction cs with
  | nil =>
    intro s hi _ s2 h
    simp only [Session.run, Option.some.injEq] at h
    exact h ▸ hi
  | cons c cs ih =>
    intro s hi hfl s2 h
    simp only [Session.lifo, Bool.and_eq_true] at hfl
    simp only [Session.run] at h
    cases hs : s.step c with
    | none => rw [hs] at h; cases h
    | some s1 =>
      rw [hs] at h
      have h2 := hfl.2
      rw [hs] at h2
      have hi1 : s1.StackInv := by
        cases c with
        | alloc size => exact stack_step_alloc hi size hs
        | free addr size =>
          exact stack_step_free hi addr size (by simpa using hfl.1) hs
      exact ih s1 hi1 h2 s2 h

/-- C13: take a sequence of calls on a fresh allocator in stack order (each `free`
releases the most recently allocated block that is still live, with its size). If no
`alloc` overflows a `size_t` the allocator accepts every call; and whenever it has
accepted them all and every block has been freed, `peak` is `0`, `free_blocks` is empty
and `used` is `0`. Scenario S7: `alloc(16)=0, alloc(32)=16, free(16,32)` gives peak 16,
then `free(0,16)` gives peak 0 and no free blocks. -/
theorem lifo_returns_to_empty (cs : List Call) (hl : Session.fresh.lifo cs = true) :
    (Session.fresh.admissible cs = true → ∃ s, Session.fresh.run cs = some s) ∧
    (∀ s, Session.fresh.run cs = some s → s.live = [] →
      s.a.peak = 0 ∧ s.a.freeBlocks = [] ∧ s.a.used = 0) ∧
    Session.fresh.run [.alloc 16, .alloc 32, .free 16 32] =
      some ⟨⟨16, 16, [], none⟩, [(0, 16)]⟩ ∧
    Session.fresh.run [.alloc 16, .alloc 32, .free 16 32, .free 0 16] =
      some ⟨⟨0, 0, [], none⟩, []⟩ := by
  refine ⟨?_, ?_, by decide, by decide⟩
  · intro hadm
    obtain ⟨s, hrun, -⟩ := inv_run cs _ inv_fresh hadm
    exact ⟨s, hrun⟩
  · intro s hrun hlive
    have hfresh : Session.fresh.StackInv := ⟨rfl, rfl, rfl, by decide⟩
    have hi := stack_run cs _ hfresh hl s hrun
    have hst := hi.stack
    rw [hlive] at hst
    have hp : s.a.peak = 0 := hst
    exact ⟨hp, hi.free, by rw [hi.used, hp]⟩

theorem lifo_returns_to_empty_witness :
    Session.fresh.lifo [.alloc 16, .alloc 32, .free 16 32, .free 0 16] = true ∧
    (Session.fresh.admissible [.alloc 16, .alloc 32, .free 16 32, .free 0 16] = true →
      ∃ s, Session.fresh.run [.alloc 16, .alloc 32, .free 16 32, .free 0 16] = some s) ∧
    (∀ s, Session.fresh.run [.alloc 16, .alloc 32, .free 16 32, .free 0 16] = some s →
      s.live = [] → s.a.peak = 0 ∧ s.a.freeBlocks = [] ∧ s.a.used = 0) ∧
    Session.fresh.run [.alloc 16, .alloc 32, .free 16 32] =
      some ⟨⟨16, 16, [], none⟩, [(0, 16)]⟩ ∧
    Session.fresh.run [.alloc 16, .alloc 32, .free 16 32, .free 0 16] =
      some ⟨⟨0, 0, [], none⟩, []⟩ :=
  ⟨by decide, lifo_returns_to_empty _ (by decide)⟩

/-! ## The inverse-permute test of `optimize` -/

theorem getD_set_int (l : List Int) (k j : Nat) (x : Int) (hk : k < l.length) :
    (l.set k x).getD j 0 = if k = j then x else l.getD j 0 := by
  simp only [List.getD_eq_getElem?_getD, List.getElem?_set]
  split_ifs with h <;> simp

theorem inverseInv_nil (r : Nat) : InverseInv r [] (List.replicate r (-1)) where
  len := by simp
  range := fun v hv => by simp at hv
  nodup := List.nodup_nil
  hit := fun i hi => by simp at hi
  miss := fun k hk _ => by
    simp [List.getD_eq_getElem?_getD, List.getElem?_replicate, hk]

theorem inverseInv_snoc {r : Nat} {pre inv : List Int} {v : Int}
    (hi : InverseInv r pre inv) (h0 : 0 ≤ v) (h1 : v < r) (hv : v ∉ pre) :
    InverseInv r (pre ++ [v]) (inv.set v.toNat (pre.length : Int)) where
  len := by simpa using hi.len
  range := by
    intro x hx
    rcases List.mem_append.1 hx with h | h
    · exact hi.range x h
    · rw [List.mem_singleton] at h; subst h; exact ⟨h0, h1⟩
  nodup := by
    refine List.Nodup.append hi.nodup (List.nodup_singleton v) ?_
    intro x hx hx2
    rw [List.mem_singleton] at hx2
    subst hx2
    exact hv hx
  hit := by
    intro i hlt
    have hk : v.toNat < inv.length := by rw [hi.len]; omega
    rw [getD_set_int _ _ _ _ hk]
    simp only [List.length_append, List.length_singleton] at hlt
    by_cases hip : i < pre.length
    · have hmem : pre.getD i 0 ∈ pre := by
        rw [List.getD_eq_getElem _ _ hip]; exact List.getElem_mem _
      have e1 : (pre ++ [v]).getD i 0 = pre.getD i 0 := List.getD_append _ _ _ _ hip
      rw [e1]
      have hne : v.toNat ≠ (pre.getD i 0).toNat := by
        intro he
        have := (hi.range _ hmem).1
        have : v = pre.getD i 0 := by omega
        exact hv (this ▸ hmem)
      rw [if_neg hne]
      exact hi.hit i hip
    · have hieq : i = pre.length := by omega
      subst hieq
      have e1 : (pre ++ [v]).getD pre.length 0 = v := by
        rw [List.getD_append_right _ _ _ _ (Nat.le_refl _), Nat.sub_self]
        rfl
      rw [e1, if_pos rfl]
  miss := by
    intro k hk hnot
    have hkl : v.toNat < inv.length := by rw [hi.len]; omega
    rw [getD_set_int _ _ _ _ hkl]
    have hne : v.toNat ≠ k := by
      intro he
      apply hnot
      rw [List.mem_append, List.mem_singleton]
      right
      omega
    rw [if_neg hne]
    exact hi.miss k hk (fun h => hnot (List.mem_append_left _ h))

theorem inverseLoop_spec (r : Nat) (rest : List Int) :
    ∀ pre inv : List Int, InverseInv r pre inv →
      (∀ inv2, inverseLoop r rest pre.length inv = some inv2 →
        InverseInv r (pre ++ rest) inv2) ∧
      (inverseLoop r rest pre.length inv = none →
        ¬ ((∀ v ∈ rest, 0 ≤ v ∧ v < r) ∧ (pre ++ rest).Nodup)) := by
  induction rest with
  | nil =>
    intro pre inv hi
    simp only [inverseLoop, Option.some.injEq, List.append_nil]
    exact ⟨fun inv2 h => h ▸ hi, fun h => by cases h⟩
  | cons v rest ih =>
    intro pre inv hi
    unfold inverseLoop
    by_cases hc : v < 0 ∨ (r : Int) ≤ v ∨ inv.getD v.toNat 0 ≠ -1
    · rw [if_pos hc]
      refine ⟨fun inv2 h => Option.noConfusion h, fun _ hgood => ?_⟩
      obtain ⟨hrange, hnd⟩ := hgood
      have hv := hrange v (List.mem_cons_self _ _)
      rcases hc with hc | hc | hc
      · omega
      · omega
      · apply hc
        apply hi.miss v.toNat (by omega)
        have hnot : v ∉ pre := by
          intro hm
          have := List.nodup_append.1 hnd
          exact this.2.2 hm (List.mem_cons_self _ _)
        have : ((v.toNat : Nat) : Int) = v := by omega
        rw [this]
        exact hnot
    · rw [if_neg hc]
      push_neg at hc
      obtain ⟨h0, h1, h2⟩ := hc
      have hnot : v ∉ pre := by
        intro hm
        obtain ⟨i, hlt, hget⟩ := List.getElem_of_mem hm
        have := hi.hit i hlt
        rw [List.getD_eq_getElem _ _ hlt, hget, h2] at this
        omega
      have hi2 := inverseInv_snoc hi h0 h1 hnot
      have hlen : (pre ++ [v]).length = pre.length + 1 := by simp
      obtain ⟨ih1, ih2⟩ := ih (pre ++ [v]) _ hi2
      rw [hlen] at ih1 ih2
      have happ : pre ++ [v] ++ rest = pre ++ v :: rest := by simp
      rw [happ] at ih1 ih2
      refine ⟨ih1, fun hn hgood => ih2 hn ⟨fun x hx => hgood.1 x (List.mem_cons_of_mem _ hx), hgood.2⟩⟩

theorem mem_of_isPermutationOf {p : List Int} {r k : Nat} (hp : IsPermutationOf p r)
    (hk : k < r) : (k : Int) ∈ p := by
  unfold IsPermutationOf at hp
  apply hp.symm.subset
  simp only [List.mem_map, List.mem_range]
  exact ⟨k, hk, rfl⟩

theorem isInversePermute_iff (p1 p2 : List Int) :
    isInversePermute p1 p2 = true ↔
      p2.length = p1.length ∧ IsPermutationOf p1 p1.length ∧
        ∀ i, i < p1.length → p2.getD (p1.getD i 0).toNat 0 = (i : Int) := by
  have hspec := inverseLoop_spec p1.length p1 [] _ (inverseInv_nil p1.length)
  simp only [List.length_nil, List.nil_append] at hspec
  rw [isPermutationOf_iff]
  unfold isInversePermute
  constructor
  · intro h
    split_ifs at h with hl
    cases hloop : inverseLoop p1.length p1 0 (List.replicate p1.length (-1)) with
    | none => rw [hloop] at h; cases h
    | some inv =>
      rw [hloop] at h
      have he : inv = p2 := by simpa using h
      subst he
      have hi := hspec.1 inv hloop
      exact ⟨by omega, ⟨rfl, hi.range, hi.nodup⟩, hi.hit⟩
  · rintro ⟨hl, ⟨-, hrange, hnd⟩, hhit⟩
    rw [if_neg (by omega)]
    cases hloop : inverseLoop p1.length p1 0 (List.replicate p1.length (-1)) with
    | none => exact absurd ⟨hrange, hnd⟩ (hspec.2 hloop)
    | some inv =>
      have hi := hspec.1 inv hloop
      have hperm : IsPermutationOf p1 p1.length :=
        (isPermutationOf_iff _ _).2 ⟨rfl, hrange, hnd⟩
      have he : inv = p2 := by
        apply List.ext_getElem (by rw [hi.len, hl])
        intro k hk1 hk2
        have hk : k < p1.length := by rw [← hi.len]; exact hk1
        obtain ⟨i, hlt, hget⟩ := List.getElem_of_mem (mem_of_isPermutationOf hperm hk)
        have e1 := hi.hit i hlt
        have e2 := hhit i hlt
        rw [List.getD_eq_getElem _ _ hlt, hget] at e1 e2
        simp only [Int.toNat_ofNat] at e1 e2
        rw [List.getD_eq_getElem _ _ hk1] at e1
        rw [List.getD_eq_getElem _ _ hk2] at e2
        rw [e1, e2]
      subst he
      simp

theorem transpose_inferShape_eq (p : List Int) (input : Shape)
    (hp : IsPermutationOf p input.length) :
    TransposeObj.inferShape p [input] =
      some [(List.range input.length).map
        (fun i => input.getD (p.getD i 0).toNat 0)] := by
  have hsome := (transpose_inferShape_isSome p input).2 hp
  have hl := ((isPermutationOf_iff p input.length).1 hp).1
  simp only [TransposeObj.inferShape] at hsome ⊢
  rw [if_neg (not_not.2 hl)] at hsome ⊢
  cases hseen : seenLoop input.length p (List.replicate input.length 0) with
  | none => rw [hseen] at hsome; simp at hsome
  | some v => rfl

theorem inverse_key {p1 p2 : List Int}
    (hperm : IsPermutationOf p1 p1.length)
    (hhit : ∀ i, i < p1.length → p2.getD (p1.getD i 0).toNat 0 = (i : Int)) :
    ∀ k, k < p1.length →
      (0 ≤ p2.getD k 0 ∧ p2.getD k 0 < p1.length) ∧
        p1.getD (p2.getD k 0).toNat 0 = (k : Int) := by
  intro k hk
  obtain ⟨i, hlt, hget⟩ := List.getElem_of_mem (mem_of_isPermutationOf hperm hk)
  have e := hhit i hlt
  rw [List.getD_eq_getElem _ _ hlt, hget] at e
  simp only [Int.toNat_ofNat] at e
  rw [e]
  refine ⟨by omega, ?_⟩
  simp only [Int.toNat_ofNat]
  rw [List.getD_eq_getElem _ _ hlt, hget]

theorem inverse_isPermutationOf {p1 p2 : List Int} (hl : p2.length = p1.length)
    (hperm : IsPermutationOf p1 p1.length)
    (hhit : ∀ i, i < p1.length → p2.getD (p1.getD i 0).toNat 0 = (i : Int)) :
    IsPermutationOf p2 p1.length := by
  have key := inverse_key hperm hhit
  rw [isPermutationOf_iff]
  refine ⟨hl, ?_, ?_⟩
  · intro x hx
    obtain ⟨k, hk, hget⟩ := List.getElem_of_mem hx
    have := (key k (by omega)).1
    rw [List.getD_eq_getElem _ _ hk, hget] at this
    exact this
  · have hmap : p2.map (fun x => p1.getD x.toNat 0) = (List.range p1.length).map Int.ofNat := by
      apply List.ext_getElem (by simp [hl])
      intro k hk1 hk2
      have hk : k < p1.length := by simpa [hl] using hk1
      have := (key k hk).2
      rw [List.getD_eq_getElem _ _ (by omega : k < p2.length)] at this
      simp only [List.getElem_map, List.getElem_range, Int.ofNat_eq_coe]
      exact this
    have hnd : ((List.range p1.length).map Int.ofNat).Nodup :=
      (List.nodup_range _).map (fun a b h => Int.ofNat.inj h)
    rw [← hmap] at hnd
    exact List.Nodup.of_map _ hnd

/-- C16: for permutes `(p1, p2)` accepted by `isInversePermute` (`inv[p1[i]] = i` for
all `i` and `inv == p2`) and an input shape of the same rank `r`: `p1` and `p2` are
both permutations of `0..r-1`, `p2[p1[i]] = i`, the test also accepts `(p2, p1)`, and
`Transpose(p2).inferShape` applied to the result of `Transpose(p1).inferShape` returns
the input shape. -/
theorem inverse_permute_involution (p1 p2 : List Int) (input : Shape)
    (h : isInversePermute p1 p2 = true) (hr : input.length = p1.length) :
    IsPermutationOf p1 p1.length ∧ IsPermutationOf p2 p1.length ∧
    (∀ i, i < p1.length → p2.getD (p1.getD i 0).toNat 0 = (i : Int)) ∧
    isInversePermute p2 p1 = true ∧
    ∃ mid, TransposeObj.inferShape p1 [input] = some [mid] ∧
      TransposeObj.inferShape p2 [mid] = some [input] := by
  obtain ⟨hl, hperm, hhit⟩ := (isInversePermute_iff p1 p2).1 h
  have key := inverse_key hperm hhit
  have hperm2 := inverse_isPermutationOf hl hperm hhit
  refine ⟨hperm, hperm2, hhit, ?_, ?_⟩
  · rw [isInversePermute_iff]
    refine ⟨hl.symm, by rw [hl]; exact hperm2, ?_⟩
    intro k hk
    exact (key k (by omega)).2
  · refine ⟨_, transpose_inferShape_eq p1 input (by rw [hr]; exact hperm), ?_⟩
    have hmid : ((List.range input.length).map
        (fun i => input.getD (p1.getD i 0).toNat 0)).length = p1.length := by simp [hr]
    rw [transpose_inferShape_eq p2 _ (by rw [hmid]; exact hperm2), hmid]
    congr 2
    apply List.ext_getElem (by simp [hr])
    intro j hj1 hj2
    have hj : j < p1.length := by simpa using hj1
    obtain ⟨⟨h0, h1⟩, h2⟩ := key j hj
    simp only [List.getElem_map, List.getElem_range]
    have hlt : (p2.getD j 0).toNat < input.length := by omega
    rw [List.getD_eq_getElem _ _ (by simpa using hlt)]
    simp only [List.getElem_map, List.getElem_range, h2, Int.toNat_ofNat]
    exact List.getD_eq_getElem _ _ hj2

theorem inverse_permute_involution_witness :
    isInversePermute [1, 2, 0] [2, 0, 1] = true ∧
    ([5, 6, 7] : Shape).length = ([1, 2, 0] : List Int).length ∧
    IsPermutationOf [1, 2, 0] ([1, 2, 0] : List Int).length ∧
    IsPermutationOf [2, 0, 1] ([1, 2, 0] : List Int).length ∧
    (∀ i, i < ([1, 2, 0] : List Int).length →
      ([2, 0, 1] : List Int).getD (([1, 2, 0] : List Int).getD i 0).toNat 0 = (i : Int)) ∧
    isInversePermute [2, 0, 1] [1, 2, 0] = true ∧
    ∃ mid, TransposeObj.inferShape [1, 2, 0] [[5, 6, 7]] = some [mid] ∧
      TransposeObj.inferShape [2, 0, 1] [mid] = some [[5, 6, 7]] :=
  ⟨by decide, by decide, inverse_permute_involution [1, 2, 0] [2, 0, 1] [5, 6, 7]
    (by decide) (by decide)⟩

/-! ## Passes over the graph -/

set_option maxRecDepth 100000 in
/-- C17. `shape_infer` completes on the chain built consumer first and leaves the
`sorted` flag false and the op list `[op11, op10]` out of topological order: the
following `topo_sort` reorders it to `[op10, op11]`. -/
theorem shape_infer_leaves_unsorted :
    consumerFirst.checkValid = true ∧
    consumerFirst.shape_infer.map
        (fun g => (g.sorted, g.ops, g.topo_sort.1, g.topo_sort.2.ops)) =
      some (false, [11, 10], some true, [10, 11]) ∧
    (consumerFirst.tensor 1).source = some 10 ∧ (consumerFirst.op 11).inputs = [1] := by
  decide

set_option maxRecDepth 100000 in
/-- C19. On the chain `t0 -> op10 -> t1 -> op11 -> t2` (24 bytes each) `dataMalloc`
returns with `t1` bound to offset 24 while `getPtr` materialized an arena of 24 bytes:
the range of `t1` ends at 48, past the arena. The allocator calls are listed in
order. -/
theorem tensor_outside_arena :
    producerFirst.checkValid = true ∧
    producerFirst.dataMalloc.toOption.map
        (fun r => (r.2.a.ptr, r.2.offsets 1, r.1.bytesOf 1, r.2.events.reverse)) =
      some (some 24, some 24, 24,
        [.alloc 0 0, .alloc 1 24, .free 0 0, .alloc 2 0, .free 1 24]) := by
  decide

set_option maxRecDepth 100000 in
/-- C10. On `C = MatMul(Transpose(x), x)` with `x = Transpose(w)`, `w` of shape `[2,3]`,
`shape_infer` succeeds and gives the graph output `C` the shape `[2,2]`; `optimize`
returns the single operator `MatMul(w, w)` with both transpose flags set, on which
`shape_infer` fails. -/
theorem optimize_breaks_shape_infer :
    aliasGraph.checkValid = true ∧ aliasGraph.topo_sort.1 = some true ∧
    (aliasGraph.tensor 3).targets = [] ∧
    aliasGraph.shape_infer.map (fun g => (g.tensor 3).shape) = some [2, 2] ∧
    (aliasGraph.optimize 4).toOption.map
        (fun g => (g.ops, g.tensors, (g.op 12).inputs, (g.op 12).transA, (g.op 12).transB,
          g.shape_infer.isSome)) =
      some ([12], [0, 3], [0, 0], true, true, false) := by
  decide

/-! ## Rule 1 of `optimize` -/

theorem replaceInput_idem (o : OperatorObj) (t1 t2 : TensorId) :
    (o.replaceInput t1 t2).replaceInput t1 t2 = o.replaceInput t1 t2 := by
  simp only [OperatorObj.replaceInput, List.map_map]
  congr 1
  apply List.map_congr_left
  intro t _
  simp only [Function.comp]
  split_ifs <;> rfl

theorem rewire_fold (out2 inp : TensorId) (l : List OpId) :
    ∀ g : GraphObj,
      (l.foldl (fun h consumer => h.setOp consumer ((h.op consumer).replaceInput out2 inp))
          g).ops = g.ops ∧
      ∀ c, (l.foldl (fun h consumer => h.setOp consumer ((h.op consumer).replaceInput out2 inp))
          g).op c = if c ∈ l then (g.op c).replaceInput out2 inp else g.op c := by
  induction l with
  | nil => intro g; simp
  | cons c0 l ih =>
    intro g
    simp only [List.foldl_cons]
    obtain ⟨h1, h2⟩ := ih (g.setOp c0 ((g.op c0).replaceInput out2 inp))
    refine ⟨by rw [h1]; rfl, fun c => ?_⟩
    rw [h2 c]
    by_cases hc : c = c0
    · subst hc
      simp only [GraphObj.setOp, if_true, List.mem_cons, true_or, replaceInput_idem]
      split_ifs <;> rfl
    · simp [GraphObj.setOp, hc]

theorem rule1Match_of_pair {g : GraphObj} {T1 T2 : OpId} (h : g.Rule1Pair T1 T2) :
    g.rule1Match T1 = some (T2, (g.op T1).getInput 0, (g.op T2).getOutput) := by
  obtain ⟨h1, h2, h3, h4, h5⟩ := h
  simp [GraphObj.rule1Match, h1, h2, h3, h4, h5]

theorem pair_of_rule1Match {g : GraphObj} {T1 : OpId} {r : OpId × TensorId × TensorId}
    (h : g.rule1Match T1 = some r) : g.Rule1Pair T1 r.1 := by
  dsimp only [GraphObj.rule1Match] at h
  split_ifs at h with h1 h2 h3 h4 h5
  simp only [Option.some.injEq] at h
  subst h
  simp only [Bool.not_eq_true, Bool.not_eq_false_eq_eq_true] at h5
  simp only [ne_eq, not_not] at h1 h2 h3 h4
  refine ⟨by simpa using h1, ?_, by simpa using h3, h4, by simpa using h5⟩
  generalize (g.tensor (g.op T1).getOutput).targets = l at h2 ⊢
  match l, h2 with
  | [x], _ => rfl

theorem rule1_skip (g : GraphObj) (pre rest : List OpId)
    (hpre : ∀ o ∈ pre, g.rule1Match o = none) : g.rule1 (pre ++ rest) = g.rule1 rest := by
  induction pre with
  | nil => rfl
  | cons o pre ih =>
    simp only [List.cons_append, GraphObj.rule1, hpre o (List.mem_cons_self _ _)]
    exact ih (fun x hx => hpre x (List.mem_cons_of_mem _ hx))

theorem rule1Match_none_of_no_pair {g : GraphObj} {o : OpId}
    (h : ∀ o2, ¬ g.Rule1Pair o o2) : g.rule1Match o = none := by
  cases hm : g.rule1Match o with
  | none => rfl
  | some r => exact absurd (pair_of_rule1Match hm) (h r.1)

theorem inversePair_iff (g : GraphObj) (T1 T2 : OpId) :
    g.InversePair T1 T2 ↔ g.Rule1Pair T1 T2 := by
  unfold GraphObj.InversePair GraphObj.Rule1Pair MutualInverses
  rw [isInversePermute_iff]

set_option maxRecDepth 100000 in
/-- C20, counterexample, the caller keeping the handles of the operators. In the sorted
valid chain `x -> op10 -> a -> op11 -> b -> op12 -> c` of three transposes with permute
`[1,0]`, the pair `op11`, `op12` has the pattern of Rule 1, yet `optimize` returns with
`op12` still in the op list. In the sorted valid graph
`x -> op10 -> u -> op11 -> v -> op12 -> w`, `c = MatMul(w, b)`, the pair `op11`, `op12`
has the pattern and the `MatMul` `op13` is the consumer of the output `w` of `op12` in
slot `0`; the input of `op11` is `u = t1`, yet after `optimize` slot `0` of `op13` holds
`x = t0`: rule 2 moved it past the swap `op10` in a later iteration. In the sorted valid
graph `unlistedConsumer` the pair `op10`, `op11` has the pattern and `op12` reads the
output `b = t2` of `op11` without being in its target list; the input of `op10` is
`x = t0`, yet after `optimize` the pair is gone and `op12` still reads `b`. -/
theorem rule1_keeps_later_pair :
    tripleChain.checkValid = true ∧ tripleChain.sorted = true ∧
    tripleChain.Rule1Pair 11 12 ∧
    (tripleChain.optimize 3).toOption.map (fun g => g.ops) = some [12] ∧
    tripleChain.InversePair 11 12 ∧
    upstreamSwap.checkValid = true ∧ upstreamSwap.sorted = true ∧
    upstreamSwap.InversePair 11 12 ∧
    (upstreamSwap.tensor (upstreamSwap.op 12).getOutput).targets = [13] ∧
    (upstreamSwap.op 13).inputs = [(upstreamSwap.op 12).getOutput, 4] ∧
    (upstreamSwap.op 11).getInput 0 = 1 ∧
    (upstreamSwap.optimize 3).toOption.map (fun h => (h.ops, (h.op 13).inputs)) =
      some ([13], [0, 4]) ∧
    unlistedConsumer.checkValid = true ∧ unlistedConsumer.sorted = true ∧
    unlistedConsumer.TopoOrdered unlistedConsumer.ops ∧
    unlistedConsumer.InversePair 10 11 ∧
    (unlistedConsumer.op 12).inputs = [(unlistedConsumer.op 11).getOutput] ∧
    (unlistedConsumer.op 10).getInput 0 = 0 ∧
    (unlistedConsumer.optimize 2).toOption.map (fun h => (h.ops, (h.op 12).inputs)) =
      some ([12], [2]) := by
  have hord : unlistedConsumer.TopoOrdered unlistedConsumer.ops := by
    have hrank : ∀ o ∈ unlistedConsumer.ops, ∀ t ∈ (unlistedConsumer.op o).inputs, ∀ p,
        (unlistedConsumer.tensor t).source = some p →
          p ∈ unlistedConsumer.ops ∧
            unlistedConsumer.ops.indexOf p < unlistedConsumer.ops.indexOf o := by
      decide
    intro l1 o l2 hl t ht p hp
    have hnd : unlistedConsumer.ops.Nodup := by decide
    have ho : o ∈ unlistedConsumer.ops := by rw [hl]; simp
    obtain ⟨-, hlt⟩ := hrank o ho t ht p hp
    have ho1 : o ∉ l1 := by
      rw [hl] at hnd
      intro hmem
      exact (List.nodup_append.1 hnd).2.2 hmem (List.mem_cons_self _ _)
    rw [hl, List.indexOf_append_of_not_mem ho1, List.indexOf_cons_self, Nat.add_zero] at hlt
    by_contra hp1
    rw [List.indexOf_append_of_not_mem hp1] at hlt
    omega
  exact ⟨by decide, by decide, by decide, by decide,
    (inversePair_iff tripleChain 11 12).2 (by decide), by decide, by decide,
    (inversePair_iff upstreamSwap 11 12).2 (by decide), by decide, by decide, by decide,
    by decide, by decide, by decide, hord,
    (inversePair_iff unlistedConsumer 10 11).2 (by decide), by decide, by decide,
    by decide⟩

/-! ## The memory planner `dataMalloc` -/

theorem shrinkPeak_le (fuel : Nat) :
    ∀ (m : FreeMap) (peak : Nat), (shrinkPeak fuel m peak).2 ≤ peak := by
  induction fuel with
  | zero => intro m peak; exact Nat.le_refl _
  | succ n ih =>
    intro m peak
    unfold shrinkPeak
    split_ifs with hemp
    · exact Nat.le_refl _
    · split
      · exact Nat.le_refl _
      · rename_i blockAddr blockSize hb
        have hle := (mem_of_beforeUpper_last hb).2
        split_ifs with hne
        · exact Nat.le_refl _
        · exact Nat.le_trans (ih _ _) hle

theorem free_peak_le {a a2 : Allocator} {addr size : Nat}
    (h : a.free addr size = some a2) : a2.peak ≤ a.peak := by
  simp only [Allocator.free] at h
  split_ifs at h with h1 h2
  simp only [Option.some.injEq] at h
  subst h
  exact shrinkPeak_le _ _ _

theorem alloc_peak_le {a a2 : Allocator} {size off : Nat}
    (h : a.alloc size = some (off, a2)) : a2.peak ≤ a.peak + getAlignedSize size := by
  obtain ⟨used, peak, fb, ptr⟩ := a
  simp only [Allocator.alloc] at h
  generalize getAlignedSize size = al at *
  split_ifs at h with h1
  split at h
  · split_ifs at h with h2 h3 <;>
    · simp only [Option.some.injEq, Prod.mk.injEq] at h
      obtain ⟨-, rfl⟩ := h
      exact Nat.le_add_right _ _
  · simp only [Option.some.injEq, Prod.mk.injEq] at h
    obtain ⟨-, rfl⟩ := h
    exact Nat.mod_le _ _

theorem getAlignedSize_bounds (b : Nat) (h : b + 8 ≤ wordSize) :
    b ≤ getAlignedSize b ∧ getAlignedSize b ≤ b + 7 := by
  cases b with
  | zero => exact ⟨Nat.zero_le _, Nat.le_trans (Nat.le_of_eq (by decide)) (Nat.zero_le _)⟩
  | succ n =>
    unfold wordSize at h
    have h1 : wrap (n / alignment + 1) = n / alignment + 1 := by
      apply wrap_of_lt
      unfold wordSize alignment
      omega
    have h2 : wrap ((n / alignment + 1) * alignment) = (n / alignment + 1) * alignment := by
      apply wrap_of_lt
      unfold wordSize alignment
      omega
    simp only [getAlignedSize, h1, h2]
    unfold alignment
    omega

theorem inv_of_perm {a : Allocator} {l1 l2 : List (Nat × Nat)} (hi : Session.Inv ⟨a, l1⟩)
    (hp : l1.Perm l2) : Session.Inv ⟨a, l2⟩ := by
  obtain ⟨hptr, hused, hsafe⟩ := hi
  have hpr : (liveRanges l1).Perm (liveRanges l2) := by
    unfold liveRanges
    exact hp.map _
  refine ⟨hptr, ?_, ?_⟩
  · rw [hused]
    exact (hp.map _).sum_eq
  · exact
      { peak_lt := hsafe.peak_lt
        free_lt := hsafe.free_lt
        free_le := hsafe.free_le
        free_disj := hsafe.free_disj
        free_live := fun e he b hb => hsafe.free_live e he b (hpr.symm.subset hb)
        live_lt := fun b hb => hsafe.live_lt b (hpr.symm.subset hb)
        live_le := fun b hb => hsafe.live_le b (hpr.symm.subset hb)
        live_disj := (hpr.pairwise_iff (fun {x y} h => disj_symm h)).1 hsafe.live_disj }

theorem sum_le_of_nodup_subset {l m : List TensorId} (f : TensorId → Nat) (hn : l.Nodup)
    (hs : ∀ t ∈ l, t ∈ m) : (l.map f).sum ≤ (m.map f).sum := by
  obtain ⟨l2, hp, hsub⟩ := List.subperm_of_subset hn hs
  rw [← (hp.map f).sum_eq]
  exact (hsub.map f).sum_le_sum (fun _ _ => Nat.zero_le _)

theorem perm_erase_map {l : List TensorId} (f : TensorId → Nat × Nat) {t : TensorId}
    (hn : l.Nodup) (ht : t ∈ l) :
    (eraseBlock (l.map f) (f t)).Perm ((l.filter (fun x => decide (x ≠ t))).map f) := by
  induction l with
  | nil => cases ht
  | cons x l ih =>
    have hx : x ∉ l := (List.nodup_cons.1 hn).1
    have hn2 : l.Nodup := (List.nodup_cons.1 hn).2
    by_cases hxt : x = t
    · subst hxt
      have hfil : l.filter (fun y => decide (y ≠ x)) = l := by
        apply List.filter_eq_self.2
        intro y hy
        simp only [ne_eq, decide_not, Bool.not_eq_true', decide_eq_false_iff_not]
        intro e
        exact hx (e ▸ hy)
      simp only [List.map_cons, eraseBlock, if_true, List.filter_cons, ne_eq, not_true_eq_false,
        decide_False, Bool.false_eq_true, if_false]
      have := hfil
      simp only [ne_eq] at this
      rw [this]
    · have htl : t ∈ l := by
        rcases List.mem_cons.1 ht with h | h
        · exact absurd h.symm hxt
        · exact h
      have hkeep : (List.filter (fun y => decide (y ≠ t)) (x :: l)) =
          x :: List.filter (fun y => decide (y ≠ t)) l := by
        rw [List.filter_cons, if_pos (by simpa using hxt)]
      rw [hkeep]
      simp only [List.map_cons, eraseBlock]
      split_ifs with hf
      · have h1 := perm_cons_eraseBlock (List.mem_map.2 ⟨t, htl, rfl⟩ : f t ∈ l.map f)
        rw [hf]
        exact h1.trans ((ih hn2 htl).cons _)
      · exact (ih hn2 htl).cons _

theorem planInv_mono {g : GraphObj} {s : PlanState} {c : PlanAction} {F : List PlanAction}
    (hi : g.PlanInv s (c :: F)) : g.PlanInv s F :=
  { hi with
    dead := fun t ht hm => hi.dead t ht (List.mem_cons_of_mem _ hm)
    count := fun t n hn => Nat.le_trans (List.count_le_count_cons _ _ _) (hi.count t n hn) }

theorem planInv_dec {g : GraphObj} {s : PlanState} {F : List PlanAction} {t : TensorId}
    {n : Nat} (hi : g.PlanInv s (PlanAction.release t :: F)) (hr : s.remainingUses t = some n) :
    F.count (PlanAction.release t) ≤ (if 0 < n then n - 1 else n) ∧
    g.PlanInv
      { s with remainingUses := fun x =>
          if x = t then some (if 0 < n then n - 1 else n) else s.remainingUses x } F := by
  have hc := hi.count t n hr
  rw [List.count_cons_self] at hc
  have hn : F.count (PlanAction.release t) ≤ (if 0 < n then n - 1 else n) := by
    split_ifs <;> omega
  refine ⟨hn, ?_⟩
  exact
    { planInv_mono hi with
      count := by
        intro x m hx
        simp only at hx
        by_cases hxt : x = t
        · rw [if_pos hxt] at hx
          subst hxt
          simp only [Option.some.injEq] at hx
          rw [← hx]
          exact hn
        · rw [if_neg hxt] at hx
          exact (planInv_mono hi).count x m hx }

theorem aligned_total_lt {g : GraphObj}
    (hsize : (g.tensors.map (fun t => (g.tensor t).getBytes + 8)).sum ≤ wordSize)
    {t : TensorId} (ht : t ∈ g.tensors) :
    (g.tensors.map (fun x => getAlignedSize (g.bytesOf x))).sum < wordSize := by
  have hb : ∀ x ∈ g.tensors, (g.tensor x).getBytes + 8 ≤ wordSize := by
    intro x hx
    exact Nat.le_trans
      (List.single_le_sum (fun _ _ => Nat.zero_le _) _ (List.mem_map.2 ⟨x, hx, rfl⟩)) hsize
  have key : ∀ l : List TensorId, (∀ x ∈ l, x ∈ g.tensors) →
      (l.map (fun x => getAlignedSize (g.bytesOf x))).sum + l.length ≤
        (l.map (fun t => (g.tensor t).getBytes + 8)).sum := by
    intro l
    induction l with
    | nil => intro _; simp
    | cons x l ih =>
      intro hl
      have hx := hl x (List.mem_cons_self _ _)
      have h1 := (getAlignedSize_bounds _ (hb x hx)).2
      have h2 := ih (fun y hy => hl y (List.mem_cons_of_mem _ hy))
      have h3 : g.bytesOf x = (g.tensor x).getBytes := by
        unfold GraphObj.bytesOf
        rw [if_pos hx]
      simp only [List.map_cons, List.sum_cons, List.length_cons]
      rw [h3]
      omega
  have h1 := key g.tensors (fun _ h => h)
  have h2 : 0 < g.tensors.length := List.length_pos_of_mem ht
  omega

theorem planInv_ensure {g : GraphObj} {s : PlanState} {F : List PlanAction} {t : TensorId}
    (hsize : (g.tensors.map (fun t => (g.tensor t).getBytes + 8)).sum ≤ wordSize)
    (hi : g.PlanInv s (PlanAction.ensure t :: F)) (ht : t ∈ g.tensors) :
    ∃ s2, g.ensureAlloc s t = some s2 ∧ g.PlanInv s2 F := by
  unfold GraphObj.ensureAlloc
  cases hoff : s.offsets t with
  | some off => exact ⟨s, rfl, planInv_mono hi⟩
  | none =>
    have hnot : ¬ (t ∈ liveOf s.events ∨ t ∈ freedOf s.events) := by
      intro h
      have := (hi.alloc_iff t).2 h
      rw [hoff] at this
      cases this
    have htl : t ∉ liveOf s.events := fun h => hnot (Or.inl h)
    have htf : t ∉ freedOf s.events := fun h => hnot (Or.inr h)
    have hnd2 : (t :: (liveOf s.events ++ freedOf s.events)).Nodup := by
      refine List.nodup_cons.2 ⟨fun h => hnot (List.mem_append.1 h), ?_⟩
      exact List.nodup_append.2 ⟨hi.live_nodup, hi.freed_nodup,
        fun x hx hx2 => hi.apart x hx hx2⟩
    have htot := sum_le_of_nodup_subset (m := g.tensors)
      (fun x => getAlignedSize (g.bytesOf x)) hnd2
      (by
        intro x hx
        rcases List.mem_cons.1 hx with h | h
        · rw [h]; exact ht
        · exact hi.sub x (List.mem_append.1 h))
    have hlt := aligned_total_lt hsize ht
    simp only [List.map_cons, List.sum_cons, List.map_append, List.sum_append] at htot
    have hused := hi.sess.used
    simp only [List.map_map] at hused
    have hused2 : s.a.used =
        ((liveOf s.events).map (fun x => getAlignedSize (g.bytesOf x))).sum := by
      rw [hused]
      rfl
    have hbound := hi.bound
    simp only [List.map_append, List.sum_append] at hbound
    generalize hal : getAlignedSize (g.bytesOf t) = al at htot
    have hok : Session.stepOk ⟨s.a, (liveOf s.events).map (g.blockOf s)⟩
        (.alloc (g.bytesOf t)) = true := by
      simp only [Session.stepOk, Bool.and_eq_true, decide_eq_true_eq, Bool.or_eq_true]
      rw [hal]
      exact ⟨by omega, Or.inr (by omega)⟩
    obtain ⟨s2, hstep, hinv⟩ := inv_step_alloc hi.sess (g.bytesOf t) hok
    simp only [Session.step] at hstep
    cases ha : s.a.alloc (g.bytesOf t) with
    | none => rw [ha] at hstep; cases hstep
    | some r =>
      obtain ⟨off, a2⟩ := r
      rw [ha] at hstep
      simp only [Option.some.injEq] at hstep
      subst hstep
      have hpk := alloc_peak_le ha
      rw [hal] at hpk
      refine ⟨_, rfl, ?_⟩
      have hmap : (liveOf s.events).map (g.blockOf
          { s with a := a2, offsets := fun x => if x = t then some off else s.offsets x,
                   events := PlanEvent.alloc t off :: s.events }) =
          (liveOf s.events).map (g.blockOf s) := by
        apply List.map_congr_left
        intro x hx
        have hxt : x ≠ t := fun e => htl (e ▸ hx)
        simp only [GraphObj.blockOf, if_neg hxt]
      exact
        { sess := by
            simp only [liveOf, List.map_cons]
            rw [hmap]
            simpa [GraphObj.blockOf] using hinv
          live_nodup := List.nodup_cons.2 ⟨htl, hi.live_nodup⟩
          freed_nodup := hi.freed_nodup
          alloc_iff := by
            intro x
            simp only [liveOf, freedOf, List.mem_cons]
            by_cases hxt : x = t
            · simp [hxt]
            · rw [if_neg hxt]
              simp only [hxt, false_or]
              exact hi.alloc_iff x
          apart := by
            intro x hx
            simp only [liveOf, List.mem_cons] at hx
            simp only [freedOf]
            rcases hx with h | h
            · rw [h]; exact htf
            · exact hi.apart x h
          dead := (planInv_mono hi).dead
          count := (planInv_mono hi).count
          freed_targets := hi.freed_targets
          sub := by
            intro x hx
            simp only [liveOf, freedOf, List.mem_cons] at hx
            rcases hx with (h | h) | h
            · rw [h]; exact ht
            · exact hi.sub x (Or.inl h)
            · exact hi.sub x (Or.inr h)
          bound := by
            simp only [liveOf, freedOf, List.cons_append, List.map_cons, List.sum_cons,
              List.map_append, List.sum_append]
            rw [hal]
            omega }

theorem planInv_release {g : GraphObj} {s : PlanState} {F : List PlanAction} {t : TensorId}
    (hi : g.PlanInv s (PlanAction.release t :: F)) :
    ∃ s2, g.release s t = some s2 ∧ g.PlanInv s2 F := by
  unfold GraphObj.release
  cases hr : s.remainingUses t with
  | none => exact ⟨s, rfl, planInv_mono hi⟩
  | some n =>
    obtain ⟨hn, hi1⟩ := planInv_dec hi hr
    simp only
    generalize (if 0 < n then n - 1 else n) = n2 at hn hi1 ⊢
    split_ifs with hcond
    · cases hoff : s.offsets t with
      | none => exact ⟨_, rfl, hi1⟩
      | some off =>
        have htl : t ∈ liveOf s.events := by
          have h := (hi.alloc_iff t).1 (by rw [hoff]; rfl)
          rcases h with h | h
          · exact h
          · exact absurd (List.mem_cons_self _ _) (hi.dead t h)
        have htf : t ∉ freedOf s.events := hi.apart t htl
        have hblock : g.blockOf s t = (off, g.bytesOf t) := by
          simp only [GraphObj.blockOf, hoff, Option.getD_some]
        have hok : Session.stepOk ⟨s.a, (liveOf s.events).map (g.blockOf s)⟩
            (.free off (g.bytesOf t)) = true := by
          simp only [Session.stepOk, decide_eq_true_eq]
          rw [← hblock]
          exact List.mem_map.2 ⟨t, htl, rfl⟩
        obtain ⟨s2, hstep, hinv⟩ := inv_step_free hi.sess off (g.bytesOf t) hok
        simp only [Session.step] at hstep
        cases ha : s.a.free off (g.bytesOf t) with
        | none => rw [ha] at hstep; cases hstep
        | some a2 =>
          rw [ha] at hstep
          simp only [Option.some.injEq] at hstep
          subst hstep
          have hpk := free_peak_le ha
          simp only [ha]
          refine ⟨_, rfl, ?_⟩
          have hperm : (liveOf s.events).Perm
              (t :: (liveOf s.events).filter (fun x => decide (x ≠ t))) := by
            have h1 := List.perm_cons_erase htl
            have h2 : (liveOf s.events).erase t =
                (liveOf s.events).filter (fun x => decide (x ≠ t)) := by
              rw [hi.live_nodup.erase_eq_filter]
              apply List.filter_congr
              intro x _
              by_cases h : x = t <;> simp [h]
            rw [h2] at h1
            exact h1
          have hzero : F.count (PlanAction.release t) = 0 := by
            have := hcond.1
            omega
          exact
            { sess := by
                rw [← hblock] at hinv
                exact inv_of_perm hinv (perm_erase_map (g.blockOf s) hi.live_nodup htl)
              live_nodup := hi.live_nodup.filter _
              freed_nodup := List.nodup_cons.2 ⟨htf, hi.freed_nodup⟩
              alloc_iff := by
                intro x
                simp only [liveOf, freedOf, List.mem_cons, List.mem_filter, ne_eq,
                  decide_not, Bool.not_eq_true', decide_eq_false_iff_not]
                rw [show (s.offsets x).isSome = true ↔ _ from hi.alloc_iff x]
                by_cases hxt : x = t
                · simp [hxt, htl]
                · simp [hxt]
              apart := by
                intro x hx
                simp only [liveOf, List.mem_filter, ne_eq, decide_not, Bool.not_eq_true',
                  decide_eq_false_iff_not] at hx
                simp only [freedOf, List.mem_cons, not_or]
                exact ⟨hx.2, hi.apart x hx.1⟩
              dead := by
                intro x hx
                simp only [freedOf, List.mem_cons] at hx
                rcases hx with h | h
                · rw [h]
                  exact List.count_eq_zero.1 hzero
                · exact hi1.dead x h
              count := hi1.count
              freed_targets := by
                intro x hx
                simp only [freedOf, List.mem_cons] at hx
                rcases hx with h | h
                · rw [h]
                  have hk := hcond.2
                  have hmem := hi.sub t (Or.inl htl)
                  simp only [GraphObj.keepAlive, Bool.and_eq_false_iff, List.contains_eq_any_beq,
                    List.any_eq_false, beq_iff_eq, List.isEmpty_eq_false] at hk
                  rcases hk with hk | hk
                  · exact absurd rfl (hk t hmem)
                  · exact hk
                · exact hi.freed_targets x h
              sub := by
                intro x hx
                simp only [liveOf, freedOf, List.mem_cons, List.mem_filter] at hx
                rcases hx with h | h | h
                · exact hi.sub x (Or.inl h.1)
                · rw [h]; exact hi.sub t (Or.inl htl)
                · exact hi.sub x (Or.inr h)
              bound := by
                have hb := hi.bound
                have hp2 : (liveOf s.events ++ freedOf s.events).Perm
                    ((liveOf s.events).filter (fun x => decide (x ≠ t)) ++
                      t :: freedOf s.events) :=
                  (hperm.append_right _).trans List.perm_middle.symm
                rw [(hp2.map _).sum_eq] at hb
                exact Nat.le_trans hpk hb }
    · exact ⟨_, rfl, hi1⟩

theorem planInv_run {g : GraphObj}
    (hsize : (g.tensors.map (fun t => (g.tensor t).getBytes + 8)).sum ≤ wordSize) :
    ∀ (F : List PlanAction) (s : PlanState) (n : Nat), g.PlanInv s F →
      (∀ t, PlanAction.ensure t ∈ F → t ∈ g.tensors) →
      ∃ s2, g.planRun s (F.take n) = some s2 ∧ g.PlanInv s2 (F.drop n) := by
  intro F
  induction F with
  | nil => intro s n hi _; exact ⟨s, by simp [GraphObj.planRun], by simpa using hi⟩
  | cons c F ih =>
    intro s n hi hsub
    cases n with
    | zero => exact ⟨s, rfl, hi⟩
    | succ k =>
      have hstep : ∃ s1, g.planStep s c = some s1 ∧ g.PlanInv s1 F := by
        cases c with
        | ensure t => exact planInv_ensure hsize hi (hsub t (List.mem_cons_self _ _))
        | release t => exact planInv_release hi
      obtain ⟨s1, h1, hi1⟩ := hstep
      obtain ⟨s2, h2, hi2⟩ := ih s1 k hi1 (fun t ht => hsub t (List.mem_cons_of_mem _ ht))
      refine ⟨s2, ?_, hi2⟩
      simp only [List.take_succ_cons, GraphObj.planRun, h1]
      exact h2

theorem count_release_planActions (g : GraphObj) (t : TensorId) :
    g.planActions.count (PlanAction.release t) = g.uses t := by
  unfold GraphObj.planActions GraphObj.uses
  have hinj : Function.Injective PlanAction.release := fun a b h => by cases h; rfl
  have h0 : ∀ l : List TensorId, (l.map PlanAction.ensure).count (PlanAction.release t) = 0 := by
    intro l
    apply List.count_eq_zero.2
    intro h
    obtain ⟨x, -, hx⟩ := List.mem_map.1 h
    cases hx
  rw [List.count_append, h0, Nat.zero_add]
  induction g.ops with
  | nil => rfl
  | cons o l ih =>
    simp only [List.flatMap_cons, List.count_append, h0, Nat.zero_add, ih,
      List.count_map_of_injective _ _ hinj]

theorem ensure_mem_planActions {g : GraphObj} {t : TensorId} :
    PlanAction.ensure t ∈ g.planActions ↔
      t ∈ g.getInputs ∨ ∃ o ∈ g.ops, t ∈ (g.op o).outputs := by
  unfold GraphObj.planActions
  simp only [List.mem_append, List.mem_map, List.mem_flatMap, PlanAction.ensure.injEq,
    exists_eq_right, and_false, exists_false, or_false, reduceCtorEq]

theorem checkValid_iff (g : GraphObj) :
    g.checkValid = true ↔
      (∀ t ∈ g.tensors,
        ¬ ((g.tensor t).targets = [] ∧ (g.tensor t).source = none) ∧
        (∀ o ∈ (g.tensor t).targets, o ∈ g.ops) ∧
        (∀ o, (g.tensor t).source = some o → o ∈ g.ops)) ∧
      (∀ o ∈ g.ops,
        (∀ t ∈ (g.op o).inputs, t ∈ g.tensors) ∧ (∀ t ∈ (g.op o).outputs, t ∈ g.tensors) ∧
        (∀ p ∈ (g.op o).predecessors, p ∈ g.ops) ∧ (∀ p ∈ (g.op o).successors, p ∈ g.ops)) ∧
      (g.tensors.map (fun t => (g.tensor t).fuid)).Nodup := by
  unfold GraphObj.checkValid
  simp only [Bool.and_eq_true, List.all_eq_true, decide_eq_true_eq]
  constructor
  · rintro ⟨⟨ht, ho⟩, hn⟩
    refine ⟨fun t htm => ?_, fun o hom => ?_, hn⟩
    · have h := ht t htm
      cases hsrc : (g.tensor t).source with
      | none =>
        rw [hsrc] at h
        simp at h
        simpa using h
      | some p =>
        rw [hsrc] at h
        simp at h
        simpa using h
    · have h := ho o hom
      simp at h
      exact ⟨h.1.1.1, h.1.1.2, h.1.2, h.2⟩
  · rintro ⟨ht, ho, hn⟩
    refine ⟨⟨fun t htm => ?_, fun o hom => ?_⟩, hn⟩
    · have h := ht t htm
      cases hsrc : (g.tensor t).source with
      | none =>
        rw [hsrc] at h
        simp at h
        simpa using h
      | some p =>
        rw [hsrc] at h
        simp at h
        simpa using h
    · have h := ho o hom
      simp
      exact ⟨⟨⟨h.1, h.2.1⟩, h.2.2.1⟩, h.2.2.2⟩

theorem topo_sort_heap (g : GraphObj) :
    g.topo_sort.2.tensors = g.tensors ∧ g.topo_sort.2.tensor = g.tensor ∧
    g.topo_sort.2.op = g.op ∧ g.topo_sort.2.allocator = g.allocator := by
  unfold GraphObj.topo_sort
  split_ifs
  · exact ⟨rfl, rfl, rfl, rfl⟩
  · split <;> exact ⟨rfl, rfl, rfl, rfl⟩

theorem topo_sort_perm (g : GraphObj) : g.topo_sort.2.ops.Perm g.ops := by
  unfold GraphObj.topo_sort
  split_ifs
  · exact List.Perm.refl _
  · rcases topoLoop_spec g (g.ops.length + 1) [] [] (topoInv_nil g) (by simp) with
      ⟨s, f, hd, hi, hlen⟩ | ⟨hst, -⟩
    · rw [hd]
      exact (List.subperm_of_subset hi.nodup hi.sub).perm_of_length_le hlen
    · rw [hst]

theorem uses_perm {g h : GraphObj} (hop : h.op = g.op) (hp : h.ops.Perm g.ops) (t : TensorId) :
    h.uses t = g.uses t := by
  unfold GraphObj.uses
  rw [hop]
  exact (hp.flatMap_right _).count_eq t

theorem planInv_start {g : GraphObj} (hfresh : g.allocator = Allocator.fresh)
    (huses : ∀ t ∈ g.tensors, g.uses t ≤ (g.tensor t).targets.length) :
    g.PlanInv g.planStart g.planActions :=
  { sess := by
      simp only [GraphObj.planStart, liveOf, List.map_nil]
      rw [hfresh]
      exact inv_fresh
    live_nodup := List.nodup_nil
    freed_nodup := List.nodup_nil
    alloc_iff := by
      intro t
      simp [GraphObj.planStart, liveOf, freedOf]
    apart := fun t ht => by cases ht
    dead := fun t ht => by cases ht
    count := by
      intro t n hn
      simp only [GraphObj.planStart] at hn
      split_ifs at hn with ht
      simp only [Option.some.injEq] at hn
      rw [count_release_planActions, ← hn]
      exact huses t ht
    freed_targets := fun t ht => by cases ht
    sub := by
      intro t ht
      simp [GraphObj.planStart, liveOf, freedOf] at ht
    bound := by
      simp only [GraphObj.planStart, liveOf, freedOf, List.append_nil, List.map_nil,
        List.sum_nil]
      rw [hfresh]
      exact Nat.le_refl _ }

theorem planInv_disjoint {g : GraphObj} {s : PlanState} {F : List PlanAction}
    (hsize : (g.tensors.map (fun t => (g.tensor t).getBytes + 8)).sum ≤ wordSize)
    (hi : g.PlanInv s F) :
    (liveOf s.events).Pairwise
      (fun t1 t2 => ∀ x, ¬ (g.inTensor s t1 x ∧ g.inTensor s t2 x)) := by
  have h := hi.sess.safe.live_disj
  simp only [liveRanges, List.pairwise_map] at h
  have hb : ∀ t ∈ liveOf s.events, g.bytesOf t ≤ getAlignedSize (g.bytesOf t) := by
    intro t ht
    have hmem := hi.sub t (Or.inl ht)
    have h3 : g.bytesOf t = (g.tensor t).getBytes := by
      unfold GraphObj.bytesOf
      rw [if_pos hmem]
    rw [h3]
    exact (getAlignedSize_bounds _ (Nat.le_trans
      (List.single_le_sum (fun _ _ => Nat.zero_le _) _
        (List.mem_map.2 ⟨t, hmem, rfl⟩)) hsize)).1
  refine h.imp_of_mem ?_
  intro t1 t2 h1 h2 hd x hx
  obtain ⟨⟨o1, ho1, hx1, hx1b⟩, ⟨o2, ho2, hx2, hx2b⟩⟩ := hx
  have hb1 := hb t1 h1
  have hb2 := hb t2 h2
  simp only [Disj, GraphObj.blockOf, ho1, ho2, Option.getD_some] at hd
  generalize getAlignedSize (g.bytesOf t1) = a1 at hd hb1
  generalize getAlignedSize (g.bytesOf t2) = a2 at hd hb2
  omega

set_option maxRecDepth 100000 in
/-- C3, counterexample. The graph `staleTargets` passes `checkValid` and `topo_sort`,
but the target list of `t0` names only `op10` while `op11` reads `t0` too. `dataMalloc`
releases `t0` during the visit of `op10`, gives its bytes `[0, 24)` to `t2`, the output
of `op11`, which reads `t0`, and releases `t0` a second time. -/
theorem stale_targets_double_free :
    staleTargets.checkValid = true ∧ staleTargets.topo_sort.1 = some true ∧
    staleTargets.dataMalloc.toOption.map
        (fun r => (r.2.events.reverse, r.2.offsets 0, r.2.offsets 2, r.1.bytesOf 0,
          r.1.bytesOf 2)) =
      some ([.alloc 0 0, .alloc 1 24, .free 0 0, .alloc 2 0, .free 0 0],
        some 0, some 0, 24, 24) := by
  decide

/-- C3, amended. Take a graph on which `checkValid` holds, with a fresh allocator, in
which every tensor has at least as many targets as there are operator input slots
reading it, and whose tensor sizes, padded by 8 bytes each, sum to at most `2^64`. At
every point `n` of the walk `dataMalloc` performs on the sorted graph, no allocator
assertion has failed, no tensor has been released twice, every released tensor has
targets and is read by none of the steps still to come, and any two tensors allocated
and not released have no byte of `[offset, offset + bytes)` in common. -/
theorem planner_keeps_live_apart (g : GraphObj) (hvalid : g.checkValid = true)
    (hfresh : g.allocator = Allocator.fresh)
    (huses : ∀ t ∈ g.tensors, g.uses t ≤ (g.tensor t).targets.length)
    (hsize : (g.tensors.map (fun t => (g.tensor t).getBytes + 8)).sum ≤ wordSize)
    (n : Nat) :
    ∃ s, g.topo_sort.2.planRun g.topo_sort.2.planStart
        (g.topo_sort.2.planActions.take n) = some s ∧
      (freedOf s.events).Nodup ∧
      (∀ t ∈ freedOf s.events, (g.tensor t).targets ≠ [] ∧
        PlanAction.release t ∉ g.topo_sort.2.planActions.drop n) ∧
      (liveOf s.events).Pairwise
        (fun t1 t2 => ∀ x, ¬ (g.topo_sort.2.inTensor s t1 x ∧ g.topo_sort.2.inTensor s t2 x)) := by
  obtain ⟨hT, hten, hop, hal⟩ := topo_sort_heap g
  have hperm := topo_sort_perm g
  generalize g.topo_sort.2 = g1 at hT hten hop hal hperm ⊢
  have hsize1 : (g1.tensors.map (fun t => (g1.tensor t).getBytes + 8)).sum ≤ wordSize := by
    rw [hT, hten]
    exact hsize
  have huses1 : ∀ t ∈ g1.tensors, g1.uses t ≤ (g1.tensor t).targets.length := by
    intro t ht
    rw [uses_perm hop hperm, hten]
    exact huses t (hT ▸ ht)
  have hv := ((checkValid_iff g).1 hvalid).2.1
  have hsub : ∀ t, PlanAction.ensure t ∈ g1.planActions → t ∈ g1.tensors := by
    intro t ht
    rcases ensure_mem_planActions.1 ht with h | ⟨o, ho, h⟩
    · exact (List.mem_filter.1 h).1
    · rw [hT]
      rw [hop] at h
      exact (hv o (hperm.subset ho)).2.1 t h
  obtain ⟨s, hrun, hi⟩ := planInv_run hsize1 g1.planActions g1.planStart n
    (planInv_start (hal.trans hfresh) huses1) hsub
  refine ⟨s, hrun, hi.freed_nodup, ?_, planInv_disjoint hsize1 hi⟩
  intro t ht
  have h := hi.freed_targets t ht
  rw [hten] at h
  exact ⟨h, hi.dead t ht⟩

set_option maxRecDepth 100000 in
theorem planner_keeps_live_apart_witness :
    producerFirst.checkValid = true ∧ producerFirst.allocator = Allocator.fresh ∧
    (∀ t ∈ producerFirst.tensors,
      producerFirst.uses t ≤ (producerFirst.tensor t).targets.length) ∧
    (producerFirst.tensors.map (fun t => (producerFirst.tensor t).getBytes + 8)).sum ≤
      wordSize ∧
    ∃ s, producerFirst.topo_sort.2.planRun producerFirst.topo_sort.2.planStart
        (producerFirst.topo_sort.2.planActions.take 3) = some s ∧
      (freedOf s.events).Nodup ∧
      (∀ t ∈ freedOf s.events, (producerFirst.tensor t).targets ≠ [] ∧
        PlanAction.release t ∉ producerFirst.topo_sort.2.planActions.drop 3) ∧
      (liveOf s.events).Pairwise
        (fun t1 t2 => ∀ x, ¬ (producerFirst.topo_sort.2.inTensor s t1 x ∧
          producerFirst.topo_sort.2.inTensor s t2 x)) :=
  ⟨by decide, by decide, by decide, by decide,
    planner_keeps_live_apart producerFirst (by decide) (by decide) (by decide) (by decide) 3⟩

theorem planStep_offsets {g : GraphObj} {s s2 : PlanState} {c : PlanAction}
    (h : g.planStep s c = some s2) (t : TensorId) :
    ((s.offsets t).isSome = true ∨ c = PlanAction.ensure t) → (s2.offsets t).isSome = true := by
  intro hpre
  cases c with
  | ensure u =>
    simp only [GraphObj.planStep, GraphObj.ensureAlloc] at h
    cases hoff : s.offsets u with
    | some off =>
      rw [hoff] at h
      simp only [Option.some.injEq] at h
      subst h
      rcases hpre with hp | hp
      · exact hp
      · simp only [PlanAction.ensure.injEq] at hp
        rw [← hp, hoff]
        rfl
    | none =>
      rw [hoff] at h
      simp only at h
      cases ha : s.a.alloc (g.bytesOf u) with
      | none => rw [ha] at h; cases h
      | some r =>
        rw [ha] at h
        simp only [Option.some.injEq] at h
        subst h
        simp only
        by_cases htu : t = u
        · rw [if_pos htu]; rfl
        · rw [if_neg htu]
          rcases hpre with hp | hp
          · exact hp
          · simp only [PlanAction.ensure.injEq] at hp
            exact absurd hp.symm htu
  | release u =>
    have hp : (s.offsets t).isSome = true := by
      rcases hpre with hp | hp
      · exact hp
      · cases hp
    simp only [GraphObj.planStep, GraphObj.release] at h
    cases hr : s.remainingUses u with
    | none =>
      rw [hr] at h
      simp only [Option.some.injEq] at h
      subst h
      exact hp
    | some n =>
      rw [hr] at h
      simp only at h
      generalize (if 0 < n then n - 1 else n) = n2 at h
      split_ifs at h
      · cases hoff : s.offsets u with
        | none =>
          rw [hoff] at h
          simp only [Option.some.injEq] at h
          subst h
          exact hp
        | some off =>
          rw [hoff] at h
          simp only at h
          cases ha : s.a.free off (g.bytesOf u) with
          | none => rw [ha] at h; cases h
          | some a2 =>
            rw [ha] at h
            simp only [Option.some.injEq] at h
            subst h
            exact hp
      · simp only [Option.some.injEq] at h
        subst h
        exact hp

theorem planRun_offsets {g : GraphObj} (t : TensorId) :
    ∀ (F : List PlanAction) (s s2 : PlanState), g.planRun s F = some s2 →
      ((s.offsets t).isSome = true ∨ PlanAction.ensure t ∈ F) →
      (s2.offsets t).isSome = true := by
  intro F
  induction F with
  | nil =>
    intro s s2 h hpre
    simp only [GraphObj.planRun, Option.some.injEq] at h
    subst h
    rcases hpre with hp | hp
    · exact hp
    · cases hp
  | cons c F ih =>
    intro s s2 h hpre
    simp only [GraphObj.planRun] at h
    cases hs : g.planStep s c with
    | none => rw [hs] at h; cases h
    | some s1 =>
      rw [hs] at h
      apply ih s1 s2 h
      rcases hpre with hp | hp
      · exact Or.inl (planStep_offsets hs t (Or.inl hp))
      · rcases List.mem_cons.1 hp with e | e
        · exact Or.inl (planStep_offsets hs t (Or.inr e.symm))
        · exact Or.inr e

/-- C18. Take a graph on which `checkValid` holds and `topo_sort` returns `true`, each
tensor of the list having no source or a source that is in the op list and lists it as
an output. Whenever the walk of `dataMalloc` gets through, every tensor of the list has
an offset, so the final assertion cannot fail. With a fresh allocator, target lists
covering the reads, and sizes that, padded by 8 bytes each, sum to at most `2^64`, the
walk does get through and `dataMalloc` returns with an offset for every tensor. -/
theorem every_tensor_allocated (g : GraphObj) (hvalid : g.checkValid = true)
    (hsrc : ∀ t ∈ g.tensors, ∀ o, (g.tensor t).source = some o →
      o ∈ g.ops ∧ t ∈ (g.op o).outputs)
    (hsort : g.topo_sort.1 = some true) :
    (∀ s, g.topo_sort.2.planRun g.topo_sort.2.planStart g.topo_sort.2.planActions = some s →
      ∀ t ∈ g.tensors, (s.offsets t).isSome = true) ∧
    (g.allocator = Allocator.fresh →
      (∀ t ∈ g.tensors, g.uses t ≤ (g.tensor t).targets.length) →
      (g.tensors.map (fun t => (g.tensor t).getBytes + 8)).sum ≤ wordSize →
      ∃ r, g.dataMalloc = .ok r ∧ ∀ t ∈ g.tensors, (r.2.offsets t).isSome = true) := by
  have hts : g.topo_sort = (some true, g.topo_sort.2) := by rw [← hsort]
  obtain ⟨hT, hten, hop, hal⟩ := topo_sort_heap g
  have hperm := topo_sort_perm g
  have hdm : g.dataMalloc =
      match g.topo_sort.2.planRun g.topo_sort.2.planStart g.topo_sort.2.planActions with
      | none => .assertFail
      | some s =>
        if g.topo_sort.2.tensors.all (fun t => (s.offsets t).isSome) then
          .ok ({ g.topo_sort.2 with allocator := s.a.getPtr }, { s with a := s.a.getPtr })
        else .assertFail := by
    unfold GraphObj.dataMalloc
    rw [hts]
  generalize g.topo_sort.2 = g1 at hT hten hop hal hperm hdm ⊢
  have hall : ∀ s, g1.planRun g1.planStart g1.planActions = some s →
      ∀ t ∈ g.tensors, (s.offsets t).isSome = true := by
    intro s hrun t ht
    apply planRun_offsets t _ _ _ hrun
    right
    apply ensure_mem_planActions.2
    cases hs : (g.tensor t).source with
    | none =>
      left
      unfold GraphObj.getInputs
      rw [hT, hten]
      exact List.mem_filter.2 ⟨ht, by rw [hs]; rfl⟩
    | some o =>
      right
      obtain ⟨ho, hout⟩ := hsrc t ht o hs
      exact ⟨o, hperm.symm.subset ho, by rw [hop]; exact hout⟩
  refine ⟨hall, ?_⟩
  intro hfresh huses hsize
  have hsize1 : (g1.tensors.map (fun t => (g1.tensor t).getBytes + 8)).sum ≤ wordSize := by
    rw [hT, hten]
    exact hsize
  have huses1 : ∀ t ∈ g1.tensors, g1.uses t ≤ (g1.tensor t).targets.length := by
    intro t ht
    rw [uses_perm hop hperm, hten]
    exact huses t (hT ▸ ht)
  have hv := ((checkValid_iff g).1 hvalid).2.1
  have hsub : ∀ t, PlanAction.ensure t ∈ g1.planActions → t ∈ g1.tensors := by
    intro t ht
    rcases ensure_mem_planActions.1 ht with h | ⟨o, ho, h⟩
    · exact (List.mem_filter.1 h).1
    · rw [hT]
      rw [hop] at h
      exact (hv o (hperm.subset ho)).2.1 t h
  obtain ⟨s, hrun, -⟩ := planInv_run hsize1 g1.planActions g1.planStart g1.planActions.length
    (planInv_start (hal.trans hfresh) huses1) hsub
  rw [List.take_length] at hrun
  have hoffs := hall s hrun
  have hcond : g1.tensors.all (fun t => (s.offsets t).isSome) = true := by
    rw [hT]
    exact List.all_eq_true.2 hoffs
  rw [hdm, hrun]
  simp only [hcond, if_true]
  exact ⟨_, rfl, hoffs⟩

set_option maxRecDepth 100000 in
theorem every_tensor_allocated_witness :
    producerFirst.checkValid = true ∧
    (∀ t ∈ producerFirst.tensors, ∀ o, (producerFirst.tensor t).source = some o →
      o ∈ producerFirst.ops ∧ t ∈ (producerFirst.op o).outputs) ∧
    producerFirst.topo_sort.1 = some true ∧
    (∀ s, producerFirst.topo_sort.2.planRun producerFirst.topo_sort.2.planStart
        producerFirst.topo_sort.2.planActions = some s →
      ∀ t ∈ producerFirst.tensors, (s.offsets t).isSome = true) ∧
    (producerFirst.allocator = Allocator.fresh →
      (∀ t ∈ producerFirst.tensors,
        producerFirst.uses t ≤ (producerFirst.tensor t).targets.length) →
      (producerFirst.tensors.map (fun t => (producerFirst.tensor t).getBytes + 8)).sum ≤
        wordSize →
      ∃ r, producerFirst.dataMalloc = .ok r ∧
        ∀ t ∈ producerFirst.tensors, (r.2.offsets t).isSome = true) :=
  have hsrc : ∀ t ∈ producerFirst.tensors, ∀ o, (producerFirst.tensor t).source = some o →
      o ∈ producerFirst.ops ∧ t ∈ (producerFirst.op o).outputs := by
    intro t ht o
    have h3 : t = 0 ∨ t = 1 ∨ t = 2 := by
      have : producerFirst.tensors = [0, 1, 2] := by decide
      rw [this] at ht
      simpa using ht
    rcases h3 with h | h | h <;> subst h <;> intro hs
    · have h1 : (producerFirst.tensor 0).source = none := by decide
      rw [h1] at hs
      cases hs
    · have : o = 10 := by
        have h1 : (producerFirst.tensor 1).source = some 10 := by decide
        rw [h1] at hs
        exact (Option.some.inj hs).symm
      subst this
      decide
    · have : o = 11 := by
        have h1 : (producerFirst.tensor 2).source = some 11 := by decide
        rw [h1] at hs
        exact (Option.some.inj hs).symm
      subst this
      decide
  ⟨by decide, hsrc, by decide, every_tensor_allocated producerFirst (by decide) hsrc (by decide)⟩

/-! ## `optimize` keeps the graph valid -/

theorem rewriteInv_setOp {g h : GraphObj} {rank : OpId → Nat} (hi : g.RewriteInv h rank)
    (c : OpId) (x : OperatorObj) (t1 t2 : TensorId) (q : OpId)
    (hx_in : x.inputs = (h.op c).inputs.map (fun t => if t = t1 then t2 else t))
    (hx_out : x.outputs = (h.op c).outputs) (hx_type : x.type = (h.op c).type)
    (ht2 : t2 ∈ g.tensors) (hq : (g.tensor t1).source = some q)
    (hlt : ∀ p, (g.tensor t2).source = some p → rank p < rank q) :
    g.RewriteInv (h.setOp c x) rank ∧
    (∀ l, g.inputWeight (h.setOp c x) rank l ≤ g.inputWeight h rank l) ∧
    (c ∈ g.ops → t1 ∈ (h.op c).inputs →
      g.inputWeight (h.setOp c x) rank g.ops < g.inputWeight h rank g.ops) := by
  have hdepth : g.depthOf rank t2 < g.depthOf rank t1 := by
    unfold GraphObj.depthOf
    rw [hq]
    cases hs : (g.tensor t2).source with
    | none => exact Nat.succ_pos _
    | some p => exact Nat.succ_lt_succ (hlt p hs)
  have hr : ∀ t, g.depthOf rank (if t = t1 then t2 else t) ≤ g.depthOf rank t := by
    intro t
    split_ifs with e
    · rw [e]; exact Nat.le_of_lt hdepth
    · exact Nat.le_refl _
  have hop : ∀ o, o ≠ c → (h.setOp c x).op o = h.op o := by
    intro o ho
    simp only [GraphObj.setOp, if_neg ho]
  have hopc : (h.setOp c x).op c = x := by
    simp only [GraphObj.setOp, if_true]
  have hw : ∀ o, (((h.setOp c x).op o).inputs.map (g.depthOf rank)).sum ≤
      ((h.op o).inputs.map (g.depthOf rank)).sum := by
    intro o
    by_cases ho : o = c
    · subst ho
      rw [hopc, hx_in, List.map_map]
      exact List.sum_le_sum (fun t _ => hr t)
    · rw [hop o ho]
  refine ⟨?_, ?_, ?_⟩
  · exact
      { tensor_eq := hi.tensor_eq
        tensors_eq := hi.tensors_eq
        ops_sub := hi.ops_sub
        outputs_eq := by
          intro o
          by_cases ho : o = c
          · subst ho; rw [hopc, hx_out]; exact hi.outputs_eq o
          · rw [hop o ho]; exact hi.outputs_eq o
        type_eq := by
          intro o
          by_cases ho : o = c
          · subst ho; rw [hopc, hx_type]; exact hi.type_eq o
          · rw [hop o ho]; exact hi.type_eq o
        len_eq := by
          intro o
          by_cases ho : o = c
          · subst ho; rw [hopc, hx_in, List.length_map]; exact hi.len_eq o
          · rw [hop o ho]; exact hi.len_eq o
        inputs_mem := by
          intro o hom t ht
          by_cases ho : o = c
          · subst ho
            rw [hopc, hx_in] at ht
            obtain ⟨t0, ht0, rfl⟩ := List.mem_map.1 ht
            split_ifs
            · exact ht2
            · exact hi.inputs_mem o hom t0 ht0
          · rw [hop o ho] at ht; exact hi.inputs_mem o hom t ht
        ranked := by
          intro o hom t ht p hp
          by_cases ho : o = c
          · subst ho
            rw [hopc, hx_in] at ht
            obtain ⟨t0, ht0, rfl⟩ := List.mem_map.1 ht
            split_ifs at hp with e
            · subst e
              exact Nat.lt_trans (hlt p hp) (hi.ranked o hom t0 ht0 q hq)
            · exact hi.ranked o hom t0 ht0 p hp
          · rw [hop o ho] at ht; exact hi.ranked o hom t ht p hp }
  · intro l
    unfold GraphObj.inputWeight
    exact List.sum_le_sum (fun o _ => hw o)
  · intro hc ht1
    unfold GraphObj.inputWeight
    refine List.sum_lt_sum _ _ (fun o _ => hw o) ⟨c, hc, ?_⟩
    rw [hopc, hx_in, List.map_map]
    refine List.sum_lt_sum _ _ (fun t _ => hr t) ⟨t1, ht1, ?_⟩
    simp only [Function.comp, if_true]
    exact hdepth

theorem getD_mem_of_lt {l : List TensorId} {i : Nat} (h : i < l.length) : l.getD i 0 ∈ l := by
  rw [List.getD_eq_getElem _ _ h]
  exact List.getElem_mem h

theorem length_filter_lt {l : List OpId} {p : OpId → Bool} {x : OpId} (hx : x ∈ l)
    (hp : p x = false) : (l.filter p).length < l.length := by
  induction l with
  | nil => cases hx
  | cons y l ih =>
    rcases List.mem_cons.1 hx with e | e
    · subst e
      rw [List.filter_cons, hp]
      simp only [Bool.false_eq_true, if_false, List.length_cons]
      exact Nat.lt_succ_of_le (List.length_filter_le _ _)
    · have := ih e
      rw [List.filter_cons]
      split_ifs
      · simp only [List.length_cons]; omega
      · simp only [List.length_cons]; omega

theorem rule1_some {g : GraphObj} :
    ∀ (l : List OpId) (g2 : GraphObj), g.rule1 l = some g2 →
      ∃ op1 ∈ l, ∃ op2, g.Rule1Pair op1 op2 ∧
        ∃ g1, g1 = (g.tensor (g.op op2).getOutput).targets.foldl
            (fun h consumer => h.setOp consumer
              ((h.op consumer).replaceInput (g.op op2).getOutput ((g.op op1).getInput 0))) g ∧
          g2 = { g1 with ops := (g1.ops.filter (fun o => o != op1)).filter (fun o => o != op2) } := by
  intro l
  induction l with
  | nil => intro g2 h; cases h
  | cons o l ih =>
    intro g2 h
    simp only [GraphObj.rule1] at h
    cases hm : g.rule1Match o with
    | none =>
      rw [hm] at h
      obtain ⟨op1, h1, rest⟩ := ih g2 h
      exact ⟨op1, List.mem_cons_of_mem _ h1, rest⟩
    | some r =>
      have hpair := pair_of_rule1Match hm
      have hm2 := rule1Match_of_pair hpair
      rw [hm2] at h
      simp only [Option.some.injEq] at h
      exact ⟨o, List.mem_cons_self _ _, r.1, hpair, _, rfl, h.symm⟩

theorem rewriteInv_rewire {g : GraphObj} {rank : OpId → Nat} (t1 t2 : TensorId) (q : OpId)
    (ht2 : t2 ∈ g.tensors) (hq : (g.tensor t1).source = some q)
    (hlt : ∀ p, (g.tensor t2).source = some p → rank p < rank q) :
    ∀ (l : List OpId) (h : GraphObj), g.RewriteInv h rank →
      g.RewriteInv
        (l.foldl (fun h c => h.setOp c ((h.op c).replaceInput t1 t2)) h) rank ∧
      ∀ l2, g.inputWeight
        (l.foldl (fun h c => h.setOp c ((h.op c).replaceInput t1 t2)) h) rank l2 ≤
          g.inputWeight h rank l2 := by
  intro l
  induction l with
  | nil => intro h hi; exact ⟨hi, fun _ => Nat.le_refl _⟩
  | cons c l ih =>
    intro h hi
    obtain ⟨h1, h2, -⟩ := rewriteInv_setOp hi c ((h.op c).replaceInput t1 t2) t1 t2 q
      rfl rfl rfl ht2 hq hlt
    obtain ⟨h3, h4⟩ := ih _ h1
    exact ⟨h3, fun l2 => Nat.le_trans (h4 l2) (h2 l2)⟩

theorem rewriteInv_rule1 {g h h2 : GraphObj} {rank : OpId → Nat}
    (hvalid : g.checkValid = true) (hw : g.WellFormed) (hi : g.RewriteInv h rank)
    (hr : h.rule1 h.ops = some h2) :
    g.RewriteInv h2 rank ∧ g.inputWeight h2 rank g.ops ≤ g.inputWeight h rank g.ops ∧
      h2.ops.length < h.ops.length := by
  obtain ⟨hvT, hvO, -⟩ := (checkValid_iff g).1 hvalid
  obtain ⟨op1, hop1, op2, hpair, g1, hg1, hh2⟩ := rule1_some h.ops h2 hr
  obtain ⟨hty1, htg, hty2, hin2, -⟩ := hpair
  have hop1g : op1 ∈ g.ops := hi.ops_sub.subset hop1
  obtain ⟨ha1i, ha1o⟩ := hw.arity_tr op1 hop1g (by rw [← hi.type_eq]; exact hty1)
  have hout1 : (h.op op1).getOutput ∈ (g.op op1).outputs := by
    unfold OperatorObj.getOutput
    rw [hi.outputs_eq]
    exact getD_mem_of_lt (by omega)
  have hsrc1 := hw.src_out op1 hop1g _ hout1
  have hout1T := (hvO op1 hop1g).2.1 _ hout1
  have hop2g : op2 ∈ g.ops := by
    apply (hvT _ hout1T).2.1
    rw [← hi.tensor_eq, htg]
    exact List.mem_singleton_self _
  obtain ⟨ha2i, ha2o⟩ := hw.arity_tr op2 hop2g (by rw [← hi.type_eq]; exact hty2)
  have hin2m : (h.op op1).getOutput ∈ (h.op op2).inputs := by
    rw [← hin2]
    unfold OperatorObj.getInput
    exact getD_mem_of_lt (by rw [hi.len_eq]; omega)
  have hr12 : rank op1 < rank op2 := hi.ranked op2 hop2g _ hin2m op1 hsrc1
  have hout2 : (h.op op2).getOutput ∈ (g.op op2).outputs := by
    unfold OperatorObj.getOutput
    rw [hi.outputs_eq]
    exact getD_mem_of_lt (by omega)
  have hsrc2 := hw.src_out op2 hop2g _ hout2
  have hinp : (h.op op1).getInput 0 ∈ (h.op op1).inputs := by
    unfold OperatorObj.getInput
    exact getD_mem_of_lt (by rw [hi.len_eq]; omega)
  have hinpT := hi.inputs_mem op1 hop1g _ hinp
  have hlt : ∀ p, (g.tensor ((h.op op1).getInput 0)).source = some p → rank p < rank op2 :=
    fun p hp => Nat.lt_trans (hi.ranked op1 hop1g _ hinp p hp) hr12
  obtain ⟨hi1, hw1⟩ := rewriteInv_rewire _ _ op2 hinpT hsrc2 hlt
    (h.tensor (h.op op2).getOutput).targets h hi
  have hops := (rewire_fold (h.op op2).getOutput ((h.op op1).getInput 0)
    (h.tensor (h.op op2).getOutput).targets h).1
  rw [← hg1] at hi1 hw1 hops
  subst hh2
  refine ⟨{ hi1 with ops_sub := ?_ }, hw1 g.ops, ?_⟩
  · simp only
    rw [hops]
    exact ((List.filter_sublist _).trans (List.filter_sublist _)).trans hi.ops_sub
  · simp only
    rw [hops]
    refine Nat.lt_of_le_of_lt (List.length_filter_le _ _) (length_filter_lt hop1 ?_)
    simp

theorem rewriteInv_rule2Slot {g : GraphObj} {rank : OpId → Nat}
    (hvalid : g.checkValid = true) (hw : g.WellFormed)
    (st : GraphObj × List OpId × Bool) (mm : OpId) (i W : Nat)
    (hi : g.RewriteInv st.1 rank) (hmm : mm ∈ g.ops) (hty : (g.op mm).type = .MatMul)
    (hi2 : i < 2) (hW : g.inputWeight st.1 rank g.ops ≤ W)
    (hch : st.2.2 = true → g.inputWeight st.1 rank g.ops < W) :
    g.RewriteInv (GraphObj.rule2Slot st mm i).1 rank ∧
    (GraphObj.rule2Slot st mm i).1.ops = st.1.ops ∧
    g.inputWeight (GraphObj.rule2Slot st mm i).1 rank g.ops ≤ W ∧
    ((GraphObj.rule2Slot st mm i).2.2 = true →
      g.inputWeight (GraphObj.rule2Slot st mm i).1 rank g.ops < W) := by
  obtain ⟨hvT, hvO, -⟩ := (checkValid_iff g).1 hvalid
  obtain ⟨h, rem, ch⟩ := st
  simp only at hi hW hch
  simp only [GraphObj.rule2Slot]
  cases hs : (h.tensor ((h.op mm).getInput i)).source with
  | none => exact ⟨hi, rfl, hW, hch⟩
  | some src =>
    simp only
    split_ifs with h1 h2 h3 h4
    · exact ⟨hi, rfl, hW, hch⟩
    · exact ⟨hi, rfl, hW, hch⟩
    · exact ⟨hi, rfl, hW, hch⟩
    all_goals
      have hinp : (h.op mm).getInput i ∈ (h.op mm).inputs := by
        unfold OperatorObj.getInput
        exact getD_mem_of_lt (by rw [hi.len_eq, hw.arity_mm mm hmm hty]; exact hi2)
      have hinpT := hi.inputs_mem mm hmm _ hinp
      have hs2 : (g.tensor ((h.op mm).getInput i)).source = some src := by
        rw [← hi.tensor_eq]; exact hs
      have hsrcg : src ∈ g.ops := (hvT _ hinpT).2.2 src hs2
      have htys : (g.op src).type = .Transpose := by
        rw [← hi.type_eq]
        simpa using h1
      obtain ⟨hai, -⟩ := hw.arity_tr src hsrcg htys
      have htr : (h.op src).getInput 0 ∈ (h.op src).inputs := by
        unfold OperatorObj.getInput
        exact getD_mem_of_lt (by rw [hi.len_eq]; omega)
      have htrT := hi.inputs_mem src hsrcg _ htr
      have hlt : ∀ p, (g.tensor ((h.op src).getInput 0)).source = some p →
          rank p < rank src := fun p hp => hi.ranked src hsrcg _ htr p hp
    · obtain ⟨r1, r2, r3⟩ := rewriteInv_setOp hi mm
        { (h.op mm).replaceInput ((h.op mm).getInput i) ((h.op src).getInput 0) with
          transA := !((h.op mm).replaceInput ((h.op mm).getInput i)
            ((h.op src).getInput 0)).transA }
        _ _ src rfl rfl rfl htrT hs2 hlt
      have hlt2 := Nat.lt_of_lt_of_le (r3 hmm hinp) hW
      exact ⟨r1, rfl, Nat.le_of_lt hlt2, fun _ => hlt2⟩
    · obtain ⟨r1, r2, r3⟩ := rewriteInv_setOp hi mm
        { (h.op mm).replaceInput ((h.op mm).getInput i) ((h.op src).getInput 0) with
          transB := !((h.op mm).replaceInput ((h.op mm).getInput i)
            ((h.op src).getInput 0)).transB }
        _ _ src rfl rfl rfl htrT hs2 hlt
      have hlt2 := Nat.lt_of_lt_of_le (r3 hmm hinp) hW
      exact ⟨r1, rfl, Nat.le_of_lt hlt2, fun _ => hlt2⟩

theorem rewriteInv_rule2 {g h : GraphObj} {rank : OpId → Nat}
    (hvalid : g.checkValid = true) (hw : g.WellFormed) (hi : g.RewriteInv h rank) :
    g.RewriteInv h.rule2.1 rank ∧ h.rule2.1.ops = h.ops ∧
    g.inputWeight h.rule2.1 rank g.ops ≤ g.inputWeight h rank g.ops ∧
    (h.rule2.2.2 = true →
      g.inputWeight h.rule2.1 rank g.ops < g.inputWeight h rank g.ops) := by
  have key : ∀ (l : List OpId) (st : GraphObj × List OpId × Bool),
      (∀ o ∈ l, o ∈ g.ops) → g.RewriteInv st.1 rank → st.1.ops = h.ops →
      g.inputWeight st.1 rank g.ops ≤ g.inputWeight h rank g.ops →
      (st.2.2 = true → g.inputWeight st.1 rank g.ops < g.inputWeight h rank g.ops) →
      g.RewriteInv (l.foldl (fun st o =>
          if (st.1.op o).type ≠ .MatMul then st
          else GraphObj.rule2Slot (GraphObj.rule2Slot st o 0) o 1) st).1 rank ∧
      (l.foldl (fun st o =>
          if (st.1.op o).type ≠ .MatMul then st
          else GraphObj.rule2Slot (GraphObj.rule2Slot st o 0) o 1) st).1.ops = h.ops ∧
      g.inputWeight (l.foldl (fun st o =>
          if (st.1.op o).type ≠ .MatMul then st
          else GraphObj.rule2Slot (GraphObj.rule2Slot st o 0) o 1) st).1 rank g.ops ≤
        g.inputWeight h rank g.ops ∧
      ((l.foldl (fun st o =>
          if (st.1.op o).type ≠ .MatMul then st
          else GraphObj.rule2Slot (GraphObj.rule2Slot st o 0) o 1) st).2.2 = true →
        g.inputWeight (l.foldl (fun st o =>
          if (st.1.op o).type ≠ .MatMul then st
          else GraphObj.rule2Slot (GraphObj.rule2Slot st o 0) o 1) st).1 rank g.ops <
          g.inputWeight h rank g.ops) := by
    intro l
    induction l with
    | nil => intro st _ h1 h2 h3 h4; exact ⟨h1, h2, h3, h4⟩
    | cons o l ih =>
      intro st hl h1 h2 h3 h4
      simp only [List.foldl_cons]
      have hog := hl o (List.mem_cons_self _ _)
      have hl2 : ∀ x ∈ l, x ∈ g.ops := fun x hx => hl x (List.mem_cons_of_mem _ hx)
      split_ifs with hty
      · exact ih st hl2 h1 h2 h3 h4
      · have htyg : (g.op o).type = .MatMul := by
          rw [← h1.type_eq]
          simpa using hty
        obtain ⟨a1, a2, a3, a4⟩ := rewriteInv_rule2Slot hvalid hw st o 0 _ h1 hog htyg
          (by decide) h3 h4
        obtain ⟨b1, b2, b3, b4⟩ := rewriteInv_rule2Slot hvalid hw _ o 1 _ a1 hog htyg
          (by decide) a3 a4
        exact ih _ hl2 b1 (b2.trans (a2.trans h2)) b3 b4
  have := key h.ops (h, [], false) (fun o ho => hi.ops_sub.subset ho) hi rfl
    (Nat.le_refl _) (fun e => by cases e)
  exact this

theorem rewriteLoop_spec {g : GraphObj} {rank : OpId → Nat}
    (hvalid : g.checkValid = true) (hw : g.WellFormed) :
    ∀ (fuel : Nat) (h : GraphObj), g.RewriteInv h rank →
      h.ops.length + g.inputWeight h rank g.ops < fuel →
      ∃ h2, h.rewriteLoop fuel = .ok h2 ∧ g.RewriteInv h2 rank := by
  intro fuel
  induction fuel with
  | zero => intro h _ hlt; omega
  | succ n ih =>
    intro h hi hlt
    unfold GraphObj.rewriteLoop
    cases hr : h.rule1 h.ops with
    | some h1 =>
      obtain ⟨a1, a2, a3⟩ := rewriteInv_rule1 hvalid hw hi hr
      exact ih h1 a1 (by omega)
    | none =>
      obtain ⟨b1, b2, b3, b4⟩ := rewriteInv_rule2 hvalid hw hi
      have hinv2 : g.RewriteInv
          (if h.rule2.2.1.isEmpty then h.rule2.1
            else { h.rule2.1 with
              ops := h.rule2.1.ops.filter (fun o => !(h.rule2.2.1.contains o)) }) rank := by
        split_ifs
        · exact b1
        · exact { b1 with ops_sub := (List.filter_sublist _).trans b1.ops_sub }
      have hlen : (if h.rule2.2.1.isEmpty then h.rule2.1
            else { h.rule2.1 with
              ops := h.rule2.1.ops.filter (fun o => !(h.rule2.2.1.contains o)) }).ops.length ≤
          h.ops.length := by
        split_ifs
        · rw [b2]
        · simp only
          rw [b2]
          exact List.length_filter_le _ _
      have hwt : g.inputWeight (if h.rule2.2.1.isEmpty then h.rule2.1
            else { h.rule2.1 with
              ops := h.rule2.1.ops.filter (fun o => !(h.rule2.2.1.contains o)) }) rank g.ops =
          g.inputWeight h.rule2.1 rank g.ops := by
        split_ifs <;> rfl
      have hgoal : ∀ g2 : GraphObj, g.RewriteInv g2 rank → g2.ops.length ≤ h.ops.length →
          g.inputWeight g2 rank g.ops = g.inputWeight h.rule2.1 rank g.ops →
          ∃ h2, (if h.rule2.2.2 = true then GraphObj.rewriteLoop n g2 else .ok g2) = .ok h2 ∧
            g.RewriteInv h2 rank := by
        intro g2 c1 c2 c3
        split_ifs with hch
        · exact ih _ c1 (by have := b4 hch; omega)
        · exact ⟨_, rfl, c1⟩
      exact hgoal _ hinv2 hlen hwt

theorem rebuildInv_addTarget {h k : GraphObj} {nT nS : List TensorId}
    (hi : h.RebuildInv k nT nS) (t : TensorId) (o : OpId) (ho : o ∈ h.ops) :
    h.RebuildInv (k.setTensor t { k.tensor t with targets := (k.tensor t).targets ++ [o] })
      (t :: nT) nS := by
  have hne : ∀ x, x ≠ t → (k.setTensor t
      { k.tensor t with targets := (k.tensor t).targets ++ [o] }).tensor x = k.tensor x := by
    intro x hx
    simp only [GraphObj.setTensor, if_neg hx]
  have heq : (k.setTensor t
      { k.tensor t with targets := (k.tensor t).targets ++ [o] }).tensor t =
      { k.tensor t with targets := (k.tensor t).targets ++ [o] } := by
    simp only [GraphObj.setTensor, if_true]
  exact
    { ops_eq := hi.ops_eq
      tensors_eq := hi.tensors_eq
      inputs_eq := hi.inputs_eq
      outputs_eq := hi.outputs_eq
      fuid_eq := by
        intro x
        by_cases hx : x = t
        · subst hx; rw [heq]; exact hi.fuid_eq x
        · rw [hne x hx]; exact hi.fuid_eq x
      targets_sub := by
        intro x hxm p hp
        by_cases hx : x = t
        · subst hx
          rw [heq] at hp
          rcases List.mem_append.1 hp with e | e
          · exact hi.targets_sub x hxm p e
          · rw [List.mem_singleton.1 e]; exact ho
        · rw [hne x hx] at hp; exact hi.targets_sub x hxm p hp
      source_sub := by
        intro x hxm p hp
        by_cases hx : x = t
        · subst hx
          rw [heq] at hp
          exact hi.source_sub x hxm p hp
        · rw [hne x hx] at hp; exact hi.source_sub x hxm p hp
      edges := hi.edges
      targets_ne := by
        intro x hxm
        by_cases hx : x = t
        · subst hx
          rw [heq]
          simp
        · rw [hne x hx]
          rcases List.mem_cons.1 hxm with e | e
          · exact absurd e hx
          · exact hi.targets_ne x e
      source_ne := by
        intro x hxm
        by_cases hx : x = t
        · subst hx
          rw [heq]
          exact hi.source_ne x hxm
        · rw [hne x hx]; exact hi.source_ne x hxm }

theorem rebuildInv_setSource {h k : GraphObj} {nT nS : List TensorId}
    (hi : h.RebuildInv k nT nS) (t : TensorId) (o : OpId) (ho : o ∈ h.ops)
    (hto : t ∈ (h.op o).outputs) :
    h.RebuildInv (k.setTensor t { k.tensor t with source := some o }) nT (t :: nS) := by
  have hne : ∀ x, x ≠ t →
      (k.setTensor t { k.tensor t with source := some o }).tensor x = k.tensor x := by
    intro x hx
    simp only [GraphObj.setTensor, if_neg hx]
  have heq : (k.setTensor t { k.tensor t with source := some o }).tensor t =
      { k.tensor t with source := some o } := by
    simp only [GraphObj.setTensor, if_true]
  exact
    { ops_eq := hi.ops_eq
      tensors_eq := hi.tensors_eq
      inputs_eq := hi.inputs_eq
      outputs_eq := hi.outputs_eq
      fuid_eq := by
        intro x
        by_cases hx : x = t
        · subst hx; rw [heq]; exact hi.fuid_eq x
        · rw [hne x hx]; exact hi.fuid_eq x
      targets_sub := by
        intro x hxm p hp
        by_cases hx : x = t
        · subst hx
          rw [heq] at hp
          exact hi.targets_sub x hxm p hp
        · rw [hne x hx] at hp; exact hi.targets_sub x hxm p hp
      source_sub := by
        intro x hxm p hp
        by_cases hx : x = t
        · subst hx
          rw [heq] at hp
          simp only [Option.some.injEq] at hp
          subst hp
          exact ⟨ho, hto⟩
        · rw [hne x hx] at hp; exact hi.source_sub x hxm p hp
      edges := hi.edges
      targets_ne := by
        intro x hxm
        by_cases hx : x = t
        · subst hx
          rw [heq]
          exact hi.targets_ne x hxm
        · rw [hne x hx]; exact hi.targets_ne x hxm
      source_ne := by
        intro x hxm
        by_cases hx : x = t
        · subst hx
          rw [heq]
          simp
        · rw [hne x hx]
          rcases List.mem_cons.1 hxm with e | e
          · exact absurd e hx
          · exact hi.source_ne x e }

theorem rebuildInv_setOp {h k : GraphObj} {nT nS : List TensorId}
    (hi : h.RebuildInv k nT nS) (o : OpId) (x : OperatorObj)
    (hin : x.inputs = (k.op o).inputs) (hout : x.outputs = (k.op o).outputs)
    (hp : ∀ p ∈ x.predecessors, p ∈ h.ops) (hs : ∀ p ∈ x.successors, p ∈ h.ops) :
    h.RebuildInv (k.setOp o x) nT nS := by
  have hne : ∀ y, y ≠ o → (k.setOp o x).op y = k.op y := by
    intro y hy
    simp only [GraphObj.setOp, if_neg hy]
  have heq : (k.setOp o x).op o = x := by
    simp only [GraphObj.setOp, if_true]
  exact
    { ops_eq := hi.ops_eq
      tensors_eq := hi.tensors_eq
      inputs_eq := by
        intro y
        by_cases hy : y = o
        · subst hy; rw [heq, hin]; exact hi.inputs_eq y
        · rw [hne y hy]; exact hi.inputs_eq y
      outputs_eq := by
        intro y
        by_cases hy : y = o
        · subst hy; rw [heq, hout]; exact hi.outputs_eq y
        · rw [hne y hy]; exact hi.outputs_eq y
      fuid_eq := hi.fuid_eq
      targets_sub := hi.targets_sub
      source_sub := hi.source_sub
      edges := by
        intro y hym
        by_cases hy : y = o
        · subst hy; rw [heq]; exact ⟨hp, hs⟩
        · rw [hne y hy]; exact hi.edges y hym
      targets_ne := hi.targets_ne
      source_ne := hi.source_ne }

theorem rebuildInv_connectInput {h k : GraphObj} {nT nS : List TensorId}
    (hi : h.RebuildInv k nT nS) (o : OpId) (input : TensorId) (ho : o ∈ h.ops)
    (hin : input ∈ h.tensors) :
    h.RebuildInv (k.connectInput o input) (input :: nT) nS := by
  have hi1 := rebuildInv_addTarget hi input o ho
  unfold GraphObj.connectInput
  simp only [TensorObj.addTarget, OperatorObj.addSuccessors, OperatorObj.addPredecessors]
  generalize k.setTensor input
    { k.tensor input with targets := (k.tensor input).targets ++ [o] } = k1 at hi1 ⊢
  cases hs : (k1.tensor input).source with
  | none => exact hi1
  | some pred =>
    simp only
    have hpred : pred ∈ h.ops := (hi1.source_sub input hin pred hs).1
    have hi2 := rebuildInv_setOp hi1 pred
      { k1.op pred with successors := (k1.op pred).successors ++ [o] } rfl rfl
      (hi1.edges pred hpred).1
      (by
        intro p hp
        rcases List.mem_append.1 hp with e | e
        · exact (hi1.edges pred hpred).2 p e
        · rw [List.mem_singleton.1 e]; exact ho)
    generalize k1.setOp pred
      { k1.op pred with successors := (k1.op pred).successors ++ [o] } = k2 at hi2 ⊢
    exact rebuildInv_setOp hi2 o
      { k2.op o with predecessors := (k2.op o).predecessors ++ [pred] } rfl rfl
      (by
        intro p hp
        rcases List.mem_append.1 hp with e | e
        · exact (hi2.edges o ho).1 p e
        · rw [List.mem_singleton.1 e]; exact hpred)
      (hi2.edges o ho).2

theorem rebuildInv_weaken {h k : GraphObj} {nT nS nT2 nS2 : List TensorId}
    (hi : h.RebuildInv k nT nS) (hT : ∀ t ∈ nT2, t ∈ nT) (hS : ∀ t ∈ nS2, t ∈ nS) :
    h.RebuildInv k nT2 nS2 :=
  { hi with
    targets_ne := fun t ht => hi.targets_ne t (hT t ht)
    source_ne := fun t ht => hi.source_ne t (hS t ht) }

theorem rebuildInv_inputs {h : GraphObj} (o : OpId) (ho : o ∈ h.ops) {nS : List TensorId} :
    ∀ (l : List TensorId) (k : GraphObj) (nT : List TensorId), (∀ t ∈ l, t ∈ h.tensors) →
      h.RebuildInv k nT nS →
      h.RebuildInv (l.foldl (fun h input => h.connectInput o input) k) (l ++ nT) nS := by
  intro l
  induction l with
  | nil => intro k nT _ hi; exact hi
  | cons t l ih =>
    intro k nT hl hi
    have h1 := rebuildInv_connectInput hi o t ho (hl t (List.mem_cons_self _ _))
    have h2 := ih _ _ (fun x hx => hl x (List.mem_cons_of_mem _ hx)) h1
    refine rebuildInv_weaken h2 ?_ (fun _ hx => hx)
    intro x hx
    simp only [List.cons_append, List.mem_cons, List.mem_append] at hx ⊢
    tauto

theorem rebuildInv_outputs {h : GraphObj} (o : OpId) (ho : o ∈ h.ops) {nT : List TensorId} :
    ∀ (l : List TensorId) (k : GraphObj) (nS : List TensorId),
      (∀ t ∈ l, t ∈ (h.op o).outputs) → h.RebuildInv k nT nS →
      h.RebuildInv
        (l.foldl (fun h output =>
          h.setTensor output { h.tensor output with source := some o }) k) nT (l ++ nS) := by
  intro l
  induction l with
  | nil => intro k nS _ hi; exact hi
  | cons t l ih =>
    intro k nS hl hi
    have h1 := rebuildInv_setSource hi t o ho (hl t (List.mem_cons_self _ _))
    have h2 := ih _ _ (fun x hx => hl x (List.mem_cons_of_mem _ hx)) h1
    refine rebuildInv_weaken h2 (fun _ hx => hx) ?_
    intro x hx
    simp only [List.cons_append, List.mem_cons, List.mem_append] at hx ⊢
    tauto

theorem rebuildInv_connectOp {h k : GraphObj} {nT nS : List TensorId}
    (hi : h.RebuildInv k nT nS) (o : OpId) (ho : o ∈ h.ops)
    (hin : ∀ t ∈ (h.op o).inputs, t ∈ h.tensors) :
    h.RebuildInv (k.connectOp o) ((h.op o).inputs ++ nT) ((h.op o).outputs ++ nS) := by
  unfold GraphObj.connectOp
  simp only
  have h1 := rebuildInv_inputs o ho (k.op o).inputs k nT
    (by rw [hi.inputs_eq]; exact hin) hi
  rw [hi.inputs_eq] at h1 ⊢
  generalize (h.op o).inputs.foldl (fun h input => h.connectInput o input) k = k1 at h1 ⊢
  have h2 := rebuildInv_outputs o ho (k1.op o).outputs k1 nS
    (by rw [h1.outputs_eq]; exact fun _ hx => hx) h1
  rw [h1.outputs_eq] at h2 ⊢
  exact h2

theorem rebuildInv_ops {h : GraphObj}
    (hin : ∀ o ∈ h.ops, ∀ t ∈ (h.op o).inputs, t ∈ h.tensors) :
    ∀ (l : List OpId) (k : GraphObj) (nT nS : List TensorId), (∀ o ∈ l, o ∈ h.ops) →
      h.RebuildInv k nT nS →
      ∃ nT2 nS2, h.RebuildInv (l.foldl (fun h o => h.connectOp o) k) nT2 nS2 ∧
        (∀ t ∈ nT, t ∈ nT2) ∧ (∀ t ∈ nS, t ∈ nS2) ∧
        ∀ o ∈ l, (∀ t ∈ (h.op o).inputs, t ∈ nT2) ∧ (∀ t ∈ (h.op o).outputs, t ∈ nS2) := by
  intro l
  induction l with
  | nil =>
    intro k nT nS _ hi
    exact ⟨nT, nS, hi, fun _ ht => ht, fun _ ht => ht, fun o ho => by cases ho⟩
  | cons o l ih =>
    intro k nT nS hl hi
    have ho := hl o (List.mem_cons_self _ _)
    have h1 := rebuildInv_connectOp hi o ho (hin o ho)
    obtain ⟨nT2, nS2, h2, h3, h4, h5⟩ :=
      ih _ _ _ (fun x hx => hl x (List.mem_cons_of_mem _ hx)) h1
    refine ⟨nT2, nS2, h2, fun t ht => h3 t (List.mem_append_right _ ht),
      fun t ht => h4 t (List.mem_append_right _ ht), ?_⟩
    intro x hx
    rcases List.mem_cons.1 hx with e | e
    · subst e
      exact ⟨fun t ht => h3 t (List.mem_append_left _ ht),
        fun t ht => h4 t (List.mem_append_left _ ht)⟩
    · exact h5 x e

theorem clearTensors_spec :
    ∀ (l : List TensorId) (k : GraphObj),
      (l.foldl (fun h t => h.setTensor t { h.tensor t with targets := [], source := none })
        k).ops = k.ops ∧
      (l.foldl (fun h t => h.setTensor t { h.tensor t with targets := [], source := none })
        k).tensors = k.tensors ∧
      (l.foldl (fun h t => h.setTensor t { h.tensor t with targets := [], source := none })
        k).op = k.op ∧
      ∀ t, ((l.foldl (fun h t => h.setTensor t { h.tensor t with targets := [], source := none })
          k).tensor t).fuid = (k.tensor t).fuid ∧
        (t ∈ l →
          ((l.foldl (fun h t => h.setTensor t { h.tensor t with targets := [], source := none })
            k).tensor t).targets = [] ∧
          ((l.foldl (fun h t => h.setTensor t { h.tensor t with targets := [], source := none })
            k).tensor t).source = none) ∧
        ((k.tensor t).targets = [] ∧ (k.tensor t).source = none →
          ((l.foldl (fun h t => h.setTensor t { h.tensor t with targets := [], source := none })
            k).tensor t).targets = [] ∧
          ((l.foldl (fun h t => h.setTensor t { h.tensor t with targets := [], source := none })
            k).tensor t).source = none) := by
  intro l
  induction l with
  | nil =>
    intro k
    exact ⟨rfl, rfl, rfl, fun t => ⟨rfl, fun h => absurd h (List.not_mem_nil _), fun h => h⟩⟩
  | cons x l ih =>
    intro k
    simp only [List.foldl_cons]
    obtain ⟨h1, h2, h3, h4⟩ := ih (k.setTensor x { k.tensor x with targets := [], source := none })
    refine ⟨h1, h2, h3, fun t => ?_⟩
    obtain ⟨a, b, c⟩ := h4 t
    have hx : t = x → ((k.setTensor x { k.tensor x with targets := [], source := none }).tensor
        t).targets = [] ∧
        ((k.setTensor x { k.tensor x with targets := [], source := none }).tensor t).source =
          none := by
      intro e
      simp [GraphObj.setTensor, e]
    refine ⟨?_, ?_, ?_⟩
    · rw [a]
      simp only [GraphObj.setTensor]
      split_ifs with e
      · rw [e]
      · rfl
    · intro hm
      rcases List.mem_cons.1 hm with e | e
      · exact c (hx e)
      · exact b e
    · intro hk
      apply c
      by_cases e : t = x
      · exact hx e
      · simp only [GraphObj.setTensor, if_neg e]
        exact hk

theorem clearOps_spec :
    ∀ (l : List OpId) (k : GraphObj),
      (l.foldl (fun h o => h.setOp o { h.op o with predecessors := [], successors := [] })
        k).ops = k.ops ∧
      (l.foldl (fun h o => h.setOp o { h.op o with predecessors := [], successors := [] })
        k).tensors = k.tensors ∧
      (l.foldl (fun h o => h.setOp o { h.op o with predecessors := [], successors := [] })
        k).tensor = k.tensor ∧
      ∀ o, ((l.foldl (fun h o => h.setOp o { h.op o with predecessors := [], successors := [] })
          k).op o).inputs = (k.op o).inputs ∧
        ((l.foldl (fun h o => h.setOp o { h.op o with predecessors := [], successors := [] })
          k).op o).outputs = (k.op o).outputs ∧
        (o ∈ l ∨ ((k.op o).predecessors = [] ∧ (k.op o).successors = []) →
          ((l.foldl (fun h o => h.setOp o { h.op o with predecessors := [], successors := [] })
            k).op o).predecessors = [] ∧
          ((l.foldl (fun h o => h.setOp o { h.op o with predecessors := [], successors := [] })
            k).op o).successors = []) := by
  intro l
  induction l with
  | nil =>
    intro k
    refine ⟨rfl, rfl, rfl, fun o => ⟨rfl, rfl, fun h => ?_⟩⟩
    rcases h with h | h
    · cases h
    · exact h
  | cons x l ih =>
    intro k
    simp only [List.foldl_cons]
    obtain ⟨h1, h2, h3, h4⟩ :=
      ih (k.setOp x { k.op x with predecessors := [], successors := [] })
    refine ⟨h1, h2, h3, fun o => ?_⟩
    obtain ⟨a, b, c⟩ := h4 o
    refine ⟨?_, ?_, ?_⟩
    · rw [a]
      simp only [GraphObj.setOp]
      split_ifs with e
      · rw [e]
      · rfl
    · rw [b]
      simp only [GraphObj.setOp]
      split_ifs with e
      · rw [e]
      · rfl
    · intro hk
      apply c
      by_cases e : o = x
      · right
        simp [GraphObj.setOp, e]
      · rcases hk with hk | hk
        · rcases List.mem_cons.1 hk with e2 | e2
          · exact absurd e2 e
          · exact Or.inl e2
        · right
          simp only [GraphObj.setOp, if_neg e]
          exact hk

theorem rebuildInv_clearEdges (h : GraphObj) : h.RebuildInv h.clearEdges [] [] := by
  unfold GraphObj.clearEdges
  simp only
  obtain ⟨a1, a2, a3, a4⟩ := clearTensors_spec h.tensors h
  generalize h.tensors.foldl
    (fun h t => h.setTensor t { h.tensor t with targets := [], source := none }) h = k1
    at a1 a2 a3 a4 ⊢
  obtain ⟨b1, b2, b3, b4⟩ := clearOps_spec k1.ops k1
  generalize k1.ops.foldl
    (fun h o => h.setOp o { h.op o with predecessors := [], successors := [] }) k1 = k2
    at b1 b2 b3 b4 ⊢
  exact
    { ops_eq := b1.trans a1
      tensors_eq := b2.trans a2
      inputs_eq := fun o => by rw [(b4 o).1, a3]
      outputs_eq := fun o => by rw [(b4 o).2.1, a3]
      fuid_eq := fun t => by rw [b3]; exact (a4 t).1
      targets_sub := by
        intro t ht o ho
        rw [b3, ((a4 t).2.1 ht).1] at ho
        cases ho
      source_sub := by
        intro t ht p hp
        rw [b3, ((a4 t).2.1 ht).2] at hp
        cases hp
      edges := by
        intro o ho
        have := (b4 o).2.2 (Or.inl (a1 ▸ ho))
        rw [this.1, this.2]
        exact ⟨fun p hp => absurd hp (List.not_mem_nil _),
          fun p hp => absurd hp (List.not_mem_nil _)⟩
      targets_ne := fun t ht => absurd ht (List.not_mem_nil _)
      source_ne := fun t ht => absurd ht (List.not_mem_nil _) }

theorem checkValid_of_rebuildInv {h k : GraphObj} {nT nS : List TensorId}
    (hi : h.RebuildInv k nT nS)
    (hin : ∀ o ∈ h.ops, ∀ t ∈ (h.op o).inputs, t ∈ h.tensors)
    (hout : ∀ o ∈ h.ops, ∀ t ∈ (h.op o).outputs, t ∈ h.tensors)
    (href : ∀ t ∈ h.tensors, ∃ o ∈ h.ops, t ∈ (h.op o).inputs ∨ t ∈ (h.op o).outputs)
    (hfu : (h.tensors.map (fun t => (h.tensor t).fuid)).Nodup)
    (hcov : ∀ o ∈ h.ops, (∀ t ∈ (h.op o).inputs, t ∈ nT) ∧ (∀ t ∈ (h.op o).outputs, t ∈ nS))
    (k2 : GraphObj) (hT : k2.tensors = k.tensors) (hten : k2.tensor = k.tensor)
    (hop : k2.op = k.op) (hperm : k2.ops.Perm k.ops) :
    k2.checkValid = true := by
  have hmem : ∀ o, o ∈ k2.ops ↔ o ∈ h.ops := by
    intro o
    rw [← hi.ops_eq]
    exact hperm.mem_iff
  apply (checkValid_iff k2).2
  rw [hT, hten, hop, hi.tensors_eq]
  refine ⟨?_, ?_, ?_⟩
  · intro t ht
    refine ⟨?_, fun o ho => (hmem o).2 (hi.targets_sub t ht o ho),
      fun o ho => (hmem o).2 (hi.source_sub t ht o ho).1⟩
    rintro ⟨e1, e2⟩
    obtain ⟨o, ho, hio⟩ := href t ht
    rcases hio with hio | hio
    · exact hi.targets_ne t ((hcov o ho).1 t hio) e1
    · exact hi.source_ne t ((hcov o ho).2 t hio) e2
  · intro o ho
    have ho2 := (hmem o).1 ho
    rw [hi.inputs_eq, hi.outputs_eq]
    exact ⟨hin o ho2, hout o ho2,
      fun p hp => (hmem p).2 ((hi.edges o ho2).1 p hp),
      fun p hp => (hmem p).2 ((hi.edges o ho2).2 p hp)⟩
  · have : (h.tensors.map (fun t => (k.tensor t).fuid)) =
        (h.tensors.map (fun t => (h.tensor t).fuid)) :=
      List.map_congr_left (fun t _ => hi.fuid_eq t)
    rw [this]
    exact hfu

theorem topo_sort_of_ranked (g : GraphObj) (hs : g.sorted = false) (hnd : g.ops.Nodup)
    (hsrc : ∀ o ∈ g.ops, ∀ t ∈ (g.op o).inputs, ∀ p,
      (g.tensor t).source = some p → p ∈ g.ops)
    (rank : OpId → Nat) (hr : ∀ p o, g.feeds p o → rank p < rank o) :
    g.topo_sort.1 = some true := by
  have hlt : ∀ a b, Relation.TransGen g.feeds a b → rank a < rank b := by
    intro a b hab
    induction hab with
    | single h => exact hr _ _ h
    | tail _ h ih => exact Nat.lt_trans ih (hr _ _ h)
  unfold GraphObj.topo_sort
  simp only [hs, Bool.false_eq_true, if_false]
  rcases topoLoop_spec g (g.ops.length + 1) [] [] (topoInv_nil g) (by simp) with
    ⟨s, f, hd, hi, hlen⟩ | ⟨hst, s, f, hi, hlt2, hnr⟩
  · rw [hd]
  · obtain ⟨o, ho⟩ := topo_stuck_cycle g hnd hsrc s f hi hlt2 hnr
    exact absurd (hlt o o ho) (Nat.lt_irrefl _)

theorem rank_of_ordered {g : GraphObj} (hnd : g.ops.Nodup) (hord : g.TopoOrdered g.ops) :
    ∀ o ∈ g.ops, ∀ t ∈ (g.op o).inputs, ∀ p,
      (g.tensor t).source = some p → g.ops.indexOf p < g.ops.indexOf o := by
  intro o ho t ht p hp
  obtain ⟨l1, l2, hl⟩ := List.append_of_mem ho
  have hp1 : p ∈ l1 := hord l1 o l2 hl t ht p hp
  have ho1 : o ∉ l1 := by
    rw [hl] at hnd
    intro hmem
    exact (List.nodup_append.1 hnd).2.2 hmem (List.mem_cons_self _ _)
  rw [hl, List.indexOf_append_of_mem hp1, List.indexOf_append_of_not_mem ho1,
    List.indexOf_cons_self, Nat.add_zero]
  exact List.indexOf_lt_length.2 hp1

theorem topo_sort_ordered (g : GraphObj) (hflag : g.sorted = true → g.TopoOrdered g.ops)
    (hsort : g.topo_sort.1 = some true) : g.topo_sort.2.TopoOrdered g.topo_sort.2.ops := by
  unfold GraphObj.topo_sort at hsort ⊢
  split_ifs at hsort ⊢ with hs
  · exact hflag hs
  · rcases topoLoop_spec g (g.ops.length + 1) [] [] (topoInv_nil g) (by simp) with
      ⟨s, f, hd, hi, hlen⟩ | ⟨hst, -⟩
    · rw [hd]
      exact hi.ordered
    · rw [hst] at hsort
      cases hsort

theorem checkValid_congr {k k2 : GraphObj} (hT : k2.tensors = k.tensors)
    (hten : k2.tensor = k.tensor) (hop : k2.op = k.op) (hmem : ∀ o, o ∈ k2.ops ↔ o ∈ k.ops)
    (hv : k.checkValid = true) : k2.checkValid = true := by
  obtain ⟨h1, h2, h3⟩ := (checkValid_iff k).1 hv
  apply (checkValid_iff k2).2
  rw [hT, hten, hop]
  refine ⟨?_, ?_, h3⟩
  · intro t ht
    obtain ⟨a, b, c⟩ := h1 t ht
    exact ⟨a, fun o ho => (hmem o).2 (b o ho), fun o ho => (hmem o).2 (c o ho)⟩
  · intro o ho
    obtain ⟨a, b, c, d⟩ := h2 o ((hmem o).1 ho)
    exact ⟨a, b, fun p hp => (hmem p).2 (c p hp), fun p hp => (hmem p).2 (d p hp)⟩

theorem wellFormed_congr {k k2 : GraphObj} (hten : k2.tensor = k.tensor) (hop : k2.op = k.op)
    (hperm : k2.ops.Perm k.ops) (hw : k.WellFormed) : k2.WellFormed where
  nodup := hperm.nodup_iff.2 hw.nodup
  src_out := by
    intro o ho
    rw [hten, hop]
    exact hw.src_out o (hperm.subset ho)
  arity_tr := by
    intro o ho
    rw [hop]
    exact hw.arity_tr o (hperm.subset ho)
  arity_mm := by
    intro o ho
    rw [hop]
    exact hw.arity_mm o (hperm.subset ho)

theorem rewriteInv_start {g : GraphObj} (hvalid : g.checkValid = true) (hnd : g.ops.Nodup)
    (hord : g.TopoOrdered g.ops) : g.RewriteInv g (fun o => g.ops.indexOf o) where
  tensor_eq := rfl
  tensors_eq := rfl
  ops_sub := List.Sublist.refl _
  outputs_eq := fun _ => rfl
  type_eq := fun _ => rfl
  len_eq := fun _ => rfl
  inputs_mem := fun o ho => (((checkValid_iff g).1 hvalid).2.1 o ho).1
  ranked := rank_of_ordered hnd hord

theorem cleanup_rebuild_valid {g h : GraphObj} {rank : OpId → Nat}
    (hvalid : g.checkValid = true) (hw : g.WellFormed) (hi : g.RewriteInv h rank) :
    ({ h.removeUnreferenced.rebuildEdges with sorted := false } : GraphObj).topo_sort.1 =
        some true ∧
    ({ h.removeUnreferenced.rebuildEdges with sorted := false } :
        GraphObj).topo_sort.2.checkValid = true := by
  obtain ⟨hvT, hvO, hvF⟩ := (checkValid_iff g).1 hvalid
  have hops2 : h.removeUnreferenced.ops = h.ops := rfl
  have hop2 : h.removeUnreferenced.op = h.op := rfl
  have hten2 : h.removeUnreferenced.tensor = h.tensor := rfl
  have hmemT : ∀ t, t ∈ h.removeUnreferenced.tensors ↔
      t ∈ g.tensors ∧ ∃ o ∈ h.ops, t ∈ (h.op o).inputs ∨ t ∈ (h.op o).outputs := by
    intro t
    unfold GraphObj.removeUnreferenced
    simp [hi.tensors_eq]
  have hsubT : h.removeUnreferenced.tensors.Sublist g.tensors := by
    unfold GraphObj.removeUnreferenced
    simp only [hi.tensors_eq]
    exact List.filter_sublist _
  generalize h.removeUnreferenced = h2 at hops2 hop2 hten2 hmemT hsubT ⊢
  have hin2 : ∀ o ∈ h2.ops, ∀ t ∈ (h2.op o).inputs, t ∈ h2.tensors := by
    intro o ho t ht
    rw [hops2] at ho
    rw [hop2] at ht
    exact (hmemT t).2 ⟨hi.inputs_mem o (hi.ops_sub.subset ho) t ht, o, ho, Or.inl ht⟩
  have hout2 : ∀ o ∈ h2.ops, ∀ t ∈ (h2.op o).outputs, t ∈ h2.tensors := by
    intro o ho t ht
    rw [hops2] at ho
    rw [hop2] at ht
    refine (hmemT t).2 ⟨?_, o, ho, Or.inr ht⟩
    rw [hi.outputs_eq] at ht
    exact (hvO o (hi.ops_sub.subset ho)).2.1 t ht
  have href : ∀ t ∈ h2.tensors, ∃ o ∈ h2.ops, t ∈ (h2.op o).inputs ∨ t ∈ (h2.op o).outputs := by
    intro t ht
    rw [hops2, hop2]
    exact ((hmemT t).1 ht).2
  have hfu : (h2.tensors.map (fun t => (h2.tensor t).fuid)).Nodup := by
    rw [hten2, hi.tensor_eq]
    exact hvF.sublist (hsubT.map _)
  obtain ⟨nT, nS, hri, -, -, hcov⟩ := rebuildInv_ops hin2 h2.clearEdges.ops h2.clearEdges [] []
    (by
      intro o ho
      rw [(rebuildInv_clearEdges h2).ops_eq] at ho
      exact ho)
    (rebuildInv_clearEdges h2)
  rw [(rebuildInv_clearEdges h2).ops_eq] at hcov
  have hk : h2.rebuildEdges =
      h2.clearEdges.ops.foldl (fun h o => h.connectOp o) h2.clearEdges := rfl
  rw [← hk] at hri
  generalize h2.rebuildEdges = k at hri ⊢
  have hnd : k.ops.Nodup := by
    rw [hri.ops_eq, hops2]
    exact hw.nodup.sublist hi.ops_sub
  have hsort : ({ k with sorted := false } : GraphObj).topo_sort.1 = some true := by
    refine topo_sort_of_ranked ({ k with sorted := false } : GraphObj) rfl hnd ?_ rank ?_
    rotate_left
    · rintro p o ⟨hp, ho, t, ht, hs⟩
      simp only at hp ho ht hs
      rw [hri.ops_eq] at ho
      rw [hri.inputs_eq] at ht
      obtain ⟨hp2, hto⟩ := hri.source_sub t (hin2 o ho t ht) p hs
      rw [hops2] at ho hp2
      rw [hop2] at ht hto
      rw [hi.outputs_eq] at hto
      have hpg := hi.ops_sub.subset hp2
      exact hi.ranked o (hi.ops_sub.subset ho) t ht p (hw.src_out p hpg t hto)
    · intro o ho t ht p hs
      simp only at ho ht hs ⊢
      rw [hri.ops_eq] at ho ⊢
      rw [hri.inputs_eq] at ht
      exact (hri.source_sub t (hin2 o ho t ht) p hs).1
  refine ⟨hsort, ?_⟩
  obtain ⟨a1, a2, a3, -⟩ := topo_sort_heap ({ k with sorted := false } : GraphObj)
  exact checkValid_of_rebuildInv hri hin2 hout2 href hfu hcov _ a1 a2 a3
    (topo_sort_perm ({ k with sorted := false } : GraphObj))

set_option maxRecDepth 100000 in
/-- C11, counterexample. The graph `lateSource` passes `checkValid` and `topo_sort`, its
tensor `t0` recording no source although `op11` lists it as output. No rule of
`optimize` applies; the edge rebuild makes `op11` the source of `t0`, which closes a
cycle with `op10`, and the final `topo_sort` assertion fails, whatever the bound on the
rewrite loop. -/
theorem optimize_fails_on_late_source :
    lateSource.checkValid = true ∧ lateSource.topo_sort.1 = some true ∧
    ∀ n : Nat, (lateSource.optimize (n + 1)).failed = true :=
  ⟨by decide, by decide, fun _ => rfl⟩

theorem optimize_ok_valid (g : GraphObj) (hvalid : g.checkValid = true)
    (hw : g.WellFormed) (hflag : g.sorted = true → g.TopoOrdered g.ops)
    (hsort : g.topo_sort.1 = some true) :
    ∃ N, ∀ fuel, N ≤ fuel → ∃ g2, g.optimize fuel = .ok g2 ∧ g2.checkValid = true := by
  have hts : g.topo_sort = (some true, g.topo_sort.2) := by rw [← hsort]
  obtain ⟨hT, hten, hop, -⟩ := topo_sort_heap g
  have hperm := topo_sort_perm g
  have hord := topo_sort_ordered g hflag hsort
  have hopt : ∀ fuel, g.optimize fuel =
      match g.topo_sort.2.rewriteLoop fuel with
      | .ok g2 =>
        match ({ g2.removeUnreferenced.rebuildEdges with sorted := false } :
            GraphObj).topo_sort with
        | (some true, g4) => .ok g4
        | (some false, _) => .assertFail
        | (none, _) => .outOfFuel
      | .assertFail => .assertFail
      | .outOfFuel => .outOfFuel := by
    intro fuel
    unfold GraphObj.optimize
    rw [hts]
  generalize g.topo_sort.2 = g1 at hT hten hop hperm hord hopt
  have hv1 : g1.checkValid = true :=
    checkValid_congr hT hten hop (fun o => hperm.mem_iff) hvalid
  have hw1 : g1.WellFormed := wellFormed_congr hten hop hperm hw
  have hi0 := rewriteInv_start hv1 hw1.nodup hord
  refine ⟨g1.ops.length + g1.inputWeight g1 (fun o => g1.ops.indexOf o) g1.ops + 1, ?_⟩
  intro fuel hfuel
  obtain ⟨h, hloop, hi⟩ := rewriteLoop_spec hv1 hw1 fuel g1 hi0 (by omega)
  obtain ⟨hs2, hv2⟩ := cleanup_rebuild_valid hv1 hw1 hi
  have hts2 : ({ h.removeUnreferenced.rebuildEdges with sorted := false } :
      GraphObj).topo_sort = (some true,
        ({ h.removeUnreferenced.rebuildEdges with sorted := false } :
          GraphObj).topo_sort.2) := by
    rw [← hs2]
  refine ⟨_, ?_, hv2⟩
  rw [hopt fuel, hloop]
  simp only
  rw [hts2]

/-- C11, amended. The caller keeps the handles of the operators it created, so that an
operator erased from the op list is not destroyed and the source and target references
of the tensors still reach it (the heap of this development). Take a graph on which
`checkValid` holds and `topo_sort` returns `true`, whose op list holds distinct
operators, each output of an operator having that operator as its source, every
`Transpose` with one input and one output, every `MatMul` with two inputs, and whose op
list is in topological order if the `sorted` flag is set. Then `optimize` returns (the
rewrite loop ends within a bound `N` on its iterations and the final `topo_sort`
assertion holds) and `checkValid` holds of the graph it leaves. -/
theorem optimize_keeps_valid (g : GraphObj) (hvalid : g.checkValid = true)
    (hw : g.WellFormed) (hflag : g.sorted = true → g.TopoOrdered g.ops)
    (hsort : g.topo_sort.1 = some true) :
    ∃ N, ∀ fuel, N ≤ fuel → ∃ g2, g.optimize fuel = .ok g2 ∧ g2.checkValid = true :=
  optimize_ok_valid g hvalid hw hflag hsort

set_option maxRecDepth 100000 in
theorem optimize_keeps_valid_witness :
    aliasGraph.checkValid = true ∧ aliasGraph.WellFormed ∧
    (aliasGraph.sorted = true → aliasGraph.TopoOrdered aliasGraph.ops) ∧
    aliasGraph.topo_sort.1 = some true ∧
    ∃ N, ∀ fuel, N ≤ fuel →
      ∃ g2, aliasGraph.optimize fuel = .ok g2 ∧ g2.checkValid = true :=
  have hw : aliasGraph.WellFormed := ⟨by decide, by decide, by decide, by decide⟩
  have hflag : aliasGraph.sorted = true → aliasGraph.TopoOrdered aliasGraph.ops :=
    fun h => absurd h (by decide)
  ⟨by decide, hw, hflag, by decide,
    optimize_keeps_valid aliasGraph (by decide) hw hflag (by decide)⟩

/-! ## Rule 2 of `optimize` -/

theorem matmul_swap_left (T X Y : Shape) (transA transB : Bool) (h1 : T.length = X.length)
    (h2 : T.take (X.length - 2) = X.take (X.length - 2))
    (h3 : T.getD (X.length - 2) 0 = X.getD (X.length - 1) 0)
    (h4 : T.getD (X.length - 1) 0 = X.getD (X.length - 2) 0) :
    MatmulObj.inferShape transA transB [T, Y] =
      MatmulObj.inferShape (!transA) transB [X, Y] := by
  simp only [MatmulObj.inferShape, h1, h2, h3, h4]
  cases transA <;> rfl

theorem matmul_swap_right (T X Y : Shape) (transA transB : Bool) (h1 : T.length = X.length)
    (h2 : T.take (X.length - 2) = X.take (X.length - 2))
    (h3 : T.getD (X.length - 2) 0 = X.getD (X.length - 1) 0)
    (h4 : T.getD (X.length - 1) 0 = X.getD (X.length - 2) 0) :
    MatmulObj.inferShape transA transB [Y, T] =
      MatmulObj.inferShape transA (!transB) [Y, X] := by
  simp only [MatmulObj.inferShape, h1, h2, h3, h4]
  cases transB <;> rfl

theorem swapLast2_entries {perm : List Int} (h : isSwapLast2Permute perm = true) :
    2 ≤ perm.length ∧ (∀ i, i < perm.length - 2 → perm.getD i 0 = (i : Int)) ∧
    perm.getD (perm.length - 2) 0 = ((perm.length - 1 : Nat) : Int) ∧
    perm.getD (perm.length - 1) 0 = ((perm.length - 2 : Nat) : Int) := by
  unfold isSwapLast2Permute at h
  simp only at h
  split_ifs at h with hr
  simp only [Bool.and_eq_true, List.all_eq_true, List.mem_range, beq_iff_eq] at h
  exact ⟨by omega, h.1, h.2.1, h.2.2⟩

theorem swapLast2_isPermutationOf {perm : List Int} (h : isSwapLast2Permute perm = true) :
    IsPermutationOf perm perm.length := by
  obtain ⟨hr, h1, h2, h3⟩ := swapLast2_entries h
  have hval : ∀ i, i < perm.length →
      (i < perm.length - 2 ∧ perm.getD i 0 = (i : Int)) ∨
      (i = perm.length - 2 ∧ perm.getD i 0 = ((perm.length - 1 : Nat) : Int)) ∨
      (i = perm.length - 1 ∧ perm.getD i 0 = ((perm.length - 2 : Nat) : Int)) := by
    intro i hi
    by_cases c1 : i < perm.length - 2
    · exact Or.inl ⟨c1, h1 i c1⟩
    · by_cases c2 : i = perm.length - 2
      · exact Or.inr (Or.inl ⟨c2, by rw [c2]; exact h2⟩)
      · have c3 : i = perm.length - 1 := by omega
        exact Or.inr (Or.inr ⟨c3, by rw [c3]; exact h3⟩)
  rw [isPermutationOf_iff]
  refine ⟨rfl, ?_, ?_⟩
  · intro x hx
    obtain ⟨i, hi, hget⟩ := List.getElem_of_mem hx
    have hd : perm.getD i 0 = x := by rw [List.getD_eq_getElem _ _ hi, hget]
    rcases hval i hi with ⟨_, e⟩ | ⟨_, e⟩ | ⟨_, e⟩ <;> rw [hd] at e <;> omega
  · rw [List.nodup_iff_getElem?_ne_getElem?]
    intro i j hij hj heq
    have hi : i < perm.length := by omega
    rw [List.getElem?_eq_getElem hi, List.getElem?_eq_getElem hj] at heq
    have e1 : perm.getD i 0 = perm.getD j 0 := by
      rw [List.getD_eq_getElem _ _ hi, List.getD_eq_getElem _ _ hj]
      exact Option.some.inj heq
    rcases hval i hi with ⟨a, e⟩ | ⟨a, e⟩ | ⟨a, e⟩ <;>
      rcases hval j hj with ⟨b, f⟩ | ⟨b, f⟩ | ⟨b, f⟩ <;> rw [e1, f] at e <;> omega

theorem swapLast2_transpose (perm : List Int) (X : Shape)
    (hsw : isSwapLast2Permute perm = true) (hlen : perm.length = X.length) :
    ∃ T, TransposeObj.inferShape perm [X] = some [T] ∧ T.length = X.length ∧
      T.take (X.length - 2) = X.take (X.length - 2) ∧
      T.getD (X.length - 2) 0 = X.getD (X.length - 1) 0 ∧
      T.getD (X.length - 1) 0 = X.getD (X.length - 2) 0 := by
  obtain ⟨hr, h1, h2, h3⟩ := swapLast2_entries hsw
  have hp := swapLast2_isPermutationOf hsw
  rw [hlen] at hp hr h1 h2 h3
  have hT : ∀ i, i < X.length →
      ((List.range X.length).map (fun i => X.getD (perm.getD i 0).toNat 0)).getD i 0 =
        X.getD (perm.getD i 0).toNat 0 := by
    intro i hi
    rw [List.getD_eq_getElem _ _ (by simpa using hi)]
    simp
  refine ⟨_, transpose_inferShape_eq perm X hp, by simp, ?_, ?_, ?_⟩
  · apply List.ext_getElem
    · simp
    · intro i hi1 hi2
      have hi : i < X.length - 2 := by
        simp only [List.length_take] at hi2
        omega
      rw [List.getElem_take, List.getElem_take]
      have := hT i (by omega)
      rw [List.getD_eq_getElem _ _ (by simp; omega), h1 i hi, Int.toNat_ofNat] at this
      rw [this]
      exact List.getD_eq_getElem X 0 (by omega)
  · rw [hT _ (by omega), h2, Int.toNat_ofNat]
  · rw [hT _ (by omega), h3, Int.toNat_ofNat]

theorem rule2Slot_fires {g : GraphObj} {mm src : OpId} {inputIdx : Nat}
    (rem : List OpId) (ch : Bool)
    (hs : (g.tensor ((g.op mm).getInput inputIdx)).source = some src)
    (hty : (g.op src).type = .Transpose)
    (hout : (g.op src).getOutput = (g.op mm).getInput inputIdx)
    (hsw : isSwapLast2Permute (g.op src).transposePermute = true) :
    GraphObj.rule2Slot (g, rem, ch) mm inputIdx =
      (g.setOp mm
        (if inputIdx = 0 then
          { (g.op mm).replaceInput ((g.op mm).getInput inputIdx) ((g.op src).getInput 0) with
            transA := !(g.op mm).transA }
        else
          { (g.op mm).replaceInput ((g.op mm).getInput inputIdx) ((g.op src).getInput 0) with
            transB := !(g.op mm).transB }), src :: rem, true) := by
  simp only [GraphObj.rule2Slot, hs, hty, hout, hsw]
  simp only [ne_eq, not_true_eq_false, if_false, Bool.not_true, Bool.false_eq_true]
  rfl

set_option maxRecDepth 100000 in
/-- C21. For a swap-last-two permute of the rank of a shape `X` (so of rank at least 2),
`Transpose` maps `X` to a shape `T`, and for every shape `Y` and all flags
`MatMul.inferShape` on `(T, Y)` with `(transA, transB)` equals the one on `(X, Y)` with
`(not transA, transB)`, and on `(Y, T)` with `(transA, transB)` the one on `(Y, X)` with
`(transA, not transB)`: same failure cases, same output shape, same cached `(m, n, k)`.
When the tests of Rule 2 pass on an input slot of a `MatMul`, the rewrite replaces the
slot's tensor by the input of the transpose, toggles the flag of that slot and marks the
transpose for removal. On `A -> Transpose([0,2,1]) -> T`, `MatMul(T, B)`, `optimize`
leaves `MatMul(A, B)` with `transA` set, and `shape_infer` gives the same shape and
`(m, n, k)` before and after. -/
theorem rule2_fusion_shape (perm : List Int) (X Y : Shape) (transA transB : Bool)
    (hsw : isSwapLast2Permute perm = true) (hlen : perm.length = X.length) :
    2 ≤ X.length ∧
    (∃ T, TransposeObj.inferShape perm [X] = some [T] ∧
      MatmulObj.inferShape transA transB [T, Y] =
        MatmulObj.inferShape (!transA) transB [X, Y] ∧
      MatmulObj.inferShape transA transB [Y, T] =
        MatmulObj.inferShape transA (!transB) [Y, X]) ∧
    (∀ (g : GraphObj) (mm src : OpId) (inputIdx : Nat) (rem : List OpId) (ch : Bool),
      (g.tensor ((g.op mm).getInput inputIdx)).source = some src →
      (g.op src).type = .Transpose →
      (g.op src).getOutput = (g.op mm).getInput inputIdx →
      (g.op src).transposePermute = perm →
      ((GraphObj.rule2Slot (g, rem, ch) mm inputIdx).1.op mm).inputs =
        (g.op mm).inputs.map
          (fun t => if t = (g.op mm).getInput inputIdx then (g.op src).getInput 0 else t) ∧
      ((GraphObj.rule2Slot (g, rem, ch) mm inputIdx).1.op mm).transA =
        (if inputIdx = 0 then !(g.op mm).transA else (g.op mm).transA) ∧
      ((GraphObj.rule2Slot (g, rem, ch) mm inputIdx).1.op mm).transB =
        (if inputIdx = 0 then (g.op mm).transB else !(g.op mm).transB) ∧
      (GraphObj.rule2Slot (g, rem, ch) mm inputIdx).2 = (src :: rem, true)) ∧
    fuseGraph.shape_infer.map (fun g => ((g.tensor 3).shape, (g.op 11).mnk)) =
      some ([2, 4, 5], (4, 5, 3)) ∧
    (fuseGraph.optimize 3).toOption.map
        (fun g => (g.ops, (g.op 11).inputs, (g.op 11).transA, (g.op 11).transB)) =
      some ([11], [0, 2], true, false) ∧
    (fuseGraph.optimize 3).toOption.bind
        (fun g => g.shape_infer.map (fun h => ((h.tensor 3).shape, (h.op 11).mnk))) =
      some ([2, 4, 5], (4, 5, 3)) := by
  obtain ⟨T, hT, h1, h2, h3, h4⟩ := swapLast2_transpose perm X hsw hlen
  refine ⟨?_, ⟨T, hT, matmul_swap_left T X Y transA transB h1 h2 h3 h4,
    matmul_swap_right T X Y transA transB h1 h2 h3 h4⟩, ?_, by decide, by decide,
    by decide⟩
  · rw [← hlen]
    exact (swapLast2_entries hsw).1
  · intro g mm src inputIdx rem ch hs hty hout hperm
    rw [rule2Slot_fires rem ch hs hty hout (by rw [hperm]; exact hsw)]
    by_cases h0 : inputIdx = 0
    · simp [GraphObj.setOp, OperatorObj.replaceInput, h0]
    · simp [GraphObj.setOp, OperatorObj.replaceInput, h0]

set_option maxRecDepth 100000 in
theorem rule2_fusion_shape_witness :
    isSwapLast2Permute [0, 2, 1] = true ∧ ([0, 2, 1] : List Int).length = [2, 3, 4].length ∧
    2 ≤ ([2, 3, 4] : Shape).length ∧
    (∃ T, TransposeObj.inferShape [0, 2, 1] [[2, 3, 4]] = some [T] ∧
      MatmulObj.inferShape false false [T, [2, 3, 5]] =
        MatmulObj.inferShape (!false) false [[2, 3, 4], [2, 3, 5]] ∧
      MatmulObj.inferShape false false [[2, 3, 5], T] =
        MatmulObj.inferShape false (!false) [[2, 3, 5], [2, 3, 4]]) :=
  have h := rule2_fusion_shape [0, 2, 1] [2, 3, 4] [2, 3, 5] false false (by decide)
    (by decide)
  ⟨by decide, by decide, h.1, h.2.1⟩

theorem rewriteLoop_iter (fuel : Nat) (g : GraphObj) :
    g.rewriteLoop (fuel + 1) =
      if g.rewriteIter.2 = true then GraphObj.rewriteLoop fuel g.rewriteIter.1
      else .ok g.rewriteIter.1 := by
  conv_lhs => rw [GraphObj.rewriteLoop]
  unfold GraphObj.rewriteIter
  cases g.rule1 g.ops with
  | some g1 => rfl
  | none => rfl

set_option maxRecDepth 100000 in
/-- C22. In the sorted valid graph `sharedTranspose` the transpose `op10` produces `y`,
read by the `MatMul` `op11` and by the `Concat` `op12`. `optimize` fuses `op10` into
`op11` and erases it; `op12` stays and still reads `y`, which is left without source:
an intermediate tensor has become a graph input. -/
theorem optimize_orphans_shared_transpose :
    sharedTranspose.checkValid = true ∧ sharedTranspose.sorted = true ∧
    (sharedTranspose.tensor 1).source = some 10 ∧ (sharedTranspose.op 12).inputs = [1] ∧
    (sharedTranspose.optimize 4).toOption.map
        (fun g => (g.ops, g.tensors, (g.op 11).inputs, (g.op 11).transA)) =
      some ([11, 12], [0, 1, 2, 3, 4], [0, 2], true) ∧
    (sharedTranspose.optimize 4).toOption.map
        (fun g => ((g.op 12).inputs, (g.tensor 1).source)) = some ([1], none) := by
  decide

set_option maxRecDepth 100000 in
/-- C23. On the valid acyclic chain `rewiredPair` of four transposes `optimize` returns
the op list `[op10, op13]`, where the output of `op10` has `op13` as its only consumer,
a transpose reading it with the inverse permute: rule 1 is applicable to the result (the
next iteration of the loop on it would fire, and a second `optimize` erases both). -/
theorem optimize_leaves_inverse_pair :
    rewiredPair.checkValid = true ∧ rewiredPair.topo_sort.1 = some true ∧
    (rewiredPair.optimize 4).toOption.map
        (fun g => (g.ops, (g.op 10).outputs, (g.tensor 1).targets, (g.op 13).inputs,
          decide (g.Rule1Pair 10 13), g.rewriteIter.2)) =
      some ([10, 13], [1], [13], [1], true, true) ∧
    (rewiredPair.optimize 4).toOption.bind
        (fun g => (g.optimize 4).toOption.map (fun h => h.ops)) = some [] := by
  decide

set_option maxRecDepth 100000 in
/-- C24. On the valid acyclic graph `chainedFusion`, sorted, the first iteration of the
rewrite loop fuses both transposes and leaves the op list `[op11, op13]`; the second
iteration fires again (rule 2 on `op13`, whose input `y` still names the erased `op10`
as its source) and leaves the op list as it was. Each call of `rewriteLoop` with fuel
left performs one such iteration. -/
theorem rule2_fires_without_removal :
    chainedFusion.checkValid = true ∧ chainedFusion.topo_sort.1 = some true ∧
    chainedFusion.topo_sort.2.ops = [10, 11, 12, 13] ∧
    chainedFusion.topo_sort.2.rewriteIter.2 = true ∧
    chainedFusion.topo_sort.2.rewriteIter.1.ops = [11, 13] ∧
    chainedFusion.topo_sort.2.rewriteIter.1.rewriteIter.2 = true ∧
    chainedFusion.topo_sort.2.rewriteIter.1.rewriteIter.1.ops = [11, 13] ∧
    (chainedFusion.topo_sort.2.rewriteIter.1.op 13).inputs = [1, 5] ∧
    (chainedFusion.topo_sort.2.rewriteIter.1.rewriteIter.1.op 13).inputs = [0, 5] ∧
    chainedFusion.topo_sort.2.rewriteIter.1.rewriteIter.1.rewriteIter.2 = false ∧
    ∀ (fuel : Nat) (g : GraphObj), g.rewriteLoop (fuel + 1) =
      if g.rewriteIter.2 = true then GraphObj.rewriteLoop fuel g.rewriteIter.1
      else .ok g.rewriteIter.1 :=
  ⟨by decide, by decide, by decide, by decide, by decide, by decide, by decide, by decide,
    by decide, by decide, rewriteLoop_iter⟩

/-- C25. On a fresh allocator the calls `alloc 8, alloc 8, alloc 8, free(8,8), alloc 0,
free(0,8), free(8,0), free(16,8)`, each `free` releasing a live block with its size, are
all accepted and leave the free map `(0,16), (8,0)` with `peak = 16`: the entry `(0,16)`
ends at `peak`, and nothing is live. -/
theorem free_entry_reaches_peak :
    Session.fresh.freesLive leakThenFree = true ∧
    Session.fresh.admissible leakThenFree = true ∧
    (Session.fresh.run leakThenFree).map (fun s => (s.a.freeBlocks, s.a.peak, s.a.used, s.live)) =
      some ([(0, 16), (8, 0)], 16, 0, []) := by
  decide

/-! ## Rule 1 across `optimize` -/

theorem foldl_ops_eq {α : Type} (f : GraphObj → α → GraphObj)
    (hf : ∀ k a, (f k a).ops = k.ops) :
    ∀ (l : List α) (k : GraphObj), (l.foldl f k).ops = k.ops := by
  intro l
  induction l with
  | nil => intro k; rfl
  | cons a l ih =>
    intro k
    rw [List.foldl_cons, ih, hf]

theorem connectInput_ops (k : GraphObj) (o : OpId) (t : TensorId) :
    (k.connectInput o t).ops = k.ops := by
  unfold GraphObj.connectInput
  simp only
  cases ((k.setTensor t ((k.tensor t).addTarget o)).tensor t).source <;> rfl

theorem connectOp_ops (k : GraphObj) (o : OpId) : (k.connectOp o).ops = k.ops := by
  unfold GraphObj.connectOp
  simp only
  refine (foldl_ops_eq _ ?_ _ _).trans (foldl_ops_eq _ ?_ _ _)
  · intro h t; rfl
  · intro h t; exact connectInput_ops h o t

theorem clearEdges_ops (k : GraphObj) : k.clearEdges.ops = k.ops := by
  unfold GraphObj.clearEdges
  simp only
  refine (foldl_ops_eq _ ?_ _ _).trans (foldl_ops_eq _ ?_ _ _)
  · intro h o; rfl
  · intro h t; rfl

theorem rebuildEdges_ops (k : GraphObj) : k.rebuildEdges.ops = k.ops := by
  unfold GraphObj.rebuildEdges
  simp only
  refine (foldl_ops_eq _ ?_ _ _).trans (clearEdges_ops k)
  intro h o
  exact connectOp_ops h o

theorem rule2Slot_ops (st : GraphObj × List OpId × Bool) (mm : OpId) (i : Nat) :
    (GraphObj.rule2Slot st mm i).1.ops = st.1.ops := by
  unfold GraphObj.rule2Slot
  simp only
  split
  · rfl
  · split_ifs <;> rfl

theorem rule2_ops (g : GraphObj) : g.rule2.1.ops = g.ops := by
  unfold GraphObj.rule2
  have key : ∀ (l : List OpId) (st : GraphObj × List OpId × Bool),
      (l.foldl
        (fun st o =>
          if (st.1.op o).type ≠ .MatMul then st
          else GraphObj.rule2Slot (GraphObj.rule2Slot st o 0) o 1) st).1.ops = st.1.ops := by
    intro l
    induction l with
    | nil => intro st; rfl
    | cons o l ih =>
      intro st
      rw [List.foldl_cons, ih]
      split_ifs
      · rfl
      · rw [rule2Slot_ops, rule2Slot_ops]
  exact key g.ops (g, [], false)

theorem rule1_ops {g g2 : GraphObj} {l : List OpId} (h : g.rule1 l = some g2) :
    ∃ op1 op2, g.Rule1Pair op1 op2 ∧ op1 ∈ l ∧
      g2.ops = (g.ops.filter (fun o => o != op1)).filter (fun o => o != op2) := by
  obtain ⟨op1, h1, op2, hp, g1, hg1, hg2⟩ := rule1_some l g2 h
  refine ⟨op1, op2, hp, h1, ?_⟩
  rw [hg2]
  simp only
  rw [hg1, (rewire_fold _ _ _ g).1]

theorem rewriteLoop_ops_subset :
    ∀ (fuel : Nat) (g h : GraphObj), g.rewriteLoop fuel = .ok h → ∀ o ∈ h.ops, o ∈ g.ops := by
  intro fuel
  induction fuel with
  | zero =>
    intro g h hr
    simp [GraphObj.rewriteLoop] at hr
  | succ n ih =>
    intro g h hr o ho
    rw [GraphObj.rewriteLoop] at hr
    cases h1 : g.rule1 g.ops with
    | some g1 =>
      rw [h1] at hr
      simp only at hr
      obtain ⟨op1, op2, -, -, hops⟩ := rule1_ops h1
      have := ih g1 h hr o ho
      rw [hops] at this
      exact (List.mem_filter.1 (List.mem_filter.1 this).1).1
    | none =>
      rw [h1] at hr
      simp only at hr
      have hsub : ∀ x ∈ (if g.rule2.2.1.isEmpty then g.rule2.1
          else { g.rule2.1 with
            ops := g.rule2.1.ops.filter (fun o => !(g.rule2.2.1.contains o)) } : GraphObj).ops,
          x ∈ g.ops := by
        intro x hx
        split_ifs at hx
        · rwa [rule2_ops] at hx
        · have := (List.mem_filter.1 hx).1
          rwa [rule2_ops] at this
      generalize (if g.rule2.2.1.isEmpty then g.rule2.1
          else { g.rule2.1 with
            ops := g.rule2.1.ops.filter (fun o => !(g.rule2.2.1.contains o)) } : GraphObj) = g2
        at hr hsub
      split_ifs at hr
      · exact hsub o (ih g2 h hr o ho)
      · cases hr
        exact hsub o ho

theorem optimize_ops_subset {g h : GraphObj} {fuel : Nat} (hs : g.sorted = true)
    (hr : g.optimize fuel = .ok h) :
    ∃ h2, g.rewriteLoop fuel = .ok h2 ∧ ∀ o ∈ h.ops, o ∈ h2.ops := by
  have hts : g.topo_sort = (some true, g) := by
    unfold GraphObj.topo_sort
    rw [if_pos hs]
  unfold GraphObj.optimize at hr
  rw [hts] at hr
  simp only at hr
  cases hl : g.rewriteLoop fuel with
  | ok h2 =>
    rw [hl] at hr
    simp only at hr
    refine ⟨h2, rfl, ?_⟩
    have hperm := topo_sort_perm
      ({ h2.removeUnreferenced.rebuildEdges with sorted := false } : GraphObj)
    generalize hk : ({ h2.removeUnreferenced.rebuildEdges with sorted := false } :
      GraphObj).topo_sort = r at hr hperm
    have hh : h = r.2 := by
      rcases r with ⟨_ | b, k⟩
      · cases hr
      · cases b
        · cases hr
        · simp only [Run.ok.injEq] at hr
          exact hr.symm
    intro o ho
    rw [hh] at ho
    have := hperm.subset ho
    simp only at this
    rwa [rebuildEdges_ops] at this
  | assertFail => rw [hl] at hr; cases hr
  | outOfFuel => rw [hl] at hr; cases hr

/-- C20, amended. Take a valid sorted graph and the first operator `T1` of its op list
that has the pattern of Rule 1 (a `Transpose` whose output has exactly one consumer `T2`,
a `Transpose` reading that output, the two permutes mutual inverses). Whenever `optimize`
returns, neither `T1` nor `T2` is in the op list it leaves; it does return, within a
bound on the iterations of its loop, when moreover the op list holds distinct operators
in topological order, each output has its operator as source, the arities are those of
the constructors, and the caller keeps the handles of the operators. The first iteration
of the loop, run on the graph as given, is the one that rewrites the pair: it erases `T1`
and `T2` and nothing else, every operator in the target list of the output of `T2` gets
the input of `T1` in each input slot where it had that output and keeps its other slots,
and the other operators are untouched. On
`x -> Transpose([1,0,2]) -> Transpose([1,0,2]) -> y`, `optimize` returns with two
operators fewer. -/
theorem rule1_removes_first_pair (g : GraphObj) (pre post : List OpId) (T1 T2 : OpId)
    (hvalid : g.checkValid = true) (hsorted : g.sorted = true)
    (hops : g.ops = pre ++ T1 :: post)
    (hpre : ∀ o ∈ pre, ∀ o2, ¬ g.InversePair o o2) (hpair : g.InversePair T1 T2) :
    (∀ fuel h, g.optimize fuel = .ok h → T1 ∉ h.ops ∧ T2 ∉ h.ops) ∧
    (g.WellFormed → g.TopoOrdered g.ops →
      ∃ N, ∀ fuel, N ≤ fuel → ∃ h, g.optimize fuel = .ok h ∧ T1 ∉ h.ops ∧ T2 ∉ h.ops) ∧
    (∃ g2 : GraphObj,
      g.topo_sort = (some true, g) ∧ g.rule1 g.ops = some g2 ∧
      (∀ fuel, g.rewriteLoop (fuel + 1) = g2.rewriteLoop fuel) ∧
      g2.ops = (g.ops.filter (fun o => o != T1)).filter (fun o => o != T2) ∧
      (∀ c ∈ (g.tensor (g.op T2).getOutput).targets, ∀ i : Nat,
        ((g.op c).inputs[i]? = some (g.op T2).getOutput →
          (g2.op c).inputs[i]? = some ((g.op T1).getInput 0)) ∧
        ((g.op c).inputs[i]? ≠ some (g.op T2).getOutput →
          (g2.op c).inputs[i]? = (g.op c).inputs[i]?)) ∧
      (∀ c, c ∉ (g.tensor (g.op T2).getOutput).targets → g2.op c = g.op c)) ∧
    (pairGraph.optimize 3).toOption.map (fun h => h.ops.length) =
      some (pairGraph.ops.length - 2) := by
  have hR : g.Rule1Pair T1 T2 := (inversePair_iff g T1 T2).1 hpair
  have hm := rule1Match_of_pair hR
  have hr : g.rule1 g.ops = g.rule1 (T1 :: post) := by
    rw [hops]
    exact rule1_skip g pre _ (fun o ho => rule1Match_none_of_no_pair
      (fun o2 h2 => hpre o ho o2 ((inversePair_iff g o o2).2 h2)))
  obtain ⟨h1, h2⟩ := rewire_fold (g.op T2).getOutput ((g.op T1).getInput 0)
    (g.tensor (g.op T2).getOutput).targets g
  have hr2 : g.rule1 g.ops = some
      { ((g.tensor (g.op T2).getOutput).targets.foldl
          (fun h consumer => h.setOp consumer
            ((h.op consumer).replaceInput (g.op T2).getOutput ((g.op T1).getInput 0))) g) with
        ops := (g.ops.filter (fun o => o != T1)).filter (fun o => o != T2) } := by
    rw [hr]
    simp only [GraphObj.rule1, hm, h1]
  generalize hg2 : ({ ((g.tensor (g.op T2).getOutput).targets.foldl
          (fun h consumer => h.setOp consumer
            ((h.op consumer).replaceInput (g.op T2).getOutput ((g.op T1).getInput 0))) g) with
        ops := (g.ops.filter (fun o => o != T1)).filter (fun o => o != T2) } : GraphObj) = g2
    at hr2
  have hops2 : g2.ops = (g.ops.filter (fun o => o != T1)).filter (fun o => o != T2) := by
    rw [← hg2]
  have hop2 : ∀ c, g2.op c = if c ∈ (g.tensor (g.op T2).getOutput).targets then
      (g.op c).replaceInput (g.op T2).getOutput ((g.op T1).getInput 0) else g.op c := by
    intro c
    rw [← hg2]
    exact h2 c
  have hstep : ∀ fuel, g.rewriteLoop (fuel + 1) = g2.rewriteLoop fuel := by
    intro fuel
    simp only [GraphObj.rewriteLoop, hr2]
  have hnot : ∀ o ∈ g2.ops, o ≠ T1 ∧ o ≠ T2 := by
    intro o ho
    rw [hops2] at ho
    obtain ⟨ha, hb⟩ := List.mem_filter.1 ho
    obtain ⟨-, hc⟩ := List.mem_filter.1 ha
    exact ⟨by simpa using hc, by simpa using hb⟩
  have hgone : ∀ fuel h, g.optimize fuel = .ok h → T1 ∉ h.ops ∧ T2 ∉ h.ops := by
    intro fuel h hopt
    obtain ⟨h3, hl, hsub⟩ := optimize_ops_subset hsorted hopt
    cases fuel with
    | zero => simp [GraphObj.rewriteLoop] at hl
    | succ n =>
      rw [hstep n] at hl
      have hs2 := rewriteLoop_ops_subset n g2 h3 hl
      exact ⟨fun hx => (hnot T1 (hs2 T1 (hsub T1 hx))).1 rfl,
        fun hx => (hnot T2 (hs2 T2 (hsub T2 hx))).2 rfl⟩
  have hts : g.topo_sort = (some true, g) := by
    unfold GraphObj.topo_sort
    rw [if_pos hsorted]
  refine ⟨hgone, ?_, ⟨g2, hts, hr2, hstep, hops2, ?_, ?_⟩, by decide⟩
  · intro hw hord
    obtain ⟨N, hN⟩ := optimize_ok_valid g hvalid hw (fun _ => hord) (by rw [hts])
    refine ⟨N, fun fuel hf => ?_⟩
    obtain ⟨h, hopt, -⟩ := hN fuel hf
    exact ⟨h, hopt, hgone fuel h hopt⟩
  · intro c hc i
    rw [hop2 c, if_pos hc]
    simp only [OperatorObj.replaceInput, List.getElem?_map]
    constructor
    · intro h
      rw [h]
      simp
    · intro h
      cases hx : (g.op c).inputs[i]? with
      | none => rfl
      | some x =>
        have : x ≠ (g.op T2).getOutput := fun e => h (by rw [hx, e])
        simp [this]
  · intro c hc
    rw [hop2 c, if_neg hc]

set_option maxRecDepth 100000 in
theorem rule1_removes_first_pair_witness :
    upstreamSwap.checkValid = true ∧ upstreamSwap.sorted = true ∧
    upstreamSwap.ops = [10] ++ 11 :: [12, 13] ∧
    (∀ o ∈ [10], ∀ o2, ¬ upstreamSwap.InversePair o o2) ∧
    upstreamSwap.InversePair 11 12 ∧
    upstreamSwap.WellFormed ∧ upstreamSwap.TopoOrdered upstreamSwap.ops ∧
    (∀ fuel h, upstreamSwap.optimize fuel = .ok h → 11 ∉ h.ops ∧ 12 ∉ h.ops) ∧
    (∃ N, ∀ fuel, N ≤ fuel →
      ∃ h, upstreamSwap.optimize fuel = .ok h ∧ 11 ∉ h.ops ∧ 12 ∉ h.ops) ∧
    (∃ g2 : GraphObj,
      upstreamSwap.topo_sort = (some true, upstreamSwap) ∧
      upstreamSwap.rule1 upstreamSwap.ops = some g2 ∧
      (∀ fuel, upstreamSwap.rewriteLoop (fuel + 1) = g2.rewriteLoop fuel) ∧
      g2.ops = (upstreamSwap.ops.filter (fun o => o != 11)).filter (fun o => o != 12) ∧
      (∀ c ∈ (upstreamSwap.tensor (upstreamSwap.op 12).getOutput).targets, ∀ i : Nat,
        ((upstreamSwap.op c).inputs[i]? = some (upstreamSwap.op 12).getOutput →
          (g2.op c).inputs[i]? = some ((upstreamSwap.op 11).getInput 0)) ∧
        ((upstreamSwap.op c).inputs[i]? ≠ some (upstreamSwap.op 12).getOutput →
          (g2.op c).inputs[i]? = (upstreamSwap.op c).inputs[i]?)) ∧
      (∀ c, c ∉ (upstreamSwap.tensor (upstreamSwap.op 12).getOutput).targets →
        g2.op c = upstreamSwap.op c)) ∧
    (pairGraph.optimize 3).toOption.map (fun h => h.ops.length) =
      some (pairGraph.ops.length - 2) :=
  have hpre : ∀ o ∈ [10], ∀ o2, ¬ upstreamSwap.InversePair o o2 := by
    intro o ho o2 hp
    have ho2 : o = 10 := by simpa using ho
    subst ho2
    have hR := (inversePair_iff upstreamSwap 10 o2).1 hp
    have ht : (upstreamSwap.tensor (upstreamSwap.op 10).getOutput).targets = [11] := by
      decide
    have h2 := hR.2.1
    rw [ht] at h2
    have h3 : o2 = 11 := by simpa using h2.symm
    subst h3
    exact absurd hR (by decide)
  have hpair : upstreamSwap.InversePair 11 12 :=
    (inversePair_iff upstreamSwap 11 12).2 (by decide)
  have hw : upstreamSwap.WellFormed := ⟨by decide, by decide, by decide, by decide⟩
  have hord : upstreamSwap.TopoOrdered upstreamSwap.ops :=
    topo_sort_ordered
      ((((upstreamHeap.addOperatorAndConnect 10).addOperatorAndConnect
        11).addOperatorAndConnect 12).addOperatorAndConnect 13)
      (fun h => absurd h (by decide)) (by decide)
  have H := rule1_removes_first_pair upstreamSwap [10] [12, 13] 11 12 (by decide) (by decide)
    (by decide) hpre hpair
  ⟨by decide, by decide, by decide, hpre, hpair, hw, hord, H.1, H.2.1 hw hord, H.2.2.1,
    H.2.2.2⟩

end Infini
